import Mathlib

/-!
# Sensor statistics aggregation (`main.c`)

A shallow embedding of the aggregation core of `main.c`: the growable map of
`StatEntry` values (`init_map`, `ensure_capacity`, `find_entry`, `update_map`),
the worker body `thread_func`, and the partition and merge loops of `main`.

Modelling conventions.

* A C string is a `String`; one character stands for one C `char`.  The buffer
  `char device[MAX_DEVICE]` of a `Record` holds a NUL-terminated string, hence
  at most `MAX_DEVICE - 1` characters: the structure carries that bound.
* `double` readings are exact rationals (`ℚ`); `int` is `Int`; `size_t` is `Nat`.
  A second copy of the map, worker and merge code, with the suffix `_fp`, runs
  on `Dbl`, a number or NaN, with the comparisons of C: it shows what a NaN
  reading does and agrees with the first copy when every value is a number.
* `ssize_t find_entry` returns an `Int`: an index, or `-1`.
* A `StatMap` is the list of its first `size` entries together with its
  `capacity`; `size` is the length of that list.
* The worker count `nthreads` is a parameter (in `main` it is read from the
  operating system and forced to be at least 1).
* The library functions `strptime` and `atof` are parameters of the ingestion
  loop; a line is one string returned by `fgets`, and `strtok` is modelled by
  the sequence of tokens it returns.
* The conversions `%04d`, `%02d` and `%.2f` of the output stage act on exact
  values.
* A run of `main` is a function from its inputs to the exit code, the messages
  on stderr, the ranges handed to the created threads, the lines of the output
  file and the lines on stdout.
-/

namespace SensorStats

/-! ## Constants and data model -/

/-- Size of the device buffers (`#define MAX_DEVICE 64`). -/
abbrev MAX_DEVICE : Nat := 64

/-- Number of sensors per record (`#define N_SENSORS 6`). -/
abbrev N_SENSORS : Nat := 6

/-- The struct `Record`: device, year, month and the six readings. -/
structure Record where
  device : String
  ano : Int
  mes : Int
  sensor : Fin N_SENSORS → ℚ
  device_lt : device.length < MAX_DEVICE

/-- The struct `StatEntry`: statistics of one (device, ano, mes, sensor_id). -/
structure StatEntry where
  device : String
  ano : Int
  mes : Int
  sensor_id : Int
  min : ℚ
  max : ℚ
  soma : ℚ
  count : Nat
deriving DecidableEq

/-- The struct `StatMap`: the used prefix of the backing array and its capacity. -/
structure StatMap where
  entries : List StatEntry
  capacity : Nat

/-- The field `size` of a `StatMap`. -/
def StatMap.size (m : StatMap) : Nat := m.entries.length

/-- A key: (device, ano, mes, sensor_id). -/
abbrev Key : Type := String × Int × Int × Int

/-- The key of an entry. -/
def StatEntry.key (e : StatEntry) : Key := (e.device, e.ano, e.mes, e.sensor_id)

/-! ## The growable map -/

/-- The effect of `strncpy(dst, src, n); dst[n] = 0`: the first `n` characters. -/
def strncpy (src : String) (n : Nat) : String := ⟨src.data.take n⟩

/-- The function `init_map`: size 0, capacity 1024. -/
def init_map : StatMap := { entries := [], capacity := 1024 }

/-- The function `ensure_capacity`: double the capacity when the map is full. -/
def ensure_capacity (m : StatMap) : StatMap :=
  if m.size ≥ m.capacity then { m with capacity := m.capacity * 2 } else m

/-- The loop of `find_entry`, scanning from index `i`. -/
def find_entry_loop (dev : String) (ano mes sid : Int) : List StatEntry → Nat → Int
  | [], _ => -1
  | e :: es, i =>
    if e.sensor_id = sid ∧ e.ano = ano ∧ e.mes = mes ∧ e.device = dev then (i : Int)
    else find_entry_loop dev ano mes sid es (i + 1)

/-- The function `find_entry`: index of the first entry with the key, or -1. -/
def find_entry (m : StatMap) (dev : String) (ano mes sid : Int) : Int :=
  find_entry_loop dev ano mes sid m.entries 0

/-- In-place update of the entry at an index (`StatEntry *e = &entries[idx]`). -/
def modify_at (f : StatEntry → StatEntry) : List StatEntry → Nat → List StatEntry
  | [], _ => []
  | e :: es, 0 => f e :: es
  | e :: es, i + 1 => e :: modify_at f es i

/-- The else-branch of `update_map`: fold one reading into an entry. -/
def update_entry (val : ℚ) (e : StatEntry) : StatEntry :=
  { e with
    min := if val < e.min then val else e.min
    max := if val > e.max then val else e.max
    soma := e.soma + val
    count := e.count + 1 }

/-- The function `update_map`. -/
def update_map (m : StatMap) (dev : String) (ano mes sid : Int) (val : ℚ) : StatMap :=
  let idx := find_entry m dev ano mes sid
  if idx < 0 then
    let m1 := ensure_capacity m
    { m1 with
      entries := m1.entries ++
        [{ device := strncpy dev (MAX_DEVICE - 1), ano := ano, mes := mes, sensor_id := sid,
           min := val, max := val, soma := val, count := 1 }] }
  else
    { m with entries := modify_at (update_entry val) m.entries idx.toNat }

/-! ## Workers -/

/-- The inner loop of `thread_func`: the six `update_map` calls of one record. -/
def process_record (m : StatMap) (r : Record) : StatMap :=
  (List.finRange N_SENSORS).foldl
    (fun (acc : StatMap) (s : Fin N_SENSORS) =>
      update_map acc r.device r.ano r.mes (Int.ofNat s.val) (r.sensor s)) m

/-- The records visited by `for (i = start; i < end; i++)`. -/
def slice (records : List Record) (start stop : Nat) : List Record :=
  (records.take stop).drop start

/-- The function `thread_func`: fold the slice into a fresh local map. -/
def thread_func (records : List Record) (start stop : Nat) : StatMap :=
  (slice records start stop).foldl process_record init_map

/-! ## Partition and merge (`main`) -/

/-- The variable `chunk = n / nthreads`. -/
def chunk (n nthreads : Nat) : Nat := n / nthreads

/-- The field `args[i].start`. -/
def worker_start (n nthreads i : Nat) : Nat := i * chunk n nthreads

/-- The field `args[i].end`. -/
def worker_end (n nthreads i : Nat) : Nat :=
  if i = nthreads - 1 then n else (i + 1) * chunk n nthreads

/-- The local maps of all workers, in worker order. -/
def run_workers (records : List Record) (nthreads : Nat) : List StatMap :=
  (List.range nthreads).map fun i =>
    thread_func records (worker_start records.length nthreads i)
      (worker_end records.length nthreads i)

/-- The else-branch of the merge loop: combine entry `e` into the global entry `g`. -/
def combine_entry (e g : StatEntry) : StatEntry :=
  { g with
    min := if e.min < g.min then e.min else g.min
    max := if e.max > g.max then e.max else g.max
    soma := g.soma + e.soma
    count := g.count + e.count }

/-- One iteration of the merge loop of `main`: merge entry `e` into `g`. -/
def merge_entry (g : StatMap) (e : StatEntry) : StatMap :=
  let idx := find_entry g e.device e.ano e.mes e.sensor_id
  if idx < 0 then
    let g1 := ensure_capacity g
    { g1 with entries := g1.entries ++ [e] }
  else
    { g with entries := modify_at (combine_entry e) g.entries idx.toNat }

/-- The inner merge loop of `main`: merge every entry of `lm` into `g`. -/
def merge_map (g lm : StatMap) : StatMap :=
  lm.entries.foldl merge_entry g

/-- The join-and-merge loop of `main` over all local maps. -/
def merge_all (locals : List StatMap) : StatMap :=
  locals.foldl merge_map init_map

/-- The global map built by `main` from the records with `nthreads` workers. -/
def pipeline (records : List Record) (nthreads : Nat) : StatMap :=
  merge_all (run_workers records nthreads)

/-! ## Specification vocabulary -/

/-- No two entries share a key. -/
def UniqueKeys (m : StatMap) : Prop := (m.entries.map StatEntry.key).Nodup

instance (m : StatMap) : Decidable (UniqueKeys m) := by
  unfold UniqueKeys; infer_instance

/-- Some entry of the map has the key. -/
def HasKey (m : StatMap) (k : Key) : Prop := ∃ e ∈ m.entries, e.key = k

instance (m : StatMap) (k : Key) : Decidable (HasKey m k) := by
  unfold HasKey; infer_instance

/-- The first entry with the key, if any. -/
def lookup (k : Key) (es : List StatEntry) : Option StatEntry :=
  es.find? fun e => decide (e.key = k)

/-- List-level upsert: rewrite the first entry with key `k` by `f`, or append `new`. -/
def upsertL (k : Key) (new : StatEntry) (f : StatEntry → StatEntry) :
    List StatEntry → List StatEntry
  | [] => [new]
  | e :: es => if e.key = k then f e :: es else e :: upsertL k new f es

/-- The entry appended by the insert branch of `update_map`. -/
def new_entry (dev : String) (ano mes sid : Int) (val : ℚ) : StatEntry :=
  { device := strncpy dev (MAX_DEVICE - 1), ano := ano, mes := mes, sensor_id := sid,
    min := val, max := val, soma := val, count := 1 }

/-- Pairwise combination of two optional aggregates, receiver first. -/
def comb_opt : Option StatEntry → Option StatEntry → Option StatEntry
  | none, o => o
  | some g, none => some g
  | some g, some e => some (combine_entry e g)

/-- The bound invariant of one entry: `count ≥ 1` and `min ≤ soma / count ≤ max`. -/
def Bound (e : StatEntry) : Prop :=
  1 ≤ e.count ∧ e.min ≤ e.soma / (e.count : ℚ) ∧ e.soma / (e.count : ℚ) ≤ e.max

/-- The maps reachable from `init_map` by `update_map` calls and by merge steps of `main`,
a merge step taking its entry from a reachable map. -/
inductive Reachable : StatMap → Prop
  | init : Reachable init_map
  | update (m : StatMap) (dev : String) (ano mes sid : Int) (val : ℚ) :
      Reachable m → Reachable (update_map m dev ano mes sid val)
  | merge (g lm : StatMap) (e : StatEntry) :
      Reachable g → Reachable lm → e ∈ lm.entries → Reachable (merge_entry g e)

/-- The six (key, value) pairs that `thread_func` hands to `update_map` for one record. -/
def record_readings (r : Record) : List (Key × ℚ) :=
  (List.finRange N_SENSORS).map fun s =>
    ((r.device, r.ano, r.mes, Int.ofNat s.val), r.sensor s)

/-- The (key, value) pairs of a record sequence, record by record. -/
def readings : List Record → List (Key × ℚ)
  | [] => []
  | r :: rs => record_readings r ++ readings rs

/-- One `update_map` call on a (key, value) pair. -/
def update_pair (m : StatMap) (p : Key × ℚ) : StatMap :=
  update_map m p.1.1 p.1.2.1 p.1.2.2.1 p.1.2.2.2 p.2

/-- The values paired with key `k` in a list of (key, value) pairs. -/
def values_of (k : Key) (rd : List (Key × ℚ)) : List ℚ :=
  (rd.filter fun p => decide (p.1 = k)).map Prod.snd

/-- The readings `sensor[s]` of the records with device `d`, year `a` and month `m`. -/
def sensor_values (rs : List Record) (d : String) (a m : Int) (s : Fin N_SENSORS) : List ℚ :=
  (rs.filter fun r => decide (r.device = d ∧ r.ano = a ∧ r.mes = m)).map fun r => r.sensor s

/-- Entry `e` summarises the non-empty list `vs`: count, sum, least and greatest value. -/
def Summ (e : StatEntry) (vs : List ℚ) : Prop :=
  e.count = vs.length ∧ e.soma = vs.sum ∧ e.min ∈ vs ∧ (∀ v ∈ vs, e.min ≤ v) ∧
    e.max ∈ vs ∧ (∀ v ∈ vs, v ≤ e.max)

/-- An optional entry for key `k` summarises `vs`: absent when `vs` is empty. -/
def OptSumm (k : Key) : Option StatEntry → List ℚ → Prop
  | none, vs => vs = []
  | some e, vs => e.key = k ∧ Summ e vs

/-- The entries have unique keys and summarise, key by key, the pairs `rd`. -/
def Inv (es : List StatEntry) (rd : List (Key × ℚ)) : Prop :=
  (es.map StatEntry.key).Nodup ∧ ∀ k, OptSumm k (lookup k es) (values_of k rd)

/-- The slices handed to the workers, in worker order. -/
def slices (records : List Record) (nthreads : Nat) : List (List Record) :=
  (List.range nthreads).map fun i =>
    slice records (worker_start records.length nthreads i)
      (worker_end records.length nthreads i)

/-- The single-threaded reference: one fold of `update_map` over all records, sensor by
sensor. -/
def reference_fold (records : List Record) : StatMap :=
  records.foldl process_record init_map

/-- The struct `ThreadArg`: the shared records, the slice bounds (`start`, `end`) and the
worker's own map. -/
structure ThreadArg where
  records : List Record
  start : Nat
  stop : Nat
  local_map : StatMap

/-- The function `thread_func` as a transformer of its `ThreadArg`: every write goes through
`&ta->local_map`. -/
def run_thread (ta : ThreadArg) : ThreadArg :=
  { ta with local_map := thread_func ta.records ta.start ta.stop }

/-- Running worker `i` on the array `args` of `main`. -/
def run_thread_at (args : List ThreadArg) (i : Nat) : List ThreadArg :=
  match args[i]? with
  | some ta => args.set i (run_thread ta)
  | none => args

/-- Storage invariant of a map: the used prefix fits the backing array, whose capacity is
1024 doubled some number of times. -/
def StorageOk (m : StatMap) : Prop :=
  m.size ≤ m.capacity ∧ ∃ k : Nat, m.capacity = 1024 * 2 ^ k

/-- Number of records handed to worker `i`. -/
def slice_size (n nthreads i : Nat) : Nat :=
  worker_end n nthreads i - worker_start n nthreads i

/-- The (device, ano, mes) triple of a record. -/
def Record.triple (r : Record) : String × Int × Int := (r.device, r.ano, r.mes)

/-- The keys of a list in order of first occurrence, later repetitions removed. -/
def first_occurrences : List Key → List Key
  | [] => []
  | k :: ks => k :: (first_occurrences ks).filter fun x => decide (x ≠ k)

/-- Appending a key to a key list unless it is already there. -/
def insert_key (acc : List Key) (k : Key) : List Key :=
  if k ∈ acc then acc else acc ++ [k]

/-- The key list of a map, in storage order. -/
def StatMap.keys (m : StatMap) : List Key := m.entries.map StatEntry.key

/-! ## Ingestion (`main`, step 1)

The library functions `strptime` and `atof` are parameters. A line is one string returned by
`fgets`. -/

/-- The fields of `struct tm` that `main` reads. -/
structure Tm where
  tm_year : Int
  tm_mon : Int
deriving DecidableEq

/-- A message written to stderr. -/
inductive Diagnostic
  | perror (what : String)
  | header_error
  | missing_sensor (n : Nat) (s : Nat)
  | no_valid_record
deriving DecidableEq

/-- Successive `strtok(_, "|")` tokens of a character list: the maximal non-empty runs of
characters other than the delimiter. `cur` is the current token, reversed. -/
def strtok_loop : List Char → List Char → List String
  | [], cur => if cur = [] then [] else [String.mk cur.reverse]
  | c :: cs, cur =>
    if c = '|' then
      if cur = [] then strtok_loop cs [] else String.mk cur.reverse :: strtok_loop cs []
    else strtok_loop cs (c :: cur)

/-- All tokens that successive `strtok` calls return for a line. -/
def strtok_all (line : String) : List String := strtok_loop line.data []

/-- The cutoff test `ano < 2024 || (ano == 2024 && mes < 3)`: when true the line is skipped. -/
def before_cutoff (ano mes : Int) : Bool :=
  decide (ano < 2024) || (decide (ano = 2024) && decide (mes < 3))

/-- What one iteration of the ingestion loop does with a line. -/
inductive LineOutcome
  | missing_field
  | bad_date
  | dropped_by_cutoff (ano mes : Int)
  | missing_sensor (s : Nat)
  | kept (r : Record)

/-- One iteration of the ingestion loop: the first token is ignored, the second is the
device, the third is ignored, the fourth is the date, the next six are the readings. The
sensor loop stops at the first `s` for which `strtok` returns NULL, which is the number of
tokens left after the date. -/
def ingest_step (strptime : String → Option Tm) (atof : String → ℚ) (line : String) :
    LineOutcome :=
  match strtok_all line with
  | _ :: tok_dev :: _ :: tok_date :: sens =>
    let dev := strncpy tok_dev (MAX_DEVICE - 1)
    match strptime (strncpy tok_date 10) with
    | none => LineOutcome.bad_date
    | some tm =>
      let ano := tm.tm_year + 1900
      let mes := tm.tm_mon + 1
      if before_cutoff ano mes then LineOutcome.dropped_by_cutoff ano mes
      else if h : N_SENSORS ≤ sens.length then
        LineOutcome.kept
          { device := strncpy dev (MAX_DEVICE - 1), ano := ano, mes := mes,
            sensor := fun s => atof (sens.get ⟨s.val, Nat.lt_of_lt_of_le s.isLt h⟩),
            device_lt := Nat.lt_succ_of_le (List.length_take_le _ _) }
      else LineOutcome.missing_sensor sens.length
  | _ => LineOutcome.missing_field

/-- The record array (its first `n` entries) and the messages written so far. -/
structure IngestState where
  records : List Record
  stderr : List Diagnostic

/-- The effect of one line on the record array and on stderr. The message of a missing
sensor carries `n` after its increment. -/
def ingest_line (strptime : String → Option Tm) (atof : String → ℚ) (st : IngestState)
    (line : String) : IngestState :=
  match ingest_step strptime atof line with
  | LineOutcome.kept r => { st with records := st.records ++ [r] }
  | LineOutcome.missing_sensor s =>
    { st with stderr := st.stderr ++ [Diagnostic.missing_sensor (st.records.length + 1) s] }
  | _ => st

/-- The ingestion loop over the data lines. -/
def ingest (strptime : String → Option Tm) (atof : String → ℚ) (lines : List String) :
    IngestState :=
  lines.foldl (ingest_line strptime atof) { records := [], stderr := [] }

/-! ## Output (`main`, step 5) -/

/-- The table `sensor_names`. -/
def sensor_names : List String :=
  ["temperatura", "umidade", "luminosidade", "ruido", "eco2", "etvoc"]

/-- The entry `sensor_names[sid]`. -/
def sensor_name (sid : Int) : String :=
  if 0 ≤ sid then sensor_names.getD sid.toNat "" else ""

/-- Left padding with zeros up to a width. -/
def pad_zeros (width : Nat) (s : String) : String :=
  String.mk (List.replicate (width - s.length) '0' ++ s.data)

/-- The conversions `%04d` and `%02d`: zero padding to a width, the sign first. -/
def fmt_d (width : Nat) (z : Int) : String :=
  if z < 0 then "-" ++ pad_zeros (width - 1) (toString z.natAbs)
  else pad_zeros width (toString z.toNat)

/-- Rounding of a non-negative rational to the nearest natural number, ties to even. -/
def round_half_even (q : ℚ) : Nat :=
  let n := q.num.toNat
  let d := q.den
  if 2 * (n % d) < d then n / d
  else if d < 2 * (n % d) then n / d + 1
  else if (n / d) % 2 = 0 then n / d else n / d + 1

/-- The conversion `%.2f` on an exact value: two decimals, rounded to nearest. -/
def fmt_2f (x : ℚ) : String :=
  let c := round_half_even ((if x < 0 then -x else x) * 100)
  (if x < 0 then "-" else "") ++ toString (c / 100) ++ "." ++ pad_zeros 2 (toString (c % 100))

/-- The header line of the output table. -/
def header_row : String := "device;ano-mes;sensor;valor_maximo;valor_medio;valor_minimo\n"

/-- The line `snprintf` builds for one entry, in a buffer of 500 characters. -/
def render_row (e : StatEntry) : String :=
  strncpy
    (e.device ++ ";" ++ fmt_d 4 e.ano ++ "-" ++ fmt_d 2 e.mes ++ ";" ++
      sensor_name e.sensor_id ++ ";" ++ fmt_2f e.max ++ ";" ++
      fmt_2f (e.soma / (e.count : ℚ)) ++ ";" ++ fmt_2f e.min ++ "\n") 499

/-! ## The run of `main` -/

/-- The worker count: the detected processor count, or 1 when it is below 1. -/
def detect_nthreads (nprocs : Int) : Nat :=
  if nprocs < 1 then 1 else nprocs.toNat

/-- What a run of `main` leaves behind: the exit code, the messages on stderr, the ranges
handed to the created threads, the lines of `resumo.csv` (`none` while the file has not been
opened) and the lines on stdout. -/
structure RunResult where
  exit_code : Int
  stderr : List Diagnostic
  ranges : List (Nat × Nat)
  output_file : Option (List String)
  stdout : List String

/-- The function `main`. The input is `none` when `devices.csv` cannot be opened, else its
lines, header first; `nprocs` is the value of `sysconf`; `out_ok` tells whether
`resumo.csv` can be opened for writing. -/
def main_run (strptime : String → Option Tm) (atof : String → ℚ)
    (input : Option (List String)) (nprocs : Int) (out_ok : Bool) : RunResult :=
  match input with
  | none =>
    { exit_code := 1, stderr := [Diagnostic.perror "devices.csv"], ranges := [],
      output_file := none, stdout := [] }
  | some [] =>
    { exit_code := 1, stderr := [Diagnostic.header_error], ranges := [],
      output_file := none, stdout := [] }
  | some (_ :: lines) =>
    let st := ingest strptime atof lines
    if st.records.length = 0 then
      { exit_code := 1, stderr := st.stderr ++ [Diagnostic.no_valid_record], ranges := [],
        output_file := none, stdout := [] }
    else
      let nthreads := detect_nthreads nprocs
      let ranges := (List.range nthreads).map fun i =>
        (worker_start st.records.length nthreads i, worker_end st.records.length nthreads i)
      let rows := (pipeline st.records nthreads).entries.map render_row
      if out_ok then
        { exit_code := 0, stderr := st.stderr, ranges := ranges,
          output_file := some (header_row :: rows),
          stdout := "Resultado:\n" :: header_row :: rows ++
            ["resumo.csv gerado com sucesso.\n"] }
      else
        { exit_code := 1, stderr := st.stderr ++ [Diagnostic.perror "resumo.csv"],
          ranges := ranges, output_file := none, stdout := [] }

/-- The records that survive ingestion and the cutoff: the `n` records of `main`. -/
def survivors (strptime : String → Option Tm) (atof : String → ℚ)
    (input : Option (List String)) : List Record :=
  match input with
  | some (_ :: lines) => (ingest strptime atof lines).records
  | _ => []

/-! ## The same code on doubles that may be NaN

The functions of the map, the worker and the merge loop once more, on values that are a
number or NaN. A comparison with a NaN operand is false, as in C. -/

/-- A `double` as the comparisons of `main.c` see it: NaN or a number. -/
inductive Dbl
  | nan
  | num (q : ℚ)
deriving DecidableEq

/-- The comparison `a < b` of C: false when an operand is NaN. -/
def Dbl.lt : Dbl → Dbl → Bool
  | Dbl.num a, Dbl.num b => decide (a < b)
  | _, _ => false

/-- The sum `a + b` of C, exact on numbers: NaN when an operand is NaN. -/
def Dbl.add : Dbl → Dbl → Dbl
  | Dbl.num a, Dbl.num b => Dbl.num (a + b)
  | _, _ => Dbl.nan

/-- The value of a number; 0 for NaN. -/
def Dbl.toRat : Dbl → ℚ
  | Dbl.num q => q
  | Dbl.nan => 0

/-- The struct `Record` with readings that may be NaN. -/
structure RecordFp where
  device : String
  ano : Int
  mes : Int
  sensor : Fin N_SENSORS → Dbl
  device_lt : device.length < MAX_DEVICE

/-- The struct `StatEntry` with values that may be NaN. -/
structure StatEntryFp where
  device : String
  ano : Int
  mes : Int
  sensor_id : Int
  min : Dbl
  max : Dbl
  soma : Dbl
  count : Nat
deriving DecidableEq

/-- The struct `StatMap` over `StatEntryFp`. -/
structure StatMapFp where
  entries : List StatEntryFp
  capacity : Nat
deriving DecidableEq

/-- The field `size` of a `StatMapFp`. -/
def StatMapFp.size (m : StatMapFp) : Nat := m.entries.length

/-- The key of an entry. -/
def StatEntryFp.key (e : StatEntryFp) : Key := (e.device, e.ano, e.mes, e.sensor_id)

/-- The function `init_map`. -/
def init_map_fp : StatMapFp := { entries := [], capacity := 1024 }

/-- The function `ensure_capacity`. -/
def ensure_capacity_fp (m : StatMapFp) : StatMapFp :=
  if m.size ≥ m.capacity then { m with capacity := m.capacity * 2 } else m

/-- The loop of `find_entry`, scanning from index `i`. -/
def find_entry_loop_fp (dev : String) (ano mes sid : Int) : List StatEntryFp → Nat → Int
  | [], _ => -1
  | e :: es, i =>
    if e.sensor_id = sid ∧ e.ano = ano ∧ e.mes = mes ∧ e.device = dev then (i : Int)
    else find_entry_loop_fp dev ano mes sid es (i + 1)

/-- The function `find_entry`. -/
def find_entry_fp (m : StatMapFp) (dev : String) (ano mes sid : Int) : Int :=
  find_entry_loop_fp dev ano mes sid m.entries 0

/-- In-place update of the entry at an index. -/
def modify_at_fp (f : StatEntryFp → StatEntryFp) : List StatEntryFp → Nat → List StatEntryFp
  | [], _ => []
  | e :: es, 0 => f e :: es
  | e :: es, i + 1 => e :: modify_at_fp f es i

/-- The else-branch of `update_map`: `if (val < e->min) ...; if (val > e->max) ...`. -/
def update_entry_fp (val : Dbl) (e : StatEntryFp) : StatEntryFp :=
  { e with
    min := if Dbl.lt val e.min then val else e.min
    max := if Dbl.lt e.max val then val else e.max
    soma := Dbl.add e.soma val
    count := e.count + 1 }

/-- The function `update_map`. -/
def update_map_fp (m : StatMapFp) (dev : String) (ano mes sid : Int) (val : Dbl) : StatMapFp :=
  let idx := find_entry_fp m dev ano mes sid
  if idx < 0 then
    let m1 := ensure_capacity_fp m
    { m1 with
      entries := m1.entries ++
        [{ device := strncpy dev (MAX_DEVICE - 1), ano := ano, mes := mes, sensor_id := sid,
           min := val, max := val, soma := val, count := 1 }] }
  else
    { m with entries := modify_at_fp (update_entry_fp val) m.entries idx.toNat }

/-- The inner loop of `thread_func`. -/
def process_record_fp (m : StatMapFp) (r : RecordFp) : StatMapFp :=
  (List.finRange N_SENSORS).foldl
    (fun (acc : StatMapFp) (s : Fin N_SENSORS) =>
      update_map_fp acc r.device r.ano r.mes (Int.ofNat s.val) (r.sensor s)) m

/-- The records visited by `for (i = start; i < end; i++)`. -/
def slice_fp (records : List RecordFp) (start stop : Nat) : List RecordFp :=
  (records.take stop).drop start

/-- The function `thread_func`. -/
def thread_func_fp (records : List RecordFp) (start stop : Nat) : StatMapFp :=
  (slice_fp records start stop).foldl process_record_fp init_map_fp

/-- The local maps of all workers, in worker order. -/
def run_workers_fp (records : List RecordFp) (nthreads : Nat) : List StatMapFp :=
  (List.range nthreads).map fun i =>
    thread_func_fp records (worker_start records.length nthreads i)
      (worker_end records.length nthreads i)

/-- The else-branch of the merge loop: `if (e->min < g->min) ...; if (e->max > g->max) ...`. -/
def combine_entry_fp (e g : StatEntryFp) : StatEntryFp :=
  { g with
    min := if Dbl.lt e.min g.min then e.min else g.min
    max := if Dbl.lt g.max e.max then e.max else g.max
    soma := Dbl.add g.soma e.soma
    count := g.count + e.count }

/-- One iteration of the merge loop of `main`. -/
def merge_entry_fp (g : StatMapFp) (e : StatEntryFp) : StatMapFp :=
  let idx := find_entry_fp g e.device e.ano e.mes e.sensor_id
  if idx < 0 then
    let g1 := ensure_capacity_fp g
    { g1 with entries := g1.entries ++ [e] }
  else
    { g with entries := modify_at_fp (combine_entry_fp e) g.entries idx.toNat }

/-- The inner merge loop of `main`. -/
def merge_map_fp (g lm : StatMapFp) : StatMapFp :=
  lm.entries.foldl merge_entry_fp g

/-- The join-and-merge loop of `main` over all local maps. -/
def merge_all_fp (locals : List StatMapFp) : StatMapFp :=
  locals.foldl merge_map_fp init_map_fp

/-- The global map built by `main` from the records with `nthreads` workers. -/
def pipeline_fp (records : List RecordFp) (nthreads : Nat) : StatMapFp :=
  merge_all_fp (run_workers_fp records nthreads)

/-- The single-threaded reference on `RecordFp`. -/
def reference_fold_fp (records : List RecordFp) : StatMapFp :=
  records.foldl process_record_fp init_map_fp

/-- No two entries share a key. -/
def UniqueKeysFp (m : StatMapFp) : Prop := (m.entries.map StatEntryFp.key).Nodup

instance (m : StatMapFp) : Decidable (UniqueKeysFp m) := by
  unfold UniqueKeysFp; infer_instance

/-- Every reading of the record is a number. -/
def RecordFp.Numeric (r : RecordFp) : Prop := ∀ s : Fin N_SENSORS, r.sensor s ≠ Dbl.nan

instance (r : RecordFp) : Decidable r.Numeric := by
  unfold RecordFp.Numeric; infer_instance

/-- The min, max and soma of the entry are numbers. -/
def StatEntryFp.Numeric (e : StatEntryFp) : Prop :=
  e.min ≠ Dbl.nan ∧ e.max ≠ Dbl.nan ∧ e.soma ≠ Dbl.nan

instance (e : StatEntryFp) : Decidable e.Numeric := by
  unfold StatEntryFp.Numeric; infer_instance

/-- The min, max and soma of every entry of the map are numbers. -/
def StatMapFp.Numeric (m : StatMapFp) : Prop := ∀ e ∈ m.entries, e.Numeric

instance (m : StatMapFp) : Decidable m.Numeric := by
  unfold StatMapFp.Numeric; infer_instance

/-- An entry on exact numbers, seen as an entry on doubles. -/
def StatEntry.toFp (e : StatEntry) : StatEntryFp :=
  { device := e.device, ano := e.ano, mes := e.mes, sensor_id := e.sensor_id,
    min := Dbl.num e.min, max := Dbl.num e.max, soma := Dbl.num e.soma, count := e.count }

/-- A map on exact numbers, seen as a map on doubles. -/
def StatMap.toFp (m : StatMap) : StatMapFp :=
  { entries := m.entries.map StatEntry.toFp, capacity := m.capacity }

/-- A record on exact numbers, seen as a record on doubles. -/
def Record.toFp (r : Record) : RecordFp :=
  { device := r.device, ano := r.ano, mes := r.mes, sensor := fun s => Dbl.num (r.sensor s),
    device_lt := r.device_lt }

/-- The values of an entry on doubles, NaN read as 0. -/
def StatEntryFp.toExact (e : StatEntryFp) : StatEntry :=
  { device := e.device, ano := e.ano, mes := e.mes, sensor_id := e.sensor_id,
    min := e.min.toRat, max := e.max.toRat, soma := e.soma.toRat, count := e.count }

/-- The values of a map on doubles, NaN read as 0. -/
def StatMapFp.toExact (m : StatMapFp) : StatMap :=
  { entries := m.entries.map StatEntryFp.toExact, capacity := m.capacity }

/-- The values of a record on doubles, NaN read as 0. -/
def RecordFp.toExact (r : RecordFp) : Record :=
  { device := r.device, ano := r.ano, mes := r.mes, sensor := fun s => (r.sensor s).toRat,
    device_lt := r.device_lt }

/-! ## Concrete inputs -/

/-- A device name of 63 characters, the longest that fits a device buffer. -/
def dev63 : String := ⟨List.replicate 63 'a'⟩

/-- A device name of 64 characters, one more than a device buffer holds. -/
def dev64 : String := ⟨List.replicate 64 'a'⟩

/-- A map whose only entry has the key `(dev63, 2024, 3, 0)`. -/
def map63 : StatMap :=
  { entries := [{ device := dev63, ano := 2024, mes := 3, sensor_id := 0,
                  min := 1, max := 1, soma := 1, count := 1 }],
    capacity := 1024 }

/-- A record of device `"A"`, March 2024, with reading `v` on sensor 0 and 0 elsewhere. -/
def sample_record (v : ℚ) : Record :=
  { device := "A", ano := 2024, mes := 3,
    sensor := fun s => if s.val = 0 then v else 0,
    device_lt := by decide }

/-- A date parser for tests: it knows three dates. -/
def sample_strptime (s : String) : Option Tm :=
  if s = "2024-03-01" then some { tm_year := 124, tm_mon := 2 }
  else if s = "2024-02-29" then some { tm_year := 124, tm_mon := 1 }
  else if s = "2023-12-31" then some { tm_year := 123, tm_mon := 11 }
  else none

/-- A number parser for tests: every field reads as 1. -/
def sample_atof (_ : String) : ℚ := 1

/-- A complete data line dated 2024-03-01. -/
def line_ok : String := "1|dev|7|2024-03-01 00:00:00|1|2|3|4|5|6"

/-- A data line with a single field. -/
def line_short : String := "id-only"

/-- A data line with all its fields whose date does not parse. -/
def line_bad_date : String := "1|dev|7|31/12/2024|1|2|3|4|5|6"

/-- A data line dated 2024-03-01 whose last sensor field is missing. -/
def line_five : String := "1|dev|7|2024-03-01 00:00:00|1|2|3|4|5"

/-- The entry of device `"A"`, March 2024, sensor 0 with min 1, max 3, soma 6, count 3. -/
def sample_entry : StatEntry :=
  { device := "A", ano := 2024, mes := 3, sensor_id := 0, min := 1, max := 3, soma := 6,
    count := 3 }

/-- A record of device `"A"`, March 2024, with reading `v` on sensor 0 and 0 elsewhere. -/
def sample_record_fp (v : Dbl) : RecordFp :=
  { device := "A", ano := 2024, mes := 3,
    sensor := fun s => if s.val = 0 then v else Dbl.num 0,
    device_lt := by decide }

/-- Three records of one device and month whose sensor 0 reads 1, NaN and 0. -/
def nan_records : List RecordFp :=
  [sample_record_fp (Dbl.num 1), sample_record_fp Dbl.nan, sample_record_fp (Dbl.num 0)]

/-- The local map of a worker whose only record reads NaN on sensor 0. -/
def nan_map : StatMapFp := thread_func_fp [sample_record_fp Dbl.nan] 0 1

/-- The local map of a worker whose only record reads 1 on sensor 0. -/
def one_map : StatMapFp := thread_func_fp [sample_record_fp (Dbl.num 1)] 0 1

/-- A one-entry map on doubles: key `("A", 2024, 3, sid)`, one reading `v`. -/
def single_map_fp (sid : Int) (v : ℚ) : StatMapFp :=
  { entries := [{ device := "A", ano := 2024, mes := 3, sensor_id := sid,
                  min := Dbl.num v, max := Dbl.num v, soma := Dbl.num v, count := 1 }],
    capacity := 1024 }

/-- A two-entry map on doubles: sensor 0 with one reading 5, sensor 1 with one reading 2. -/
def pair_map_fp : StatMapFp :=
  { entries := [{ device := "A", ano := 2024, mes := 3, sensor_id := 0,
                  min := Dbl.num 5, max := Dbl.num 5, soma := Dbl.num 5, count := 1 },
                { device := "A", ano := 2024, mes := 3, sensor_id := 1,
                  min := Dbl.num 2, max := Dbl.num 2, soma := Dbl.num 2, count := 1 }],
    capacity := 1024 }

/-- A data line dated 2024-03-01 whose sixth sensor field is empty, closed by a separator
and the newline. -/
def line_trailing : String := "1|dev|7|2024-03-01 00:00:00|1|2|3|4|5|\n"


/-! ## Basic facts about the map operations -/

theorem strncpy_of_lt (dev : String) (h : dev.length < MAX_DEVICE) :
    strncpy dev (MAX_DEVICE - 1) = dev := by
  have h1 : dev.data.length ≤ MAX_DEVICE - 1 := by
    have : dev.data.length = dev.length := rfl
    omega
  show String.mk (dev.data.take (MAX_DEVICE - 1)) = dev
  rw [List.take_of_length_le h1]

theorem strncpy_length_le (dev : String) (n : Nat) : (strncpy dev n).length ≤ n := by
  show (dev.data.take n).length ≤ n
  exact List.length_take_le n dev.data

theorem key_eq_iff (e : StatEntry) (dev : String) (ano mes sid : Int) :
    (e.sensor_id = sid ∧ e.ano = ano ∧ e.mes = mes ∧ e.device = dev) ↔
      e.key = (dev, ano, mes, sid) := by
  simp only [StatEntry.key, Prod.mk.injEq]
  tauto

theorem update_entry_key (val : ℚ) (e : StatEntry) : (update_entry val e).key = e.key := rfl

theorem combine_entry_key (e g : StatEntry) : (combine_entry e g).key = g.key := rfl

theorem ensure_capacity_entries (m : StatMap) : (ensure_capacity m).entries = m.entries := by
  unfold ensure_capacity
  split <;> rfl

theorem find_entry_loop_range (dev : String) (ano mes sid : Int) (es : List StatEntry) (i : Nat) :
    find_entry_loop dev ano mes sid es i = -1 ∨
      ((i : Int) ≤ find_entry_loop dev ano mes sid es i ∧
        find_entry_loop dev ano mes sid es i < (i : Int) + es.length) := by
  induction es generalizing i with
  | nil => left; rfl
  | cons e es ih =>
    unfold find_entry_loop
    split
    · right
      simp only [List.length_cons]
      omega
    · rcases ih (i + 1) with h | h
      · left; exact h
      · right
        simp only [List.length_cons]
        omega

theorem find_entry_loop_upsertL (dev : String) (ano mes sid : Int) (new : StatEntry)
    (f : StatEntry → StatEntry) (es : List StatEntry) (i : Nat) :
    (if find_entry_loop dev ano mes sid es i < 0 then es ++ [new]
      else modify_at f es (find_entry_loop dev ano mes sid es i - i).toNat) =
      upsertL (dev, ano, mes, sid) new f es := by
  induction es generalizing i with
  | nil => simp [find_entry_loop, upsertL]
  | cons e es ih =>
    unfold find_entry_loop upsertL
    by_cases hk : e.key = (dev, ano, mes, sid)
    · have hc := (key_eq_iff e dev ano mes sid).2 hk
      rw [if_pos hc, if_pos hk]
      have h0 : ¬ ((i : Int) < 0) := by omega
      rw [if_neg h0]
      simp [modify_at]
    · have hc : ¬ (e.sensor_id = sid ∧ e.ano = ano ∧ e.mes = mes ∧ e.device = dev) :=
        fun h => hk ((key_eq_iff e dev ano mes sid).1 h)
      rw [if_neg hc, if_neg hk, ← ih (i + 1)]
      rcases find_entry_loop_range dev ano mes sid es (i + 1) with h | h
      · rw [h]; simp
      · have h0 : ¬ (find_entry_loop dev ano mes sid es (i + 1) < 0) := by omega
        rw [if_neg h0, if_neg h0]
        have h1 : (find_entry_loop dev ano mes sid es (i + 1) - (i : Int)).toNat =
            (find_entry_loop dev ano mes sid es (i + 1) - ((i + 1 : Nat) : Int)).toNat + 1 := by
          omega
        rw [h1]
        simp [modify_at]

theorem update_map_entries (m : StatMap) (dev : String) (ano mes sid : Int) (val : ℚ) :
    (update_map m dev ano mes sid val).entries =
      upsertL (dev, ano, mes, sid) (new_entry dev ano mes sid val) (update_entry val)
        m.entries := by
  rw [← find_entry_loop_upsertL dev ano mes sid _ _ m.entries 0]
  unfold update_map find_entry
  simp only [Nat.cast_zero, sub_zero]
  by_cases hlt : find_entry_loop dev ano mes sid m.entries 0 < 0
  · simp only [hlt, if_true, ensure_capacity_entries, new_entry]
  · simp only [hlt, if_false]

theorem merge_entry_entries (g : StatMap) (e : StatEntry) :
    (merge_entry g e).entries = upsertL e.key e (combine_entry e) g.entries := by
  have h := find_entry_loop_upsertL e.device e.ano e.mes e.sensor_id e (combine_entry e)
    g.entries 0
  simp only [Nat.cast_zero, sub_zero] at h
  rw [show e.key = (e.device, e.ano, e.mes, e.sensor_id) from rfl, ← h]
  unfold merge_entry find_entry
  by_cases hlt : find_entry_loop e.device e.ano e.mes e.sensor_id g.entries 0 < 0
  · simp only [hlt, if_true, ensure_capacity_entries]
  · simp only [hlt, if_false]

/-! ## Lookup and keys of the list-level upsert -/

theorem lookup_eq_none_iff (k : Key) (es : List StatEntry) :
    lookup k es = none ↔ k ∉ es.map StatEntry.key := by
  simp only [lookup, List.find?_eq_none, decide_eq_true_eq, List.mem_map, not_exists, not_and]

theorem lookup_some_key {k : Key} {es : List StatEntry} {e : StatEntry}
    (h : lookup k es = some e) : e.key = k := by
  have := List.find?_some h
  simpa using this

theorem lookup_some_mem {k : Key} {es : List StatEntry} {e : StatEntry}
    (h : lookup k es = some e) : e ∈ es :=
  List.mem_of_find?_eq_some h

theorem lookup_cons (k : Key) (e : StatEntry) (es : List StatEntry) :
    lookup k (e :: es) = if e.key = k then some e else lookup k es := by
  unfold lookup
  by_cases h : e.key = k
  · simp [List.find?_cons, h]
  · simp [List.find?_cons, h]

theorem lookup_of_mem {es : List StatEntry} (hnd : (es.map StatEntry.key).Nodup)
    {e : StatEntry} (he : e ∈ es) : lookup e.key es = some e := by
  induction es with
  | nil => cases he
  | cons a es ih =>
    rw [lookup_cons]
    rw [List.map_cons, List.nodup_cons] at hnd
    rcases List.mem_cons.1 he with rfl | h
    · simp
    · have hne : a.key ≠ e.key := by
        intro heq
        exact hnd.1 (heq ▸ List.mem_map_of_mem StatEntry.key h)
      rw [if_neg hne]
      exact ih hnd.2 h

theorem mem_iff_lookup {es : List StatEntry} (hnd : (es.map StatEntry.key).Nodup)
    (e : StatEntry) : e ∈ es ↔ lookup e.key es = some e :=
  ⟨lookup_of_mem hnd, lookup_some_mem⟩

theorem lookup_upsertL (k k1 : Key) (new : StatEntry) (f : StatEntry → StatEntry)
    (hnew : new.key = k) (hf : ∀ e, (f e).key = e.key) (es : List StatEntry) :
    lookup k1 (upsertL k new f es) =
      if k1 = k then some ((lookup k es).elim new f) else lookup k1 es := by
  induction es with
  | nil =>
    unfold upsertL
    rw [lookup_cons, hnew]
    by_cases h : k1 = k
    · subst h; simp [lookup]
    · have h2 : ¬ k = k1 := fun h3 => h h3.symm
      simp [h, h2, lookup]
  | cons e es ih =>
    unfold upsertL
    by_cases hk : e.key = k
    · rw [if_pos hk, lookup_cons, hf, lookup_cons, lookup_cons, hk]
      by_cases h : k1 = k
      · subst h; simp
      · have h2 : ¬ k = k1 := fun h3 => h h3.symm
        simp [h, h2]
    · rw [if_neg hk, lookup_cons, ih, lookup_cons, lookup_cons, if_neg hk]
      by_cases h : k1 = k
      · subst h; simp [hk]
      · simp [h]

theorem keys_upsertL (k : Key) (new : StatEntry) (f : StatEntry → StatEntry)
    (hnew : new.key = k) (hf : ∀ e, (f e).key = e.key) (es : List StatEntry) :
    (upsertL k new f es).map StatEntry.key =
      if k ∈ es.map StatEntry.key then es.map StatEntry.key
      else es.map StatEntry.key ++ [k] := by
  induction es with
  | nil => simp [upsertL, hnew]
  | cons e es ih =>
    unfold upsertL
    by_cases hk : e.key = k
    · rw [if_pos hk]
      simp [hf, hk]
    · rw [if_neg hk, List.map_cons, ih]
      have hk2 : ¬ k = e.key := fun h3 => hk h3.symm
      by_cases hm : k ∈ es.map StatEntry.key
      · simp [hm]
      · simp [hm, hk2]

theorem nodup_keys_upsertL (k : Key) (new : StatEntry) (f : StatEntry → StatEntry)
    (hnew : new.key = k) (hf : ∀ e, (f e).key = e.key) (es : List StatEntry)
    (hnd : (es.map StatEntry.key).Nodup) :
    ((upsertL k new f es).map StatEntry.key).Nodup := by
  rw [keys_upsertL k new f hnew hf]
  split
  · exact hnd
  · rename_i hm
    rw [List.nodup_append]
    refine ⟨hnd, List.nodup_singleton k, ?_⟩
    intro a ha hb
    rw [List.mem_singleton] at hb
    exact hm (hb ▸ ha)

/-! ## Merging maps -/

theorem merge_entry_unique (g : StatMap) (e : StatEntry) (hg : UniqueKeys g) :
    UniqueKeys (merge_entry g e) := by
  unfold UniqueKeys
  rw [merge_entry_entries]
  exact nodup_keys_upsertL e.key e (combine_entry e) rfl (combine_entry_key e) _ hg

theorem foldl_merge_entry_unique (es : List StatEntry) (g : StatMap) (hg : UniqueKeys g) :
    UniqueKeys (es.foldl merge_entry g) := by
  induction es generalizing g with
  | nil => exact hg
  | cons e es ih => exact ih _ (merge_entry_unique g e hg)

theorem merge_map_unique (g lm : StatMap) (hg : UniqueKeys g) : UniqueKeys (merge_map g lm) :=
  foldl_merge_entry_unique lm.entries g hg

theorem lookup_merge_entry (g : StatMap) (e : StatEntry) (k : Key) :
    lookup k (merge_entry g e).entries =
      if k = e.key then some ((lookup e.key g.entries).elim e (combine_entry e))
      else lookup k g.entries := by
  rw [merge_entry_entries]
  exact lookup_upsertL e.key k e (combine_entry e) rfl (combine_entry_key e) _

theorem lookup_foldl_merge_entry (es : List StatEntry) (hnd : (es.map StatEntry.key).Nodup)
    (g : StatMap) (k : Key) :
    lookup k (es.foldl merge_entry g).entries = comb_opt (lookup k g.entries) (lookup k es) := by
  induction es generalizing g with
  | nil =>
    simp only [List.foldl_nil, lookup, List.find?_nil]
    cases List.find? (fun e => decide (e.key = k)) g.entries <;> rfl
  | cons e es ih =>
    rw [List.map_cons, List.nodup_cons] at hnd
    rw [List.foldl_cons, ih hnd.2, lookup_merge_entry, lookup_cons]
    by_cases h : k = e.key
    · subst h
      have hn : lookup e.key es = none := (lookup_eq_none_iff _ _).2 hnd.1
      rw [hn]
      simp only [if_true]
      cases lookup e.key g.entries <;> rfl
    · have h2 : ¬ e.key = k := fun h3 => h h3.symm
      rw [if_neg h, if_neg h2]

theorem lookup_merge_map (g lm : StatMap) (hl : UniqueKeys lm) (k : Key) :
    lookup k (merge_map g lm).entries =
      comb_opt (lookup k g.entries) (lookup k lm.entries) :=
  lookup_foldl_merge_entry lm.entries hl g k

/-! ## Shape of an upsert -/

theorem upsertL_of_not_mem (k : Key) (new : StatEntry) (f : StatEntry → StatEntry)
    (es : List StatEntry) (h : ∀ e ∈ es, e.key ≠ k) : upsertL k new f es = es ++ [new] := by
  induction es with
  | nil => rfl
  | cons a es ih =>
    unfold upsertL
    rw [if_neg (h a (List.mem_cons_self a es)),
      ih fun e he => h e (List.mem_cons_of_mem a he)]
    rfl

theorem upsertL_of_mem (k : Key) (new : StatEntry) (f : StatEntry → StatEntry)
    (es : List StatEntry) (h : ∃ e ∈ es, e.key = k) :
    ∃ i e, es[i]? = some e ∧ e.key = k ∧ (∀ j < i, ∀ x, es[j]? = some x → x.key ≠ k) ∧
      upsertL k new f es = es.set i (f e) := by
  induction es with
  | nil =>
    obtain ⟨e, he, _⟩ := h
    cases he
  | cons a es ih =>
    unfold upsertL
    by_cases hk : a.key = k
    · refine ⟨0, a, by simp, hk, ?_, by simp [hk]⟩
      intro j hj
      omega
    · have h2 : ∃ e ∈ es, e.key = k := by
        obtain ⟨e, he, hek⟩ := h
        rcases List.mem_cons.1 he with rfl | he2
        · exact absurd hek hk
        · exact ⟨e, he2, hek⟩
      obtain ⟨i, e, hi, hek, hfirst, hset⟩ := ih h2
      refine ⟨i + 1, e, by simpa using hi, hek, ?_, by simp [hk, hset]⟩
      intro j hj x hx
      cases j with
      | zero =>
        simp only [List.getElem?_cons_zero, Option.some.injEq] at hx
        exact hx ▸ hk
      | succ j =>
        simp only [List.getElem?_cons_succ] at hx
        exact hfirst j (by omega) x hx

theorem update_entry_eq (val : ℚ) (e : StatEntry) :
    update_entry val e =
      { e with min := min e.min val, max := max e.max val, soma := e.soma + val,
               count := e.count + 1 } := by
  unfold update_entry
  congr 1
  · rcases lt_or_le val e.min with h | h
    · rw [if_pos h, min_eq_right h.le]
    · rw [if_neg (not_lt.2 h), min_eq_left h]
  · rcases lt_or_le e.max val with h | h
    · rw [if_pos h, max_eq_right h.le]
    · rw [if_neg (not_lt.2 h), max_eq_left h]

theorem combine_entry_eq (e g : StatEntry) :
    combine_entry e g =
      { g with min := min g.min e.min, max := max g.max e.max, soma := g.soma + e.soma,
               count := g.count + e.count } := by
  unfold combine_entry
  congr 1
  · rcases lt_or_le e.min g.min with h | h
    · rw [if_pos h, min_eq_right h.le]
    · rw [if_neg (not_lt.2 h), min_eq_left h]
  · rcases lt_or_le g.max e.max with h | h
    · rw [if_pos h, max_eq_right h.le]
    · rw [if_neg (not_lt.2 h), max_eq_left h]

theorem new_entry_key (dev : String) (ano mes sid : Int) (val : ℚ)
    (h : dev.length < MAX_DEVICE) : (new_entry dev ano mes sid val).key = (dev, ano, mes, sid) := by
  simp only [new_entry, StatEntry.key, strncpy_of_lt dev h]

theorem update_map_unique (m : StatMap) (dev : String) (ano mes sid : Int) (val : ℚ)
    (hm : UniqueKeys m) (h : dev.length < MAX_DEVICE) :
    UniqueKeys (update_map m dev ano mes sid val) := by
  unfold UniqueKeys
  rw [update_map_entries]
  exact nodup_keys_upsertL _ _ _ (new_entry_key dev ano mes sid val h) (update_entry_key val) _ hm

theorem init_map_unique : UniqueKeys init_map := List.nodup_nil

theorem process_record_unique (m : StatMap) (r : Record) (hm : UniqueKeys m) :
    UniqueKeys (process_record m r) := by
  unfold process_record
  generalize List.finRange N_SENSORS = ss
  induction ss generalizing m with
  | nil => exact hm
  | cons s ss ih =>
    exact ih _ (update_map_unique m r.device r.ano r.mes _ _ hm r.device_lt)

theorem foldl_process_record_unique (rs : List Record) (m : StatMap) (hm : UniqueKeys m) :
    UniqueKeys (rs.foldl process_record m) := by
  induction rs generalizing m with
  | nil => exact hm
  | cons r rs ih => exact ih _ (process_record_unique m r hm)

theorem thread_func_unique (records : List Record) (start stop : Nat) :
    UniqueKeys (thread_func records start stop) :=
  foldl_process_record_unique _ _ init_map_unique

theorem merge_all_unique (locals : List StatMap) : UniqueKeys (merge_all locals) := by
  unfold merge_all
  generalize init_map_unique_gen : init_map = g0
  have hg : UniqueKeys g0 := init_map_unique_gen ▸ init_map_unique
  clear init_map_unique_gen
  induction locals generalizing g0 with
  | nil => exact hg
  | cons l ls ih => exact ih _ (merge_map_unique g0 l hg)

theorem pipeline_unique (records : List Record) (nthreads : Nat) :
    UniqueKeys (pipeline records nthreads) :=
  merge_all_unique _

theorem hasKey_iff_lookup (m : StatMap) (k : Key) :
    HasKey m k ↔ (lookup k m.entries).isSome = true := by
  unfold HasKey
  constructor
  · rintro ⟨e, he, hk⟩
    cases hl : lookup k m.entries with
    | some x => rfl
    | none =>
      exact absurd (hk ▸ List.mem_map_of_mem StatEntry.key he) ((lookup_eq_none_iff _ _).1 hl)
  · intro h
    cases hl : lookup k m.entries with
    | some x => exact ⟨x, lookup_some_mem hl, lookup_some_key hl⟩
    | none => rw [hl] at h; cases h

theorem lookup_none_of_not_hasKey {m : StatMap} {k : Key} (h : ¬ HasKey m k) :
    lookup k m.entries = none := by
  cases hl : lookup k m.entries with
  | none => rfl
  | some x => exact absurd ⟨x, lookup_some_mem hl, lookup_some_key hl⟩ h

/-! ## Partition arithmetic -/

theorem chunk_mul_le (n nthreads : Nat) : nthreads * chunk n nthreads ≤ n :=
  Nat.mul_div_le n nthreads

theorem worker_start_le (n nthreads i : Nat) (hi : i < nthreads) :
    worker_start n nthreads i ≤ n := by
  unfold worker_start
  have h1 : i * chunk n nthreads ≤ nthreads * chunk n nthreads :=
    Nat.mul_le_mul_right _ hi.le
  exact h1.trans (chunk_mul_le n nthreads)

theorem worker_start_le_end (n nthreads i : Nat) (hi : i < nthreads) :
    worker_start n nthreads i ≤ worker_end n nthreads i := by
  unfold worker_end
  split
  · exact worker_start_le n nthreads i hi
  · unfold worker_start
    exact Nat.mul_le_mul_right _ (Nat.le_succ i)

theorem worker_end_le (n nthreads i : Nat) (hi : i < nthreads) :
    worker_end n nthreads i ≤ n := by
  unfold worker_end
  split
  · exact le_refl n
  · have h1 : (i + 1) * chunk n nthreads ≤ nthreads * chunk n nthreads :=
      Nat.mul_le_mul_right _ hi
    exact h1.trans (chunk_mul_le n nthreads)

theorem worker_end_eq_start_succ (n nthreads i : Nat) (hi : i + 1 < nthreads) :
    worker_end n nthreads i = worker_start n nthreads (i + 1) := by
  unfold worker_end worker_start
  rw [if_neg (by omega)]

theorem worker_end_le_start (n nthreads i j : Nat) (hij : i < j) (hj : j < nthreads) :
    worker_end n nthreads i ≤ worker_start n nthreads j := by
  unfold worker_end worker_start
  rw [if_neg (by omega)]
  exact Nat.mul_le_mul_right _ hij

theorem worker_end_last (n nthreads : Nat) : worker_end n nthreads (nthreads - 1) = n := by
  unfold worker_end
  rw [if_pos rfl]

theorem exists_worker (n nthreads x : Nat) (hW : 1 ≤ nthreads) (hx : x < n) :
    ∃ i, i < nthreads ∧ worker_start n nthreads i ≤ x ∧ x < worker_end n nthreads i := by
  by_cases hq : x / chunk n nthreads < nthreads - 1 ∧ 0 < chunk n nthreads
  · obtain ⟨hq, hc⟩ := hq
    refine ⟨x / chunk n nthreads, by omega, ?_, ?_⟩
    · unfold worker_start
      exact Nat.div_mul_le_self x _
    · unfold worker_end
      rw [if_neg (by omega)]
      exact (Nat.div_lt_iff_lt_mul hc).1 (Nat.lt_succ_self _)
  · refine ⟨nthreads - 1, by omega, ?_, ?_⟩
    · unfold worker_start
      rcases Nat.eq_zero_or_pos (chunk n nthreads) with hc | hc
      · rw [hc]; simp
      · have h1 : nthreads - 1 ≤ x / chunk n nthreads := by
          by_contra hlt
          exact hq ⟨by omega, hc⟩
        exact (Nat.mul_le_mul_right _ h1).trans (Nat.div_mul_le_self x _)
    · rw [worker_end_last]
      exact hx

/-! ## Re-merging -/

theorem foldl_merge_entry_append (es : List StatEntry) (g : StatMap)
    (hnd : ((g.entries ++ es).map StatEntry.key).Nodup) :
    (es.foldl merge_entry g).entries = g.entries ++ es := by
  induction es generalizing g with
  | nil => simp
  | cons e es ih =>
    have hme : (merge_entry g e).entries = g.entries ++ [e] := by
      rw [merge_entry_entries, upsertL_of_not_mem]
      intro x hx hk
      rw [List.map_append, List.nodup_append] at hnd
      exact hnd.2.2 (List.mem_map_of_mem StatEntry.key hx)
        (hk ▸ List.mem_map_of_mem StatEntry.key (List.mem_cons_self e es))
    rw [List.foldl_cons, ih, hme, List.append_assoc, List.singleton_append]
    rw [hme, List.append_assoc, List.singleton_append]
    exact hnd

/-! ## The bound invariant -/

theorem bound_iff (e : StatEntry) :
    Bound e ↔ 1 ≤ e.count ∧ e.min * (e.count : ℚ) ≤ e.soma ∧ e.soma ≤ e.max * (e.count : ℚ) := by
  unfold Bound
  constructor
  · rintro ⟨h1, h2, h3⟩
    have hc : (0 : ℚ) < (e.count : ℚ) := by exact_mod_cast h1
    exact ⟨h1, (le_div_iff₀ hc).1 h2, (div_le_iff₀ hc).1 h3⟩
  · rintro ⟨h1, h2, h3⟩
    have hc : (0 : ℚ) < (e.count : ℚ) := by exact_mod_cast h1
    exact ⟨h1, (le_div_iff₀ hc).2 h2, (div_le_iff₀ hc).2 h3⟩

theorem bound_new_entry (dev : String) (ano mes sid : Int) (val : ℚ) :
    Bound (new_entry dev ano mes sid val) := by
  rw [bound_iff]
  simp [new_entry]

theorem bound_update_entry (val : ℚ) (e : StatEntry) (h : Bound e) :
    Bound (update_entry val e) := by
  rw [bound_iff] at h ⊢
  rw [update_entry_eq]
  obtain ⟨h1, h2, h3⟩ := h
  have hc : (0 : ℚ) ≤ (e.count : ℚ) := Nat.cast_nonneg _
  have hmin1 : min e.min val * (e.count : ℚ) ≤ e.min * (e.count : ℚ) :=
    mul_le_mul_of_nonneg_right (min_le_left _ _) hc
  have hmax1 : e.max * (e.count : ℚ) ≤ max e.max val * (e.count : ℚ) :=
    mul_le_mul_of_nonneg_right (le_max_left _ _) hc
  have hmin2 : min e.min val ≤ val := min_le_right _ _
  have hmax2 : val ≤ max e.max val := le_max_right _ _
  refine ⟨by simp, ?_, ?_⟩
  · push_cast
    linarith
  · push_cast
    linarith

theorem bound_combine_entry (e g : StatEntry) (he : Bound e) (hg : Bound g) :
    Bound (combine_entry e g) := by
  rw [bound_iff] at he hg ⊢
  rw [combine_entry_eq]
  obtain ⟨h1, h2, h3⟩ := he
  obtain ⟨g1, g2, g3⟩ := hg
  have hce : (0 : ℚ) ≤ (e.count : ℚ) := Nat.cast_nonneg _
  have hcg : (0 : ℚ) ≤ (g.count : ℚ) := Nat.cast_nonneg _
  have a1 : min g.min e.min * (g.count : ℚ) ≤ g.min * (g.count : ℚ) :=
    mul_le_mul_of_nonneg_right (min_le_left _ _) hcg
  have a2 : min g.min e.min * (e.count : ℚ) ≤ e.min * (e.count : ℚ) :=
    mul_le_mul_of_nonneg_right (min_le_right _ _) hce
  have b1 : g.max * (g.count : ℚ) ≤ max g.max e.max * (g.count : ℚ) :=
    mul_le_mul_of_nonneg_right (le_max_left _ _) hcg
  have b2 : e.max * (e.count : ℚ) ≤ max g.max e.max * (e.count : ℚ) :=
    mul_le_mul_of_nonneg_right (le_max_right _ _) hce
  refine ⟨by simp only; omega, ?_, ?_⟩
  · push_cast
    linarith
  · push_cast
    linarith

theorem forall_mem_upsertL (P : StatEntry → Prop) (k : Key) (new : StatEntry)
    (f : StatEntry → StatEntry) (es : List StatEntry) (hnew : P new)
    (hf : ∀ e, P e → P (f e)) (hes : ∀ e ∈ es, P e) : ∀ e ∈ upsertL k new f es, P e := by
  induction es with
  | nil =>
    intro e he
    rw [upsertL, List.mem_singleton] at he
    exact he ▸ hnew
  | cons a es ih =>
    intro e he
    unfold upsertL at he
    split at he
    · rcases List.mem_cons.1 he with rfl | h
      · exact hf a (hes a (List.mem_cons_self a es))
      · exact hes e (List.mem_cons_of_mem a h)
    · rcases List.mem_cons.1 he with rfl | h
      · exact hes e (List.mem_cons_self e es)
      · exact ih (fun x hx => hes x (List.mem_cons_of_mem a hx)) e h

theorem reachable_bound (m : StatMap) (hm : Reachable m) : ∀ e ∈ m.entries, Bound e := by
  induction hm with
  | init =>
    intro e he
    cases he
  | update m dev ano mes sid val _ ih =>
    rw [update_map_entries]
    exact forall_mem_upsertL Bound _ _ _ _ (bound_new_entry dev ano mes sid val)
      (fun e he => bound_update_entry val e he) ih
  | merge g lm e _ _ he ihg ihl =>
    rw [merge_entry_entries]
    exact forall_mem_upsertL Bound _ _ _ _ (ihl e he)
      (fun x hx => bound_combine_entry e x (ihl e he) hx) ihg

/-! ## Algebra of the pairwise combination -/

theorem comb_opt_none_right (a : Option StatEntry) : comb_opt a none = a := by
  cases a <;> rfl

theorem comb_opt_assoc (a b c : Option StatEntry) :
    comb_opt (comb_opt a b) c = comb_opt a (comb_opt b c) := by
  cases a with
  | none => rfl
  | some x =>
    cases b with
    | none => rfl
    | some y =>
      cases c with
      | none => rfl
      | some z =>
        show some (combine_entry z (combine_entry y x)) =
          some (combine_entry (combine_entry z y) x)
        rw [combine_entry_eq z, combine_entry_eq y x, combine_entry_eq _ x, combine_entry_eq z y]
        simp only [min_assoc, max_assoc, add_assoc]

theorem combine_entry_comm (x y : StatEntry) (h : x.key = y.key) :
    combine_entry x y = combine_entry y x := by
  rw [combine_entry_eq, combine_entry_eq]
  cases x
  cases y
  simp only [StatEntry.key, Prod.mk.injEq] at h
  obtain ⟨h1, h2, h3, h4⟩ := h
  simp only [StatEntry.mk.injEq]
  exact ⟨h1.symm, h2.symm, h3.symm, h4.symm, min_comm _ _, max_comm _ _, add_comm _ _,
    Nat.add_comm _ _⟩

theorem comb_opt_right_comm (k : Key) (z x y : Option StatEntry)
    (hx : ∀ e, x = some e → e.key = k) (hy : ∀ e, y = some e → e.key = k) :
    comb_opt (comb_opt z x) y = comb_opt (comb_opt z y) x := by
  cases z with
  | none =>
    cases x with
    | none => exact (comb_opt_none_right y).symm
    | some a =>
      cases y with
      | none => rfl
      | some b =>
        show some (combine_entry b a) = some (combine_entry a b)
        rw [combine_entry_comm b a ((hy b rfl).trans (hx a rfl).symm)]
  | some c =>
    cases x with
    | none => rw [comb_opt_none_right]; cases y <;> rfl
    | some a =>
      cases y with
      | none => rfl
      | some b =>
        show some (combine_entry b (combine_entry a c)) =
          some (combine_entry a (combine_entry b c))
        rw [combine_entry_eq b, combine_entry_eq a c, combine_entry_eq a, combine_entry_eq b c]
        simp only [min_assoc, max_assoc, add_assoc, min_comm a.min, max_comm a.max,
          add_comm a.soma, Nat.add_comm a.count, Nat.add_assoc]

theorem perm_of_lookup_eq {es1 es2 : List StatEntry} (h1 : (es1.map StatEntry.key).Nodup)
    (h2 : (es2.map StatEntry.key).Nodup) (h : ∀ k, lookup k es1 = lookup k es2) :
    es1.Perm es2 := by
  rw [List.perm_ext_iff_of_nodup (List.Nodup.of_map _ h1) (List.Nodup.of_map _ h2)]
  intro e
  rw [mem_iff_lookup h1, mem_iff_lookup h2, h]

theorem foldl_merge_map_unique (ls : List StatMap) (g : StatMap) (hg : UniqueKeys g) :
    UniqueKeys (ls.foldl merge_map g) := by
  induction ls generalizing g with
  | nil => exact hg
  | cons l ls ih => exact ih _ (merge_map_unique g l hg)

theorem lookup_foldl_merge_map (ls : List StatMap) (hu : ∀ l ∈ ls, UniqueKeys l)
    (g : StatMap) (k : Key) :
    lookup k (ls.foldl merge_map g).entries =
      ls.foldl (fun acc l => comb_opt acc (lookup k l.entries)) (lookup k g.entries) := by
  induction ls generalizing g with
  | nil => rfl
  | cons l ls ih =>
    rw [List.foldl_cons, ih (fun x hx => hu x (List.mem_cons_of_mem l hx)),
      lookup_merge_map g l (hu l (List.mem_cons_self l ls))]
    rfl

theorem foldl_comb_opt_perm (k : Key) (ls1 ls2 : List StatMap) (hp : ls1.Perm ls2)
    (init : Option StatEntry) :
    ls1.foldl (fun acc l => comb_opt acc (lookup k l.entries)) init =
      ls2.foldl (fun acc l => comb_opt acc (lookup k l.entries)) init := by
  apply List.Perm.foldl_eq' hp
  intro x _ y _ z
  exact comb_opt_right_comm k z _ _ (fun e he => lookup_some_key he)
    (fun e he => lookup_some_key he)

theorem foldl_merge_map_perm (ls1 ls2 : List StatMap) (hp : ls1.Perm ls2)
    (hu : ∀ l ∈ ls1, UniqueKeys l) (g : StatMap) (hg : UniqueKeys g) :
    (ls1.foldl merge_map g).entries.Perm (ls2.foldl merge_map g).entries := by
  have hu2 : ∀ l ∈ ls2, UniqueKeys l := fun l hl => hu l (hp.mem_iff.2 hl)
  apply perm_of_lookup_eq (foldl_merge_map_unique ls1 g hg) (foldl_merge_map_unique ls2 g hg)
  intro k
  rw [lookup_foldl_merge_map ls1 hu, lookup_foldl_merge_map ls2 hu2]
  exact foldl_comb_opt_perm k ls1 ls2 hp _

/-! ## Summaries -/

theorem summ_new_entry (dev : String) (ano mes sid : Int) (val : ℚ) :
    Summ (new_entry dev ano mes sid val) [val] := by
  simp [Summ, new_entry]

theorem summ_update_entry (val : ℚ) (e : StatEntry) (vs : List ℚ) (h : Summ e vs) :
    Summ (update_entry val e) (vs ++ [val]) := by
  obtain ⟨h1, h2, h3, h4, h5, h6⟩ := h
  rw [update_entry_eq]
  refine ⟨by simp [h1], by simp [h2], ?_, ?_, ?_, ?_⟩
  · rcases min_choice e.min val with h | h
    · simp only [h]; exact List.mem_append_left _ h3
    · simp only [h]; simp
  · intro v hv
    rcases List.mem_append.1 hv with hv | hv
    · exact (min_le_left _ _).trans (h4 v hv)
    · rw [List.mem_singleton] at hv
      exact hv ▸ min_le_right _ _
  · rcases max_choice e.max val with h | h
    · simp only [h]; exact List.mem_append_left _ h5
    · simp only [h]; simp
  · intro v hv
    rcases List.mem_append.1 hv with hv | hv
    · exact (h6 v hv).trans (le_max_left _ _)
    · rw [List.mem_singleton] at hv
      exact hv ▸ le_max_right _ _

theorem summ_combine_entry (e g : StatEntry) (xs ys : List ℚ) (hg : Summ g xs)
    (he : Summ e ys) : Summ (combine_entry e g) (xs ++ ys) := by
  obtain ⟨g1, g2, g3, g4, g5, g6⟩ := hg
  obtain ⟨e1, e2, e3, e4, e5, e6⟩ := he
  rw [combine_entry_eq]
  refine ⟨by simp [g1, e1], by simp [g2, e2], ?_, ?_, ?_, ?_⟩
  · rcases min_choice g.min e.min with h | h
    · simp only [h]; exact List.mem_append_left _ g3
    · simp only [h]; exact List.mem_append_right _ e3
  · intro v hv
    rcases List.mem_append.1 hv with hv | hv
    · exact (min_le_left _ _).trans (g4 v hv)
    · exact (min_le_right _ _).trans (e4 v hv)
  · rcases max_choice g.max e.max with h | h
    · simp only [h]; exact List.mem_append_left _ g5
    · simp only [h]; exact List.mem_append_right _ e5
  · intro v hv
    rcases List.mem_append.1 hv with hv | hv
    · exact (g6 v hv).trans (le_max_left _ _)
    · exact (e6 v hv).trans (le_max_right _ _)

theorem summ_unique (e1 e2 : StatEntry) (vs : List ℚ) (hk : e1.key = e2.key)
    (h1 : Summ e1 vs) (h2 : Summ e2 vs) : e1 = e2 := by
  obtain ⟨a1, a2, a3, a4, a5, a6⟩ := h1
  obtain ⟨b1, b2, b3, b4, b5, b6⟩ := h2
  cases e1
  cases e2
  simp only [StatEntry.key, Prod.mk.injEq] at hk
  obtain ⟨k1, k2, k3, k4⟩ := hk
  simp only at a1 a2 a3 a4 a5 a6 b1 b2 b3 b4 b5 b6
  simp only [StatEntry.mk.injEq]
  exact ⟨k1, k2, k3, k4, le_antisymm (a4 _ b3) (b4 _ a3), le_antisymm (b6 _ a5) (a6 _ b5),
    a2.trans b2.symm, a1.trans b1.symm⟩

theorem values_of_append (k : Key) (rd1 rd2 : List (Key × ℚ)) :
    values_of k (rd1 ++ rd2) = values_of k rd1 ++ values_of k rd2 := by
  simp [values_of]

theorem values_of_singleton (k : Key) (p : Key × ℚ) :
    values_of k [p] = if p.1 = k then [p.2] else [] := by
  by_cases h : p.1 = k <;> simp [values_of, h]

/-! ## The summary invariant -/

theorem inv_nil : Inv [] [] :=
  ⟨List.nodup_nil, fun _ => rfl⟩

theorem inv_update_pair (m : StatMap) (rd : List (Key × ℚ)) (p : Key × ℚ)
    (h : Inv m.entries rd) (hp : p.1.1.length < MAX_DEVICE) :
    Inv (update_pair m p).entries (rd ++ [p]) := by
  obtain ⟨⟨dev, ano, mes, sid⟩, val⟩ := p
  simp only at hp
  have hnew := new_entry_key dev ano mes sid val hp
  show Inv (update_map m dev ano mes sid val).entries _
  rw [update_map_entries]
  refine ⟨nodup_keys_upsertL _ _ _ hnew (update_entry_key val) _ h.1, ?_⟩
  intro k
  rw [lookup_upsertL _ k _ _ hnew (update_entry_key val), values_of_append,
    values_of_singleton]
  by_cases hk : k = (dev, ano, mes, sid)
  · subst hk
    rw [if_pos rfl, if_pos rfl]
    have hk := h.2 (dev, ano, mes, sid)
    cases hl : lookup (dev, ano, mes, sid) m.entries with
    | none =>
      rw [hl] at hk
      have hv : values_of (dev, ano, mes, sid) rd = [] := hk
      rw [hv]
      exact ⟨hnew, summ_new_entry dev ano mes sid val⟩
    | some e =>
      rw [hl] at hk
      exact ⟨(update_entry_key val e).trans hk.1, summ_update_entry val e _ hk.2⟩
  · have hk2 : ¬ (dev, ano, mes, sid) = k := fun h3 => hk h3.symm
    rw [if_neg hk, if_neg hk2, List.append_nil]
    exact h.2 k

theorem inv_foldl_update_pair (ps : List (Key × ℚ)) (m : StatMap) (rd : List (Key × ℚ))
    (h : Inv m.entries rd) (hp : ∀ p ∈ ps, p.1.1.length < MAX_DEVICE) :
    Inv (ps.foldl update_pair m).entries (rd ++ ps) := by
  induction ps generalizing m rd with
  | nil => simpa using h
  | cons p ps ih =>
    have h1 := inv_update_pair m rd p h (hp p (List.mem_cons_self p ps))
    have h2 := ih (update_pair m p) (rd ++ [p]) h1
      (fun q hq => hp q (List.mem_cons_of_mem p hq))
    rw [List.append_assoc, List.singleton_append] at h2
    exact h2

theorem inv_merge_map (g lm : StatMap) (rd1 rd2 : List (Key × ℚ)) (hg : Inv g.entries rd1)
    (hl : Inv lm.entries rd2) : Inv (merge_map g lm).entries (rd1 ++ rd2) := by
  refine ⟨merge_map_unique g lm hg.1, ?_⟩
  intro k
  rw [lookup_merge_map g lm hl.1, values_of_append]
  have h1 := hg.2 k
  have h2 := hl.2 k
  cases hx : lookup k g.entries with
  | none =>
    rw [hx] at h1
    have hv : values_of k rd1 = [] := h1
    rw [hv, List.nil_append]
    exact h2
  | some x =>
    rw [hx] at h1
    cases hy : lookup k lm.entries with
    | none =>
      rw [hy] at h2
      have hv : values_of k rd2 = [] := h2
      rw [hv, List.append_nil]
      exact h1
    | some y =>
      rw [hy] at h2
      exact ⟨(combine_entry_key y x).trans h1.1, summ_combine_entry y x _ _ h1.2 h2.2⟩

theorem lookup_eq_of_inv {es1 es2 : List StatEntry} {rd : List (Key × ℚ)}
    (h1 : Inv es1 rd) (h2 : Inv es2 rd) (k : Key) : lookup k es1 = lookup k es2 := by
  have a := h1.2 k
  have b := h2.2 k
  cases hx : lookup k es1 with
  | none =>
    rw [hx] at a
    have hv : values_of k rd = [] := a
    cases hy : lookup k es2 with
    | none => rfl
    | some y =>
      rw [hy] at b
      have := b.2.2.2.1
      rw [hv] at this
      cases this
  | some x =>
    rw [hx] at a
    cases hy : lookup k es2 with
    | none =>
      rw [hy] at b
      have hv : values_of k rd = [] := b
      have := a.2.2.2.1
      rw [hv] at this
      cases this
    | some y =>
      rw [hy] at b
      rw [summ_unique x y _ (a.1.trans b.1.symm) a.2 b.2]

theorem perm_of_inv {es1 es2 : List StatEntry} {rd : List (Key × ℚ)}
    (h1 : Inv es1 rd) (h2 : Inv es2 rd) : es1.Perm es2 :=
  perm_of_lookup_eq h1.1 h2.1 (lookup_eq_of_inv h1 h2)

/-! ## Workers as folds over (key, value) pairs -/

theorem process_record_eq (m : StatMap) (r : Record) :
    process_record m r = (record_readings r).foldl update_pair m := by
  unfold process_record record_readings
  rw [List.foldl_map]
  rfl

theorem readings_append (rs1 rs2 : List Record) :
    readings (rs1 ++ rs2) = readings rs1 ++ readings rs2 := by
  induction rs1 with
  | nil => rfl
  | cons r rs ih => simp [readings, ih]

theorem foldl_process_record_eq (rs : List Record) (m : StatMap) :
    rs.foldl process_record m = (readings rs).foldl update_pair m := by
  induction rs generalizing m with
  | nil => rfl
  | cons r rs ih =>
    rw [List.foldl_cons, ih, process_record_eq, readings, List.foldl_append]

theorem readings_device_lt (rs : List Record) :
    ∀ p ∈ readings rs, p.1.1.length < MAX_DEVICE := by
  induction rs with
  | nil =>
    intro p hp
    cases hp
  | cons r rs ih =>
    intro p hp
    rw [readings, List.mem_append] at hp
    rcases hp with hp | hp
    · unfold record_readings at hp
      rw [List.mem_map] at hp
      obtain ⟨s, _, rfl⟩ := hp
      exact r.device_lt
    · exact ih p hp

theorem inv_foldl_process_record (rs : List Record) :
    Inv (rs.foldl process_record init_map).entries (readings rs) := by
  rw [foldl_process_record_eq]
  have h := inv_foldl_update_pair (readings rs) init_map [] inv_nil (readings_device_lt rs)
  rw [List.nil_append] at h
  exact h

theorem inv_foldl_merge_map (ss : List (List Record)) (g : StatMap) (rd : List (Key × ℚ))
    (hg : Inv g.entries rd) :
    Inv ((ss.map fun s => s.foldl process_record init_map).foldl merge_map g).entries
      (rd ++ readings ss.flatten) := by
  induction ss generalizing g rd with
  | nil => simpa [readings] using hg
  | cons s ss ih =>
    have h1 := inv_merge_map g (s.foldl process_record init_map) rd (readings s) hg
      (inv_foldl_process_record s)
    have h2 := ih _ _ h1
    rw [List.flatten_cons, readings_append, ← List.append_assoc]
    exact h2

/-! ## The slices tile the record sequence -/

theorem run_workers_eq (records : List Record) (nthreads : Nat) :
    run_workers records nthreads =
      (slices records nthreads).map fun s => s.foldl process_record init_map := by
  unfold run_workers slices
  rw [List.map_map]
  rfl

theorem slices_initial_flatten (records : List Record) (nthreads j : Nat)
    (hj : j ≤ nthreads - 1) :
    ((List.range j).map fun i =>
        slice records (worker_start records.length nthreads i)
          (worker_end records.length nthreads i)).flatten =
      records.take (j * chunk records.length nthreads) := by
  induction j with
  | zero => simp
  | succ j ih =>
    rw [List.range_succ, List.map_append, List.flatten_append, ih (by omega)]
    simp only [List.map_cons, List.map_nil, List.flatten_cons, List.flatten_nil,
      List.append_nil]
    unfold slice worker_start worker_end
    rw [if_neg (by omega)]
    have hle : j * chunk records.length nthreads ≤ (j + 1) * chunk records.length nthreads :=
      Nat.mul_le_mul_right _ (Nat.le_succ j)
    have h1 : records.take (j * chunk records.length nthreads) =
        (records.take ((j + 1) * chunk records.length nthreads)).take
          (j * chunk records.length nthreads) := by
      rw [List.take_take, Nat.min_eq_left hle]
    rw [h1]
    exact List.take_append_drop _ _

theorem slices_flatten (records : List Record) (nthreads : Nat) (hW : 1 ≤ nthreads) :
    (slices records nthreads).flatten = records := by
  unfold slices
  obtain ⟨w, rfl⟩ : ∃ w, nthreads = w + 1 := ⟨nthreads - 1, by omega⟩
  rw [List.range_succ, List.map_append, List.flatten_append,
    slices_initial_flatten records (w + 1) w (by omega)]
  simp only [List.map_cons, List.map_nil, List.flatten_cons, List.flatten_nil,
    List.append_nil]
  unfold slice
  rw [show worker_end records.length (w + 1) w = records.length from
    worker_end_last records.length (w + 1)]
  rw [List.take_length]
  exact List.take_append_drop _ _

theorem inv_pipeline (records : List Record) (nthreads : Nat) (hW : 1 ≤ nthreads) :
    Inv (pipeline records nthreads).entries (readings records) := by
  unfold pipeline merge_all
  rw [run_workers_eq]
  have h := inv_foldl_merge_map (slices records nthreads) init_map [] inv_nil
  rw [List.nil_append, slices_flatten records nthreads hW] at h
  exact h

theorem inv_reference_fold (records : List Record) :
    Inv (reference_fold records).entries (readings records) :=
  inv_foldl_process_record records

theorem slice_all (records : List Record) : slice records 0 records.length = records := by
  simp [slice]

/-! ## Values of a key in terms of the records -/

theorem finRange_filter_eq :
    ∀ s : Fin N_SENSORS, (List.finRange N_SENSORS).filter (fun t => decide (t = s)) = [s] := by
  decide

theorem values_of_record_readings (r : Record) (d : String) (a m : Int) (s : Fin N_SENSORS) :
    values_of (d, a, m, Int.ofNat s.val) (record_readings r) =
      if r.device = d ∧ r.ano = a ∧ r.mes = m then [r.sensor s] else [] := by
  unfold values_of record_readings
  rw [List.filter_map, List.map_map]
  by_cases h : r.device = d ∧ r.ano = a ∧ r.mes = m
  · rw [if_pos h]
    have hp : ((fun p : Key × ℚ => decide (p.1 = (d, a, m, Int.ofNat s.val))) ∘
        fun t : Fin N_SENSORS => ((r.device, r.ano, r.mes, Int.ofNat t.val), r.sensor t)) =
        fun t => decide (t = s) := by
      funext t
      simp only [Function.comp, Prod.mk.injEq, h.1, h.2.1, h.2.2, true_and]
      congr 1
      rw [eq_iff_iff]
      constructor
      · intro ht
        exact Fin.ext (Int.ofNat.inj ht)
      · intro ht
        rw [ht]
    rw [hp, finRange_filter_eq]
    rfl
  · rw [if_neg h]
    have hp : ((fun p : Key × ℚ => decide (p.1 = (d, a, m, Int.ofNat s.val))) ∘
        fun t : Fin N_SENSORS => ((r.device, r.ano, r.mes, Int.ofNat t.val), r.sensor t)) =
        fun _ => false := by
      funext t
      simp only [Function.comp, Prod.mk.injEq, decide_eq_false_iff_not]
      intro h2
      exact h ⟨h2.1, h2.2.1, h2.2.2.1⟩
    rw [hp]
    simp

theorem values_of_readings (rs : List Record) (d : String) (a m : Int) (s : Fin N_SENSORS) :
    values_of (d, a, m, Int.ofNat s.val) (readings rs) = sensor_values rs d a m s := by
  induction rs with
  | nil => rfl
  | cons r rs ih =>
    rw [readings, values_of_append, ih, values_of_record_readings]
    unfold sensor_values
    by_cases h : r.device = d ∧ r.ano = a ∧ r.mes = m
    · simp [h, List.filter_cons]
    · simp [h, List.filter_cons]

theorem values_of_readings_out_of_range (rs : List Record) (d : String) (a m sid : Int)
    (h : ¬ (0 ≤ sid ∧ sid < 6)) : values_of (d, a, m, sid) (readings rs) = [] := by
  induction rs with
  | nil => rfl
  | cons r rs ih =>
    rw [readings, values_of_append, ih, List.append_nil]
    unfold values_of record_readings
    rw [List.filter_map, List.map_map, List.map_eq_nil_iff, List.filter_eq_nil_iff]
    intro t _
    simp only [Function.comp, Prod.mk.injEq, decide_eq_true_eq, not_and]
    intro _ _ _ h2
    apply h
    have := t.isLt
    rw [← h2]
    constructor
    · exact Int.ofNat_nonneg _
    · exact Int.ofNat_lt.2 this

theorem sensor_values_ne_nil_iff (rs : List Record) (d : String) (a m : Int)
    (s : Fin N_SENSORS) :
    sensor_values rs d a m s ≠ [] ↔ ∃ r ∈ rs, r.device = d ∧ r.ano = a ∧ r.mes = m := by
  unfold sensor_values
  rw [Ne, List.map_eq_nil_iff, List.filter_eq_nil_iff]
  simp

theorem sensor_values_length (rs : List Record) (d : String) (a m : Int)
    (s : Fin N_SENSORS) :
    (sensor_values rs d a m s).length =
      (rs.filter fun r => decide (r.device = d ∧ r.ano = a ∧ r.mes = m)).length := by
  simp [sensor_values]

/-! ## Reading the invariant entry by entry -/

theorem summ_of_mem_inv {es : List StatEntry} {rd : List (Key × ℚ)} (h : Inv es rd)
    {e : StatEntry} (he : e ∈ es) : Summ e (values_of e.key rd) := by
  have h1 := h.2 e.key
  rw [lookup_of_mem h.1 he] at h1
  exact h1.2

theorem hasKey_iff_values {m : StatMap} {rd : List (Key × ℚ)} (h : Inv m.entries rd)
    (k : Key) : HasKey m k ↔ values_of k rd ≠ [] := by
  rw [hasKey_iff_lookup]
  have h1 := h.2 k
  cases hl : lookup k m.entries with
  | none =>
    rw [hl] at h1
    have hv : values_of k rd = [] := h1
    simp [hv]
  | some e =>
    rw [hl] at h1
    have hm : e.min ∈ values_of k rd := h1.2.2.2.1
    simp only [Option.isSome_some, true_iff]
    intro hv
    rw [hv] at hm
    cases hm

theorem sensor_id_cases (sid : Int) :
    (∃ s : Fin N_SENSORS, sid = Int.ofNat s.val) ∨ ¬ (0 ≤ sid ∧ sid < 6) := by
  by_cases h : 0 ≤ sid ∧ sid < 6
  · left
    have h6 : sid.toNat < 6 := by omega
    refine ⟨⟨sid.toNat, h6⟩, ?_⟩
    show sid = ((sid.toNat : Nat) : Int)
    omega
  · right
    exact h

theorem sensor_id_in_range (s : Fin N_SENSORS) :
    0 ≤ Int.ofNat s.val ∧ Int.ofNat s.val < 6 := by
  have := s.isLt
  constructor
  · exact Int.ofNat_nonneg _
  · exact Int.ofNat_lt.2 this

/-! ## Slice sizes -/

theorem slice_length (records : List Record) (start stop : Nat) (h : stop ≤ records.length) :
    (slice records start stop).length = stop - start := by
  unfold slice
  rw [List.length_drop, List.length_take, Nat.min_eq_left h]

theorem slice_size_of_lt (n nthreads i : Nat) (hi : i < nthreads - 1) :
    slice_size n nthreads i = n / nthreads := by
  unfold slice_size worker_end worker_start chunk
  rw [if_neg (by omega), Nat.add_mul, Nat.one_mul, Nat.add_sub_cancel_left]

theorem slice_size_last (n nthreads : Nat) (hW : 1 ≤ nthreads) :
    slice_size n nthreads (nthreads - 1) = n / nthreads + n % nthreads := by
  unfold slice_size worker_start chunk
  rw [worker_end_last]
  obtain ⟨w, rfl⟩ : ∃ w, nthreads = w + 1 := ⟨nthreads - 1, by omega⟩
  have h1 : (w + 1) * (n / (w + 1)) + n % (w + 1) = n := Nat.div_add_mod n (w + 1)
  rw [Nat.add_mul, Nat.one_mul] at h1
  simp only [Nat.add_sub_cancel]
  generalize w * (n / (w + 1)) = x at h1 ⊢
  generalize n / (w + 1) = q at h1 ⊢
  generalize n % (w + 1) = r at h1 ⊢
  omega

theorem sum_slice_size_initial (n nthreads j : Nat) (hj : j ≤ nthreads - 1) :
    ((List.range j).map (slice_size n nthreads)).sum = j * (n / nthreads) := by
  induction j with
  | zero => simp
  | succ j ih =>
    rw [List.range_succ, List.map_append, List.sum_append, ih (by omega),
      List.map_singleton, List.sum_singleton, slice_size_of_lt n nthreads j (by omega),
      Nat.add_mul, Nat.one_mul]

theorem sum_slice_size (n nthreads : Nat) (hW : 1 ≤ nthreads) :
    ((List.range nthreads).map (slice_size n nthreads)).sum = n := by
  obtain ⟨w, rfl⟩ : ∃ w, nthreads = w + 1 := ⟨nthreads - 1, by omega⟩
  rw [List.range_succ, List.map_append, List.sum_append,
    sum_slice_size_initial n (w + 1) w (by omega), List.map_singleton, List.sum_singleton]
  have h := slice_size_last n (w + 1) (by omega)
  simp only [Nat.add_sub_cancel] at h
  rw [h]
  have h1 : (w + 1) * (n / (w + 1)) + n % (w + 1) = n := Nat.div_add_mod n (w + 1)
  rw [Nat.add_mul, Nat.one_mul] at h1
  omega

/-! ## Storage of the growable map -/

theorem length_modify_at (f : StatEntry → StatEntry) (es : List StatEntry) (i : Nat) :
    (modify_at f es i).length = es.length := by
  induction es generalizing i with
  | nil => rfl
  | cons e es ih =>
    cases i with
    | zero => rfl
    | succ i => simp [modify_at, ih]

theorem storageOk_init : StorageOk init_map :=
  ⟨Nat.zero_le _, 0, rfl⟩

theorem ensure_capacity_ok (m : StatMap) (h : StorageOk m) :
    StorageOk (ensure_capacity m) ∧ (ensure_capacity m).size < (ensure_capacity m).capacity := by
  obtain ⟨h1, k, hk⟩ := h
  have hpos : 0 < m.capacity := by
    rw [hk]
    exact Nat.mul_pos (by decide) (Nat.two_pow_pos k)
  unfold ensure_capacity
  by_cases hfull : m.size ≥ m.capacity
  · rw [if_pos hfull]
    refine ⟨⟨?_, k + 1, ?_⟩, ?_⟩
    · show m.size ≤ m.capacity * 2
      omega
    · show m.capacity * 2 = 1024 * 2 ^ (k + 1)
      rw [hk, Nat.pow_succ, Nat.mul_assoc]
    · show m.size < m.capacity * 2
      omega
  · rw [if_neg hfull]
    exact ⟨⟨h1, k, hk⟩, by omega⟩

theorem storageOk_append (m : StatMap) (e : StatEntry) (h : StorageOk m) :
    StorageOk { ensure_capacity m with entries := (ensure_capacity m).entries ++ [e] } := by
  obtain ⟨⟨_, k, hk⟩, hlt⟩ := ensure_capacity_ok m h
  refine ⟨?_, k, hk⟩
  show ((ensure_capacity m).entries ++ [e]).length ≤ (ensure_capacity m).capacity
  rw [List.length_append, List.length_singleton]
  exact hlt

theorem storageOk_modify (m : StatMap) (f : StatEntry → StatEntry) (i : Nat)
    (h : StorageOk m) : StorageOk { m with entries := modify_at f m.entries i } := by
  obtain ⟨h1, k, hk⟩ := h
  refine ⟨?_, k, hk⟩
  show (modify_at f m.entries i).length ≤ m.capacity
  rw [length_modify_at]
  exact h1

theorem storageOk_update_map (m : StatMap) (dev : String) (ano mes sid : Int) (val : ℚ)
    (h : StorageOk m) : StorageOk (update_map m dev ano mes sid val) := by
  unfold update_map
  by_cases hlt : find_entry m dev ano mes sid < 0
  · simp only [hlt, if_true]
    exact storageOk_append m _ h
  · simp only [hlt, if_false]
    exact storageOk_modify m _ _ h

theorem storageOk_merge_entry (g : StatMap) (e : StatEntry) (h : StorageOk g) :
    StorageOk (merge_entry g e) := by
  unfold merge_entry
  by_cases hlt : find_entry g e.device e.ano e.mes e.sensor_id < 0
  · simp only [hlt, if_true]
    exact storageOk_append g _ h
  · simp only [hlt, if_false]
    exact storageOk_modify g _ _ h

theorem reachable_storageOk (m : StatMap) (hm : Reachable m) : StorageOk m := by
  induction hm with
  | init => exact storageOk_init
  | update m dev ano mes sid val _ ih => exact storageOk_update_map m dev ano mes sid val ih
  | merge g lm e _ _ _ ihg _ => exact storageOk_merge_entry g e ihg

/-! ## Workers read only their slice -/

theorem getElem?_slice (records : List Record) (start stop n : Nat) :
    (slice records start stop)[n]? = if start + n < stop then records[start + n]? else none := by
  unfold slice
  rw [List.getElem?_drop, List.getElem?_take]

theorem slice_congr (rs1 rs2 : List Record) (start stop : Nat)
    (h : ∀ i, start ≤ i → i < stop → rs1[i]? = rs2[i]?) :
    slice rs1 start stop = slice rs2 start stop := by
  apply List.ext_getElem?
  intro n
  rw [getElem?_slice, getElem?_slice]
  split
  · rename_i hlt
    exact h (start + n) (Nat.le_add_right _ _) hlt
  · rfl

/-! ## Order of the keys -/

theorem keys_update_pair (m : StatMap) (p : Key × ℚ) (hp : p.1.1.length < MAX_DEVICE) :
    (update_pair m p).keys = insert_key m.keys p.1 := by
  obtain ⟨⟨dev, ano, mes, sid⟩, val⟩ := p
  simp only at hp
  show (update_map m dev ano mes sid val).entries.map StatEntry.key = _
  rw [update_map_entries,
    keys_upsertL _ _ _ (new_entry_key dev ano mes sid val hp) (update_entry_key val)]
  rfl

theorem keys_merge_entry (g : StatMap) (e : StatEntry) :
    (merge_entry g e).keys = insert_key g.keys e.key := by
  show (merge_entry g e).entries.map StatEntry.key = _
  rw [merge_entry_entries, keys_upsertL _ _ _ rfl (combine_entry_key e)]
  rfl

theorem keys_foldl_update_pair (ps : List (Key × ℚ)) (m : StatMap)
    (hp : ∀ p ∈ ps, p.1.1.length < MAX_DEVICE) :
    (ps.foldl update_pair m).keys = (ps.map Prod.fst).foldl insert_key m.keys := by
  induction ps generalizing m with
  | nil => rfl
  | cons p ps ih =>
    rw [List.foldl_cons, ih _ (fun q hq => hp q (List.mem_cons_of_mem p hq)),
      keys_update_pair m p (hp p (List.mem_cons_self p ps))]
    rfl

theorem keys_merge_map (g lm : StatMap) :
    (merge_map g lm).keys = lm.keys.foldl insert_key g.keys := by
  unfold merge_map StatMap.keys
  generalize lm.entries = es
  induction es generalizing g with
  | nil => rfl
  | cons e es ih =>
    rw [List.foldl_cons, ih, List.map_cons, List.foldl_cons]
    congr 1
    exact keys_merge_entry g e

theorem subset_foldl_insert_key (xs acc : List Key) : ∀ k ∈ acc, k ∈ xs.foldl insert_key acc := by
  induction xs generalizing acc with
  | nil => exact fun k hk => hk
  | cons x xs ih =>
    intro k hk
    apply ih
    unfold insert_key
    split
    · exact hk
    · exact List.mem_append_left _ hk

theorem mem_insert_key_self (acc : List Key) (x : Key) : x ∈ insert_key acc x := by
  unfold insert_key
  split
  · assumption
  · simp

theorem mem_foldl_insert_key_of_mem (b acc : List Key) (x : Key) (hx : x ∈ b) :
    x ∈ b.foldl insert_key acc := by
  induction b generalizing acc with
  | nil => cases hx
  | cons y ys ih =>
    rcases List.mem_cons.1 hx with rfl | h
    · exact subset_foldl_insert_key ys _ x (mem_insert_key_self acc x)
    · exact ih _ h

theorem foldl_insert_key_insert (acc b : List Key) (x : Key) :
    (insert_key b x).foldl insert_key acc = insert_key (b.foldl insert_key acc) x := by
  by_cases hx : x ∈ b
  · have h1 : insert_key b x = b := if_pos hx
    have h2 : insert_key (b.foldl insert_key acc) x = b.foldl insert_key acc :=
      if_pos (mem_foldl_insert_key_of_mem b acc x hx)
    rw [h1, h2]
  · have h1 : insert_key b x = b ++ [x] := if_neg hx
    rw [h1, List.foldl_append]
    rfl

theorem foldl_insert_key_foldl (xs acc b : List Key) :
    (xs.foldl insert_key b).foldl insert_key acc =
      xs.foldl insert_key (b.foldl insert_key acc) := by
  induction xs generalizing b with
  | nil => rfl
  | cons x xs ih => rw [List.foldl_cons, ih, foldl_insert_key_insert, List.foldl_cons]

theorem foldl_insert_key_eq (xs acc : List Key) :
    xs.foldl insert_key acc =
      acc ++ (first_occurrences xs).filter fun x => decide (x ∉ acc) := by
  induction xs generalizing acc with
  | nil => simp [first_occurrences]
  | cons x xs ih =>
    rw [List.foldl_cons, ih, first_occurrences]
    unfold insert_key
    by_cases hx : x ∈ acc
    · rw [if_pos hx, List.filter_cons, if_neg (by simpa using hx), List.filter_filter]
      congr 1
      apply List.filter_congr
      intro y _
      by_cases hy : y ∈ acc
      · simp [hy]
      · have hne : y ≠ x := fun h => hy (h ▸ hx)
        simp [hy, hne]
    · rw [if_neg hx, List.filter_cons, if_pos (by simpa using hx), List.filter_filter,
        List.append_assoc, List.singleton_append]
      congr 2
      apply List.filter_congr
      intro y _
      by_cases hy : y ∈ acc
      · simp [hy]
      · by_cases hne : y = x
        · simp [hy, hne]
        · simp [hy, hne]

theorem foldl_insert_key_nil (xs : List Key) :
    xs.foldl insert_key [] = first_occurrences xs := by
  rw [foldl_insert_key_eq]
  simp

theorem keys_foldl_process_record (rs : List Record) :
    (rs.foldl process_record init_map).keys =
      ((readings rs).map Prod.fst).foldl insert_key [] := by
  rw [foldl_process_record_eq, keys_foldl_update_pair _ _ (readings_device_lt rs)]
  rfl

theorem keys_foldl_merge_map (ss : List (List Record)) (g : StatMap) :
    ((ss.map fun s => s.foldl process_record init_map).foldl merge_map g).keys =
      ((readings ss.flatten).map Prod.fst).foldl insert_key g.keys := by
  induction ss generalizing g with
  | nil => rfl
  | cons s ss ih =>
    rw [List.map_cons, List.foldl_cons, ih, keys_merge_map, keys_foldl_process_record,
      foldl_insert_key_foldl, List.flatten_cons, readings_append, List.map_append,
      List.foldl_append]
    rfl

theorem keys_pipeline (records : List Record) (nthreads : Nat) (hW : 1 ≤ nthreads) :
    (pipeline records nthreads).keys = first_occurrences ((readings records).map Prod.fst) := by
  unfold pipeline merge_all
  rw [run_workers_eq, keys_foldl_merge_map, slices_flatten records nthreads hW]
  exact foldl_insert_key_nil _

theorem keys_reference_fold (records : List Record) :
    (reference_fold records).keys = first_occurrences ((readings records).map Prod.fst) := by
  unfold reference_fold
  rw [keys_foldl_process_record]
  exact foldl_insert_key_nil _

theorem eq_of_keys_eq_of_lookup_eq (es1 es2 : List StatEntry)
    (hk : es1.map StatEntry.key = es2.map StatEntry.key)
    (hnd : (es1.map StatEntry.key).Nodup) (hl : ∀ k, lookup k es1 = lookup k es2) :
    es1 = es2 := by
  induction es1 generalizing es2 with
  | nil =>
    cases es2 with
    | nil => rfl
    | cons b bs => cases hk
  | cons a as ih =>
    cases es2 with
    | nil => cases hk
    | cons b bs =>
      rw [List.map_cons, List.map_cons, List.cons.injEq] at hk
      rw [List.map_cons, List.nodup_cons] at hnd
      have hab : a = b := by
        have h := hl a.key
        rw [lookup_cons, lookup_cons, if_pos rfl, if_pos hk.1.symm] at h
        exact Option.some.inj h
      subst hab
      congr 1
      apply ih bs hk.2 hnd.2
      intro k
      have h := hl k
      rw [lookup_cons, lookup_cons] at h
      by_cases hak : a.key = k
      · subst hak
        rw [(lookup_eq_none_iff _ _).2 hnd.1, (lookup_eq_none_iff _ _).2 (hk.2 ▸ hnd.1)]
      · rw [if_neg hak, if_neg hak] at h
        exact h

/-! ## Keys, counts and size of a map that summarises a record list -/

theorem hasKey_iff_of_inv (m : StatMap) (rs : List Record)
    (h : Inv m.entries (readings rs)) (d : String) (a mo sid : Int) :
    HasKey m (d, a, mo, sid) ↔
      (∃ r ∈ rs, r.device = d ∧ r.ano = a ∧ r.mes = mo) ∧ 0 ≤ sid ∧ sid < 6 := by
  rw [hasKey_iff_values h]
  rcases sensor_id_cases sid with ⟨s, rfl⟩ | hout
  · rw [values_of_readings, sensor_values_ne_nil_iff]
    have := sensor_id_in_range s
    tauto
  · rw [values_of_readings_out_of_range rs d a mo sid hout]
    simp only [ne_eq, not_true_eq_false, false_iff]
    tauto

theorem count_of_inv (m : StatMap) (rs : List Record) (h : Inv m.entries (readings rs))
    (e : StatEntry) (he : e ∈ m.entries) :
    e.count =
      (rs.filter fun r => decide (r.device = e.device ∧ r.ano = e.ano ∧ r.mes = e.mes)).length := by
  have hs := summ_of_mem_inv h he
  rcases sensor_id_cases e.sensor_id with ⟨s, hsid⟩ | hout
  · have hk : e.key = (e.device, e.ano, e.mes, Int.ofNat s.val) := by
      rw [← hsid]
      rfl
    rw [hk, values_of_readings] at hs
    rw [hs.1, sensor_values_length]
  · have hk : e.key = (e.device, e.ano, e.mes, e.sensor_id) := rfl
    rw [hk, values_of_readings_out_of_range rs _ _ _ _ hout] at hs
    have := hs.2.2.1
    cases this

theorem key_of_triple_injective :
    Function.Injective fun p : (String × Int × Int) × Fin N_SENSORS =>
      ((p.1.1, p.1.2.1, p.1.2.2, Int.ofNat p.2.val) : Key) := by
  rintro ⟨⟨d1, a1, m1⟩, s1⟩ ⟨⟨d2, a2, m2⟩, s2⟩ h
  simp only [Prod.mk.injEq] at h
  obtain ⟨h1, h2, h3, h4⟩ := h
  have h5 : s1 = s2 := Fin.ext (Int.ofNat.inj h4)
  rw [h1, h2, h3, h5]

theorem size_of_inv (m : StatMap) (rs : List Record) (h : Inv m.entries (readings rs)) :
    m.size = 6 * (rs.map Record.triple).dedup.length := by
  have h1 : m.size = (m.entries.map StatEntry.key).toFinset.card := by
    rw [List.toFinset_card_of_nodup h.1, List.length_map]
    rfl
  have h2 : (m.entries.map StatEntry.key).toFinset =
      (((rs.map Record.triple).toFinset ×ˢ (Finset.univ : Finset (Fin N_SENSORS))).image
        fun p => ((p.1.1, p.1.2.1, p.1.2.2, Int.ofNat p.2.val) : Key)) := by
    ext k
    obtain ⟨d, a, mo, sid⟩ := k
    rw [List.mem_toFinset, Finset.mem_image]
    have hk : (d, a, mo, sid) ∈ m.entries.map StatEntry.key ↔ HasKey m (d, a, mo, sid) := by
      unfold HasKey
      rw [List.mem_map]
    rw [hk, hasKey_iff_of_inv m rs h]
    constructor
    · rintro ⟨⟨r, hr, hd, ha, hm⟩, h0, h6⟩
      rcases sensor_id_cases sid with ⟨s, rfl⟩ | hout
      · refine ⟨((d, a, mo), s), ?_, rfl⟩
        rw [Finset.mem_product, List.mem_toFinset, List.mem_map]
        exact ⟨⟨r, hr, by simp [Record.triple, hd, ha, hm]⟩, Finset.mem_univ _⟩
      · exact absurd ⟨h0, h6⟩ hout
    · rintro ⟨⟨⟨d1, a1, m1⟩, s⟩, hp, heq⟩
      rw [Finset.mem_product, List.mem_toFinset, List.mem_map] at hp
      obtain ⟨⟨r, hr, ht⟩, _⟩ := hp
      simp only [Record.triple, Prod.mk.injEq] at ht heq
      obtain ⟨e1, e2, e3, e4⟩ := heq
      have hrange := sensor_id_in_range s
      rw [e4] at hrange
      exact ⟨⟨r, hr, ht.1.trans e1, ht.2.1.trans e2, ht.2.2.trans e3⟩, hrange⟩
  rw [h1, h2, Finset.card_image_of_injective _ key_of_triple_injective, Finset.card_product,
    List.card_toFinset, Finset.card_fin, Nat.mul_comm]

theorem inv_thread_func (records : List Record) (start stop : Nat) :
    Inv (thread_func records start stop).entries (readings (slice records start stop)) :=
  inv_foldl_process_record _

/-! ## Lookup after an upsert -/

theorem find_entry_loop_of_mem (dev : String) (ano mes sid : Int) (es : List StatEntry)
    (i : Nat) (h : ∃ e ∈ es, e.key = (dev, ano, mes, sid)) :
    ∃ j e, find_entry_loop dev ano mes sid es i = ((i + j : Nat) : Int) ∧ es[j]? = some e ∧
      e.key = (dev, ano, mes, sid) := by
  induction es generalizing i with
  | nil =>
    obtain ⟨e, he, _⟩ := h
    cases he
  | cons a es ih =>
    unfold find_entry_loop
    by_cases hk : a.key = (dev, ano, mes, sid)
    · rw [if_pos ((key_eq_iff a dev ano mes sid).2 hk)]
      exact ⟨0, a, rfl, List.getElem?_cons_zero, hk⟩
    · rw [if_neg fun hc => hk ((key_eq_iff a dev ano mes sid).1 hc)]
      have h2 : ∃ e ∈ es, e.key = (dev, ano, mes, sid) := by
        obtain ⟨e, he, hek⟩ := h
        rcases List.mem_cons.1 he with rfl | he2
        · exact absurd hek hk
        · exact ⟨e, he2, hek⟩
      obtain ⟨j, e, hj, hget, hek⟩ := ih (i + 1) h2
      refine ⟨j + 1, e, ?_, by simpa using hget, hek⟩
      rw [hj]
      congr 1
      omega

theorem hasKey_update_map (m : StatMap) (dev : String) (ano mes sid : Int) (val : ℚ)
    (h : dev.length < MAX_DEVICE) :
    HasKey (update_map m dev ano mes sid val) (dev, ano, mes, sid) := by
  have hk : (dev, ano, mes, sid) ∈ (update_map m dev ano mes sid val).entries.map StatEntry.key := by
    rw [update_map_entries,
      keys_upsertL _ _ _ (new_entry_key dev ano mes sid val h) (update_entry_key val)]
    split
    · assumption
    · simp
  rw [List.mem_map] at hk
  exact hk

/-! ## The ingestion loop -/

theorem before_cutoff_eq_false_iff (ano mes : Int) :
    before_cutoff ano mes = false ↔ (ano > 2024 ∨ (ano = 2024 ∧ mes ≥ 3)) := by
  unfold before_cutoff
  simp only [Bool.or_eq_false_iff, Bool.and_eq_false_iff, decide_eq_false_iff_not]
  omega

theorem ingest_step_of_short (strptime : String → Option Tm) (atof : String → ℚ)
    (line : String) (h : (strtok_all line).length < 4) :
    ingest_step strptime atof line = LineOutcome.missing_field := by
  unfold ingest_step
  split
  · rename_i heq
    rw [heq] at h
    simp only [List.length_cons] at h
    omega
  · rfl

theorem ingest_step_of_bad_date (strptime : String → Option Tm) (atof : String → ℚ)
    (line t0 dev cnt date : String) (sens : List String)
    (htok : strtok_all line = t0 :: dev :: cnt :: date :: sens)
    (hdate : strptime (strncpy date 10) = none) :
    ingest_step strptime atof line = LineOutcome.bad_date := by
  unfold ingest_step
  rw [htok]
  simp only [hdate]

theorem ingest_step_of_before_cutoff (strptime : String → Option Tm) (atof : String → ℚ)
    (line t0 dev cnt date : String) (sens : List String) (tm : Tm)
    (htok : strtok_all line = t0 :: dev :: cnt :: date :: sens)
    (hdate : strptime (strncpy date 10) = some tm)
    (hc : before_cutoff (tm.tm_year + 1900) (tm.tm_mon + 1) = true) :
    ingest_step strptime atof line =
      LineOutcome.dropped_by_cutoff (tm.tm_year + 1900) (tm.tm_mon + 1) := by
  unfold ingest_step
  rw [htok]
  simp only [hdate, hc, if_true]

theorem ingest_step_of_missing_sensor (strptime : String → Option Tm) (atof : String → ℚ)
    (line t0 dev cnt date : String) (sens : List String) (tm : Tm)
    (htok : strtok_all line = t0 :: dev :: cnt :: date :: sens)
    (hdate : strptime (strncpy date 10) = some tm)
    (hc : before_cutoff (tm.tm_year + 1900) (tm.tm_mon + 1) = false)
    (hs : sens.length < N_SENSORS) :
    ingest_step strptime atof line = LineOutcome.missing_sensor sens.length := by
  unfold ingest_step
  rw [htok]
  have hs2 : ¬ (N_SENSORS ≤ sens.length) := by omega
  simp only [hdate, hc, hs2, dite_false, Bool.false_eq_true, if_false]

theorem ingest_step_of_complete (strptime : String → Option Tm) (atof : String → ℚ)
    (line t0 dev cnt date : String) (sens : List String) (tm : Tm)
    (htok : strtok_all line = t0 :: dev :: cnt :: date :: sens)
    (hdate : strptime (strncpy date 10) = some tm)
    (hc : before_cutoff (tm.tm_year + 1900) (tm.tm_mon + 1) = false)
    (hs : N_SENSORS ≤ sens.length) :
    ∃ r, ingest_step strptime atof line = LineOutcome.kept r ∧
      r.device = strncpy (strncpy dev (MAX_DEVICE - 1)) (MAX_DEVICE - 1) ∧
      r.ano = tm.tm_year + 1900 ∧ r.mes = tm.tm_mon + 1 ∧
      ∀ s : Fin N_SENSORS, r.sensor s = atof (sens.getD s.val "") := by
  unfold ingest_step
  rw [htok]
  simp only [hdate, hc, hs, dite_true, Bool.false_eq_true, if_false]
  refine ⟨_, rfl, rfl, rfl, rfl, ?_⟩
  intro s
  have hlt : s.val < sens.length := Nat.lt_of_lt_of_le s.isLt hs
  simp [List.getD_eq_getElem?_getD, List.getElem?_eq_getElem hlt]

theorem ingest_line_of_kept (strptime : String → Option Tm) (atof : String → ℚ)
    (st : IngestState) (line : String) (r : Record)
    (h : ingest_step strptime atof line = LineOutcome.kept r) :
    ingest_line strptime atof st line = { st with records := st.records ++ [r] } := by
  unfold ingest_line
  rw [h]

theorem ingest_line_of_missing_sensor (strptime : String → Option Tm) (atof : String → ℚ)
    (st : IngestState) (line : String) (s : Nat)
    (h : ingest_step strptime atof line = LineOutcome.missing_sensor s) :
    ingest_line strptime atof st line =
      { st with stderr := st.stderr ++ [Diagnostic.missing_sensor (st.records.length + 1) s] } := by
  unfold ingest_line
  rw [h]

theorem ingest_line_of_missing_field (strptime : String → Option Tm) (atof : String → ℚ)
    (st : IngestState) (line : String)
    (h : ingest_step strptime atof line = LineOutcome.missing_field) :
    ingest_line strptime atof st line = st := by
  unfold ingest_line
  rw [h]

theorem ingest_line_of_bad_date (strptime : String → Option Tm) (atof : String → ℚ)
    (st : IngestState) (line : String)
    (h : ingest_step strptime atof line = LineOutcome.bad_date) :
    ingest_line strptime atof st line = st := by
  unfold ingest_line
  rw [h]

theorem ingest_line_of_dropped (strptime : String → Option Tm) (atof : String → ℚ)
    (st : IngestState) (line : String) (ano mes : Int)
    (h : ingest_step strptime atof line = LineOutcome.dropped_by_cutoff ano mes) :
    ingest_line strptime atof st line = st := by
  unfold ingest_line
  rw [h]

theorem ingest_line_stderr (strptime : String → Option Tm) (atof : String → ℚ)
    (st : IngestState) (line : String) :
    ∀ d ∈ (ingest_line strptime atof st line).stderr,
      d ∈ st.stderr ∨ ∃ n s, d = Diagnostic.missing_sensor n s := by
  intro d hd
  unfold ingest_line at hd
  split at hd
  · exact Or.inl hd
  · rcases List.mem_append.1 hd with h | h
    · exact Or.inl h
    · rw [List.mem_singleton] at h
      exact Or.inr ⟨_, _, h⟩
  · exact Or.inl hd

theorem foldl_ingest_line_stderr (strptime : String → Option Tm) (atof : String → ℚ)
    (lines : List String) (st : IngestState) :
    ∀ d ∈ (lines.foldl (ingest_line strptime atof) st).stderr,
      d ∈ st.stderr ∨ ∃ n s, d = Diagnostic.missing_sensor n s := by
  induction lines generalizing st with
  | nil => exact fun d hd => Or.inl hd
  | cons line lines ih =>
    intro d hd
    rcases ih _ d hd with h | h
    · exact ingest_line_stderr strptime atof st line d h
    · exact Or.inr h

theorem no_valid_record_not_mem_ingest (strptime : String → Option Tm) (atof : String → ℚ)
    (lines : List String) :
    Diagnostic.no_valid_record ∉ (ingest strptime atof lines).stderr := by
  intro h
  rcases foldl_ingest_line_stderr strptime atof lines _ _ h with h1 | ⟨n, s, h1⟩
  · cases h1
  · cases h1

theorem detect_nthreads_pos (nprocs : Int) : 1 ≤ detect_nthreads nprocs := by
  unfold detect_nthreads
  split
  · exact le_refl 1
  · omega

/-! ## The run of `main` -/

theorem main_run_of_no_survivor (strptime : String → Option Tm) (atof : String → ℚ)
    (input : Option (List String)) (nprocs : Int) (out_ok : Bool)
    (h : survivors strptime atof input = []) :
    (main_run strptime atof input nprocs out_ok).exit_code = 1 ∧
      (main_run strptime atof input nprocs out_ok).ranges = [] ∧
      (main_run strptime atof input nprocs out_ok).output_file = none ∧
      (main_run strptime atof input nprocs out_ok).stdout = [] := by
  cases input with
  | none => exact ⟨rfl, rfl, rfl, rfl⟩
  | some lines =>
    cases lines with
    | nil => exact ⟨rfl, rfl, rfl, rfl⟩
    | cons header lines =>
      have h0 : (ingest strptime atof lines).records.length = 0 := by
        have h1 : (ingest strptime atof lines).records = [] := h
        rw [h1]
        rfl
      unfold main_run
      simp only [h0, if_true, and_self]

theorem main_run_of_survivors (strptime : String → Option Tm) (atof : String → ℚ)
    (input : Option (List String)) (nprocs : Int) (out_ok : Bool)
    (h : 1 ≤ (survivors strptime atof input).length) :
    Diagnostic.no_valid_record ∉ (main_run strptime atof input nprocs out_ok).stderr ∧
      (main_run strptime atof input nprocs out_ok).ranges =
        ((List.range (detect_nthreads nprocs)).map fun i =>
          (worker_start (survivors strptime atof input).length (detect_nthreads nprocs) i,
            worker_end (survivors strptime atof input).length (detect_nthreads nprocs) i)) ∧
      (out_ok = true →
        (main_run strptime atof input nprocs out_ok).exit_code = 0 ∧
          (main_run strptime atof input nprocs out_ok).output_file =
            some (header_row ::
              (pipeline (survivors strptime atof input) (detect_nthreads nprocs)).entries.map
                render_row)) := by
  cases input with
  | none => exact absurd (show 1 ≤ 0 from h) (by decide)
  | some lines =>
    cases lines with
    | nil => exact absurd (show 1 ≤ 0 from h) (by decide)
    | cons header lines =>
      have h0 : ¬ ((ingest strptime atof lines).records.length = 0) := by
        have h1 : 1 ≤ (ingest strptime atof lines).records.length := h
        omega
      have hnv := no_valid_record_not_mem_ingest strptime atof lines
      unfold main_run survivors
      simp only [h0, if_false]
      cases out_ok with
      | true =>
        simp only [if_true, true_implies, and_self, and_true]
        exact hnv
      | false =>
        simp only [Bool.false_eq_true, if_false, false_implies, and_true]
        intro hm
        rcases List.mem_append.1 hm with h1 | h1
        · exact hnv h1
        · rw [List.mem_singleton] at h1
          cases h1

theorem exists_four_of_length (l : List String) (h : 4 ≤ l.length) :
    ∃ a b c d s, l = a :: b :: c :: d :: s := by
  match l, h with
  | a :: b :: c :: d :: s, _ => exact ⟨a, b, c, d, s, rfl⟩

theorem ingest_line_records_of_short (strptime : String → Option Tm) (atof : String → ℚ)
    (st : IngestState) (line : String) (h : (strtok_all line).length < 10) :
    (ingest_line strptime atof st line).records = st.records := by
  rcases Nat.lt_or_ge (strtok_all line).length 4 with h4 | h4
  · rw [ingest_line_of_missing_field strptime atof st line
      (ingest_step_of_short strptime atof line h4)]
  · obtain ⟨t0, dev, cnt, date, sens, htok⟩ := exists_four_of_length _ h4
    have hs : sens.length < N_SENSORS := by
      rw [htok] at h
      simp only [List.length_cons] at h
      show sens.length < 6
      omega
    cases hdate : strptime (strncpy date 10) with
    | none =>
      rw [ingest_line_of_bad_date strptime atof st line
        (ingest_step_of_bad_date strptime atof line t0 dev cnt date sens htok hdate)]
    | some tm =>
      cases hc : before_cutoff (tm.tm_year + 1900) (tm.tm_mon + 1) with
      | true =>
        rw [ingest_line_of_dropped strptime atof st line _ _
          (ingest_step_of_before_cutoff strptime atof line t0 dev cnt date sens tm htok hdate hc)]
      | false =>
        rw [ingest_line_of_missing_sensor strptime atof st line _
          (ingest_step_of_missing_sensor strptime atof line t0 dev cnt date sens tm htok hdate
            hc hs)]

/-! ## Results on exact values used below -/

/-- Partition invariance on exact readings: the global maps for two worker counts have the same
entries up to order, and agree with the reference fold. -/
theorem partition_invariance (records : List Record) (W1 W2 : Nat) (h1 : 1 ≤ W1)
    (h2 : 1 ≤ W2) :
    (pipeline records W1).entries.Perm (pipeline records W2).entries ∧
      (pipeline records W1).entries.Perm (reference_fold records).entries ∧
      (∀ k, HasKey (pipeline records W1) k ↔ HasKey (pipeline records W2) k) ∧
      thread_func records (worker_start records.length 1 0) (worker_end records.length 1 0) =
        reference_fold records ∧
      (pipeline records 1).entries = (reference_fold records).entries := by
  have i1 := inv_pipeline records W1 h1
  have i2 := inv_pipeline records W2 h2
  have hw : thread_func records (worker_start records.length 1 0)
      (worker_end records.length 1 0) = reference_fold records := by
    unfold thread_func reference_fold worker_start worker_end
    simp [slice]
  refine ⟨perm_of_inv i1 i2, perm_of_inv i1 (inv_reference_fold records), ?_, hw, ?_⟩
  · intro k
    rw [hasKey_iff_values i1, hasKey_iff_values i2]
  · show (merge_map init_map (thread_func records (worker_start records.length 1 0)
      (worker_end records.length 1 0))).entries = _
    rw [hw]
    unfold merge_map
    rw [foldl_merge_entry_append]
    · rfl
    · exact (inv_reference_fold records).1

/-- Commutativity and associativity of the merge on exact values: every order and grouping of
three maps with unique keys gives the entries of `(A + B) + C` up to order. -/
theorem merge_comm_assoc (A B C X Y Z : StatMap) (hA : UniqueKeys A) (hB : UniqueKeys B)
    (hC : UniqueKeys C) (hp : [X, Y, Z].Perm [A, B, C]) :
    UniqueKeys (merge_map (merge_map A B) C) ∧
      (merge_map (merge_map X Y) Z).entries.Perm (merge_map (merge_map A B) C).entries ∧
      (merge_map X (merge_map Y Z)).entries.Perm (merge_map (merge_map A B) C).entries ∧
      ([X, Y, Z].foldl merge_map init_map).entries.Perm
        (merge_map (merge_map A B) C).entries := by
  have hu : ∀ l ∈ [A, B, C], UniqueKeys l := by
    intro l hl
    simp only [List.mem_cons, List.mem_singleton, List.not_mem_nil, or_false] at hl
    rcases hl with rfl | rfl | rfl
    · exact hA
    · exact hB
    · exact hC
  have hX : UniqueKeys X := hu X (hp.mem_iff.1 (by simp))
  have hY : UniqueKeys Y := hu Y (hp.mem_iff.1 (by simp))
  have hZ : UniqueKeys Z := hu Z (hp.mem_iff.1 (by simp))
  have hR : UniqueKeys (merge_map (merge_map A B) C) :=
    merge_map_unique _ _ (merge_map_unique _ _ hA)
  have hkey : ∀ k,
      comb_opt (comb_opt (lookup k X.entries) (lookup k Y.entries)) (lookup k Z.entries) =
        comb_opt (comb_opt (lookup k A.entries) (lookup k B.entries)) (lookup k C.entries) :=
    fun k => foldl_comb_opt_perm k [X, Y, Z] [A, B, C] hp none
  have hRk : ∀ k, lookup k (merge_map (merge_map A B) C).entries =
      comb_opt (comb_opt (lookup k A.entries) (lookup k B.entries)) (lookup k C.entries) := by
    intro k
    rw [lookup_merge_map _ _ hC, lookup_merge_map _ _ hB]
  refine ⟨hR, ?_, ?_, ?_⟩
  · apply perm_of_lookup_eq (merge_map_unique _ _ (merge_map_unique _ _ hX)) hR
    intro k
    rw [hRk, lookup_merge_map _ _ hZ, lookup_merge_map _ _ hY, hkey]
  · apply perm_of_lookup_eq (merge_map_unique _ _ hX) hR
    intro k
    rw [hRk, lookup_merge_map _ _ (merge_map_unique _ _ hY), lookup_merge_map _ _ hZ,
      ← comb_opt_assoc, hkey]
  · apply perm_of_lookup_eq (foldl_merge_map_unique _ _ init_map_unique) hR
    intro k
    rw [hRk, ← hkey]
    show lookup k (merge_map (merge_map (merge_map init_map X) Y) Z).entries = _
    rw [lookup_merge_map _ _ hZ, lookup_merge_map _ _ hY, lookup_merge_map _ _ hX]
    rfl

/-- One iteration of the ingestion loop, by cases: which lines leave the state untouched and
which line appends a message for a missing sensor. -/
theorem ingest_line_cases (strptime : String → Option Tm) (atof : String → ℚ)
    (st : IngestState) (line : String) (rest : List String) :
    ((strtok_all line).length < 10 →
        (ingest_line strptime atof st line).records = st.records) ∧
      ((strtok_all line).length < 4 → ingest_line strptime atof st line = st) ∧
      (∀ t0 dev cnt date sens, strtok_all line = t0 :: dev :: cnt :: date :: sens →
        (strptime (strncpy date 10) = none → ingest_line strptime atof st line = st) ∧
        (∀ tm, strptime (strncpy date 10) = some tm →
          (before_cutoff (tm.tm_year + 1900) (tm.tm_mon + 1) = true →
            ingest_line strptime atof st line = st) ∧
          (before_cutoff (tm.tm_year + 1900) (tm.tm_mon + 1) = false →
            sens.length < N_SENSORS →
            ingest_line strptime atof st line =
              { records := st.records,
                stderr := st.stderr ++
                  [Diagnostic.missing_sensor (st.records.length + 1) sens.length] }))) ∧
      (line :: rest).foldl (ingest_line strptime atof) st =
        rest.foldl (ingest_line strptime atof) (ingest_line strptime atof st line) := by
  refine ⟨ingest_line_records_of_short strptime atof st line, ?_, ?_, rfl⟩
  · intro h4
    exact ingest_line_of_missing_field strptime atof st line
      (ingest_step_of_short strptime atof line h4)
  · intro t0 dev cnt date sens htok
    refine ⟨fun hdate => ?_, fun tm hdate => ⟨fun hc => ?_, fun hc hs => ?_⟩⟩
    · exact ingest_line_of_bad_date strptime atof st line
        (ingest_step_of_bad_date strptime atof line t0 dev cnt date sens htok hdate)
    · exact ingest_line_of_dropped strptime atof st line _ _
        (ingest_step_of_before_cutoff strptime atof line t0 dev cnt date sens tm htok hdate hc)
    · exact ingest_line_of_missing_sensor strptime atof st line _
        (ingest_step_of_missing_sensor strptime atof line t0 dev cnt date sens tm htok hdate
          hc hs)

/-! ## The code on doubles agrees with the code on exact values when no value is NaN -/

theorem toFp_key (e : StatEntry) : e.toFp.key = e.key := rfl

theorem toExact_key (e : StatEntryFp) : e.toExact.key = e.key := rfl

theorem toFp_size (m : StatMap) : m.toFp.size = m.size := by
  simp [StatMapFp.size, StatMap.size, StatMap.toFp]

theorem find_entry_loop_fp_map (dev : String) (ano mes sid : Int) (es : List StatEntry)
    (i : Nat) :
    find_entry_loop_fp dev ano mes sid (es.map StatEntry.toFp) i =
      find_entry_loop dev ano mes sid es i := by
  induction es generalizing i with
  | nil => rfl
  | cons e es ih =>
    rw [List.map_cons]
    unfold find_entry_loop_fp find_entry_loop
    rw [ih]
    rfl

theorem find_entry_fp_toFp (m : StatMap) (dev : String) (ano mes sid : Int) :
    find_entry_fp m.toFp dev ano mes sid = find_entry m dev ano mes sid :=
  find_entry_loop_fp_map dev ano mes sid m.entries 0

theorem modify_at_fp_map (f : StatEntry → StatEntry) (g : StatEntryFp → StatEntryFp)
    (h : ∀ e, g e.toFp = (f e).toFp) (es : List StatEntry) (i : Nat) :
    modify_at_fp g (es.map StatEntry.toFp) i = (modify_at f es i).map StatEntry.toFp := by
  induction es generalizing i with
  | nil => rfl
  | cons e es ih =>
    cases i with
    | zero => simp [modify_at_fp, modify_at, h]
    | succ i => simp [modify_at_fp, modify_at, ih]

theorem update_entry_fp_toFp (v : ℚ) (e : StatEntry) :
    update_entry_fp (Dbl.num v) e.toFp = (update_entry v e).toFp := by
  unfold update_entry_fp update_entry StatEntry.toFp
  simp only [Dbl.lt, Dbl.add, decide_eq_true_eq, gt_iff_lt]
  by_cases h1 : v < e.min <;> by_cases h2 : e.max < v <;> simp [h1, h2]

theorem combine_entry_fp_toFp (e g : StatEntry) :
    combine_entry_fp e.toFp g.toFp = (combine_entry e g).toFp := by
  unfold combine_entry_fp combine_entry StatEntry.toFp
  simp only [Dbl.lt, Dbl.add, decide_eq_true_eq, gt_iff_lt]
  by_cases h1 : e.min < g.min <;> by_cases h2 : g.max < e.max <;> simp [h1, h2]

theorem ensure_capacity_fp_toFp (m : StatMap) :
    ensure_capacity_fp m.toFp = (ensure_capacity m).toFp := by
  unfold ensure_capacity_fp ensure_capacity
  rw [toFp_size]
  by_cases h : m.size ≥ m.capacity
  · rw [if_pos h, if_pos (show m.size ≥ m.toFp.capacity from h)]
    rfl
  · rw [if_neg h, if_neg (show ¬ m.size ≥ m.toFp.capacity from h)]

theorem update_map_fp_toFp (m : StatMap) (dev : String) (ano mes sid : Int) (v : ℚ) :
    update_map_fp m.toFp dev ano mes sid (Dbl.num v) = (update_map m dev ano mes sid v).toFp := by
  unfold update_map_fp update_map
  rw [find_entry_fp_toFp]
  by_cases hlt : find_entry m dev ano mes sid < 0
  · simp only [hlt, if_true, ensure_capacity_fp_toFp]
    simp [StatMap.toFp, StatEntry.toFp]
  · simp only [hlt, if_false]
    show ({ entries := modify_at_fp _ (m.entries.map StatEntry.toFp) _,
            capacity := m.capacity } : StatMapFp) = _
    rw [modify_at_fp_map (update_entry v) _ (update_entry_fp_toFp v)]
    rfl

theorem merge_entry_fp_toFp (g : StatMap) (e : StatEntry) :
    merge_entry_fp g.toFp e.toFp = (merge_entry g e).toFp := by
  unfold merge_entry_fp merge_entry
  rw [show find_entry_fp g.toFp e.toFp.device e.toFp.ano e.toFp.mes e.toFp.sensor_id =
    find_entry g e.device e.ano e.mes e.sensor_id from find_entry_fp_toFp g _ _ _ _]
  by_cases hlt : find_entry g e.device e.ano e.mes e.sensor_id < 0
  · simp only [hlt, if_true, ensure_capacity_fp_toFp]
    simp [StatMap.toFp]
  · simp only [hlt, if_false]
    show ({ entries := modify_at_fp _ (g.entries.map StatEntry.toFp) _,
            capacity := g.capacity } : StatMapFp) = _
    rw [modify_at_fp_map (combine_entry e) _ (combine_entry_fp_toFp e)]
    rfl

theorem foldl_merge_entry_fp_toFp (es : List StatEntry) (g : StatMap) :
    (es.map StatEntry.toFp).foldl merge_entry_fp g.toFp = (es.foldl merge_entry g).toFp := by
  induction es generalizing g with
  | nil => rfl
  | cons e es ih => rw [List.map_cons, List.foldl_cons, merge_entry_fp_toFp, ih, List.foldl_cons]

theorem merge_map_fp_toFp (g lm : StatMap) :
    merge_map_fp g.toFp lm.toFp = (merge_map g lm).toFp :=
  foldl_merge_entry_fp_toFp lm.entries g

theorem process_record_fp_toFp (m : StatMap) (r : Record) :
    process_record_fp m.toFp r.toFp = (process_record m r).toFp := by
  unfold process_record_fp process_record
  generalize List.finRange N_SENSORS = ss
  induction ss generalizing m with
  | nil => rfl
  | cons s ss ih =>
    rw [List.foldl_cons, List.foldl_cons, ← ih]
    congr 1
    exact update_map_fp_toFp m r.device r.ano r.mes _ (r.sensor s)

theorem foldl_process_record_fp_toFp (rs : List Record) (m : StatMap) :
    (rs.map Record.toFp).foldl process_record_fp m.toFp = (rs.foldl process_record m).toFp := by
  induction rs generalizing m with
  | nil => rfl
  | cons r rs ih =>
    rw [List.map_cons, List.foldl_cons, process_record_fp_toFp, ih, List.foldl_cons]

theorem slice_fp_map (rs : List Record) (start stop : Nat) :
    slice_fp (rs.map Record.toFp) start stop = (slice rs start stop).map Record.toFp := by
  unfold slice_fp slice
  rw [List.map_drop, List.map_take]

theorem thread_func_fp_toFp (rs : List Record) (start stop : Nat) :
    thread_func_fp (rs.map Record.toFp) start stop = (thread_func rs start stop).toFp := by
  unfold thread_func_fp thread_func
  rw [slice_fp_map]
  exact foldl_process_record_fp_toFp _ init_map

theorem run_workers_fp_toFp (rs : List Record) (nthreads : Nat) :
    run_workers_fp (rs.map Record.toFp) nthreads =
      (run_workers rs nthreads).map StatMap.toFp := by
  unfold run_workers_fp run_workers
  rw [List.map_map, List.length_map]
  apply List.map_congr_left
  intro i _
  exact thread_func_fp_toFp rs _ _

theorem foldl_merge_map_fp_toFp (ls : List StatMap) (g : StatMap) :
    (ls.map StatMap.toFp).foldl merge_map_fp g.toFp = (ls.foldl merge_map g).toFp := by
  induction ls generalizing g with
  | nil => rfl
  | cons l ls ih => rw [List.map_cons, List.foldl_cons, merge_map_fp_toFp, ih, List.foldl_cons]

theorem pipeline_fp_toFp (rs : List Record) (nthreads : Nat) :
    pipeline_fp (rs.map Record.toFp) nthreads = (pipeline rs nthreads).toFp := by
  unfold pipeline_fp pipeline merge_all_fp merge_all
  rw [run_workers_fp_toFp]
  exact foldl_merge_map_fp_toFp _ init_map

theorem reference_fold_fp_toFp (rs : List Record) :
    reference_fold_fp (rs.map Record.toFp) = (reference_fold rs).toFp :=
  foldl_process_record_fp_toFp rs init_map

theorem dbl_num_toRat (d : Dbl) (h : d ≠ Dbl.nan) : Dbl.num d.toRat = d := by
  cases d with
  | nan => exact absurd rfl h
  | num q => rfl

theorem record_toExact_toFp (r : RecordFp) (h : r.Numeric) : r.toExact.toFp = r := by
  cases r with
  | mk device ano mes sensor device_lt =>
    have hs : (fun s => Dbl.num (sensor s).toRat) = sensor :=
      funext fun s => dbl_num_toRat (sensor s) (h s)
    simp only [RecordFp.toExact, Record.toFp, hs]

theorem records_toExact_toFp (rs : List RecordFp) (h : ∀ r ∈ rs, r.Numeric) :
    (rs.map RecordFp.toExact).map Record.toFp = rs := by
  induction rs with
  | nil => rfl
  | cons r rs ih =>
    rw [List.map_cons, List.map_cons, record_toExact_toFp r (h r (List.mem_cons_self r rs)),
      ih fun x hx => h x (List.mem_cons_of_mem r hx)]

theorem entry_toExact_toFp (e : StatEntryFp) (h : e.Numeric) : e.toExact.toFp = e := by
  cases e with
  | mk device ano mes sensor_id min max soma count =>
    obtain ⟨h1, h2, h3⟩ := h
    simp only [StatEntryFp.toExact, StatEntry.toFp, dbl_num_toRat min h1, dbl_num_toRat max h2,
      dbl_num_toRat soma h3]

theorem map_toExact_toFp (m : StatMapFp) (h : m.Numeric) : m.toExact.toFp = m := by
  cases m with
  | mk entries capacity =>
    have he : (entries.map StatEntryFp.toExact).map StatEntry.toFp = entries := by
      have h2 : ∀ e ∈ entries, e.Numeric := h
      clear h
      induction entries with
      | nil => rfl
      | cons e es ih =>
        rw [List.map_cons, List.map_cons, entry_toExact_toFp e (h2 e (List.mem_cons_self e es)),
          ih fun x hx => h2 x (List.mem_cons_of_mem e hx)]
    simp only [StatMapFp.toExact, StatMap.toFp, he]

theorem uniqueKeys_toExact (m : StatMapFp) (h : UniqueKeysFp m) : UniqueKeys m.toExact := by
  unfold UniqueKeys StatMapFp.toExact
  rw [List.map_map]
  exact h

theorem uniqueKeysFp_toFp (m : StatMap) (h : UniqueKeys m) : UniqueKeysFp m.toFp := by
  unfold UniqueKeysFp StatMap.toFp
  rw [List.map_map]
  exact h

theorem map_toFp_toExact (m : StatMap) : m.toFp.toExact = m := by
  cases m with
  | mk entries capacity =>
    have he : (entries.map StatEntry.toFp).map StatEntryFp.toExact = entries := by
      induction entries with
      | nil => rfl
      | cons e es ih =>
        rw [List.map_cons, List.map_cons, ih]
        rfl
    simp only [StatMap.toFp, StatMapFp.toExact, he]

theorem uniqueKeys_of_toFp (m : StatMap) (h : UniqueKeysFp m.toFp) : UniqueKeys m := by
  have h2 := uniqueKeys_toExact m.toFp h
  rw [map_toFp_toExact] at h2
  exact h2

theorem toFp_entries (m : StatMap) : m.toFp.entries = m.entries.map StatEntry.toFp := rfl


/-! ## Main results -/

/-- C1: end-to-end statistics. For every record sequence (every device shorter than
`MAX_DEVICE`, as the record type requires; in particular every non-empty sequence) and every
worker count `nthreads ≥ 1`, the global map built by partitioning, running `thread_func` on
each slice and merging the local maps in worker order has an entry for the key
`(d, a, m, sid)` if and only if some record has device `d`, year `a` and month `m` and
`0 ≤ sid < 6`; and for that entry, `sid` being the sensor `s`, min is the least and max the
greatest of the readings `sensor[s]` of the records with that device, year and month, soma
is their sum and count their number, so soma / count is their mean. -/
theorem pipeline_statistics (records : List Record) (nthreads : Nat) (hW : 1 ≤ nthreads)
    (d : String) (a m sid : Int) :
    (HasKey (pipeline records nthreads) (d, a, m, sid) ↔
        (∃ r ∈ records, r.device = d ∧ r.ano = a ∧ r.mes = m) ∧ 0 ≤ sid ∧ sid < 6) ∧
      ∀ e ∈ (pipeline records nthreads).entries, e.key = (d, a, m, sid) →
        ∃ s : Fin N_SENSORS, sid = Int.ofNat s.val ∧
          e.min ∈ sensor_values records d a m s ∧
          (∀ v ∈ sensor_values records d a m s, e.min ≤ v) ∧
          e.max ∈ sensor_values records d a m s ∧
          (∀ v ∈ sensor_values records d a m s, v ≤ e.max) ∧
          e.soma = (sensor_values records d a m s).sum ∧
          e.count = (sensor_values records d a m s).length ∧
          e.soma / (e.count : ℚ) =
            (sensor_values records d a m s).sum /
              ((sensor_values records d a m s).length : ℚ) := by
  have hinv := inv_pipeline records nthreads hW
  constructor
  · rw [hasKey_iff_values hinv]
    rcases sensor_id_cases sid with ⟨s, rfl⟩ | hout
    · rw [values_of_readings, sensor_values_ne_nil_iff]
      have := sensor_id_in_range s
      tauto
    · rw [values_of_readings_out_of_range records d a m sid hout]
      simp only [ne_eq, not_true_eq_false, false_iff]
      tauto
  · intro e he hk
    have hs := summ_of_mem_inv hinv he
    rw [hk] at hs
    rcases sensor_id_cases sid with ⟨s, rfl⟩ | hout
    · rw [values_of_readings] at hs
      obtain ⟨h1, h2, h3, h4, h5, h6⟩ := hs
      exact ⟨s, rfl, h3, h4, h5, h6, h2, h1, by rw [h1, h2]⟩
    · rw [values_of_readings_out_of_range records d a m sid hout] at hs
      have := hs.2.2.1
      cases this

/-- C1 (witness): three records of device `"A"` split over two workers. -/
theorem pipeline_statistics_witness :
    1 ≤ 2 ∧
      ((HasKey (pipeline [sample_record 1, sample_record 2, sample_record 3] 2)
            ("A", 2024, 3, 0) ↔
          (∃ r ∈ [sample_record 1, sample_record 2, sample_record 3],
            r.device = "A" ∧ r.ano = 2024 ∧ r.mes = 3) ∧ (0 : Int) ≤ 0 ∧ (0 : Int) < 6) ∧
        ∀ e ∈ (pipeline [sample_record 1, sample_record 2, sample_record 3] 2).entries,
          e.key = ("A", 2024, 3, 0) →
          ∃ s : Fin N_SENSORS, (0 : Int) = Int.ofNat s.val ∧
            e.min ∈ sensor_values [sample_record 1, sample_record 2, sample_record 3]
              "A" 2024 3 s ∧
            (∀ v ∈ sensor_values [sample_record 1, sample_record 2, sample_record 3]
              "A" 2024 3 s, e.min ≤ v) ∧
            e.max ∈ sensor_values [sample_record 1, sample_record 2, sample_record 3]
              "A" 2024 3 s ∧
            (∀ v ∈ sensor_values [sample_record 1, sample_record 2, sample_record 3]
              "A" 2024 3 s, v ≤ e.max) ∧
            e.soma = (sensor_values [sample_record 1, sample_record 2, sample_record 3]
              "A" 2024 3 s).sum ∧
            e.count = (sensor_values [sample_record 1, sample_record 2, sample_record 3]
              "A" 2024 3 s).length ∧
            e.soma / (e.count : ℚ) =
              (sensor_values [sample_record 1, sample_record 2, sample_record 3]
                "A" 2024 3 s).sum /
              ((sensor_values [sample_record 1, sample_record 2, sample_record 3]
                "A" 2024 3 s).length : ℚ)) :=
  ⟨by decide,
    pipeline_statistics [sample_record 1, sample_record 2, sample_record 3] 2 (by decide)
      "A" 2024 3 0⟩

/-- C2 (amended): partition invariance when every reading is a number. On the code with
doubles that may be NaN, for every record sequence none of whose readings is NaN and every
two worker counts `W1, W2 ≥ 1`, the final merged global maps have the same entries up to
order: the same keys and for each key the same min, max, count and, in exact arithmetic, the
same soma; each has unique keys and agrees in that sense with the single-worker fold of
`update_map` over all records, which is what the one worker of a run with `W = 1` computes,
and with `W = 1` the global map has exactly the entries of that fold. -/
theorem partition_invariance_fp (records : List RecordFp) (W1 W2 : Nat)
    (hnum : ∀ r ∈ records, r.Numeric) (h1 : 1 ≤ W1) (h2 : 1 ≤ W2) :
    (pipeline_fp records W1).entries.Perm (pipeline_fp records W2).entries ∧
      (pipeline_fp records W1).entries.Perm (reference_fold_fp records).entries ∧
      (∀ k, (∃ e ∈ (pipeline_fp records W1).entries, e.key = k) ↔
        (∃ e ∈ (pipeline_fp records W2).entries, e.key = k)) ∧
      UniqueKeysFp (pipeline_fp records W1) ∧
      thread_func_fp records (worker_start records.length 1 0)
          (worker_end records.length 1 0) = reference_fold_fp records ∧
      (pipeline_fp records 1).entries = (reference_fold_fp records).entries := by
  obtain ⟨rs, rfl⟩ : ∃ rs : List Record, records = rs.map Record.toFp :=
    ⟨_, (records_toExact_toFp records hnum).symm⟩
  obtain ⟨p1, p2, _, p4, p5⟩ := partition_invariance rs W1 W2 h1 h2
  have hperm : (pipeline_fp (rs.map Record.toFp) W1).entries.Perm
      (pipeline_fp (rs.map Record.toFp) W2).entries := by
    rw [pipeline_fp_toFp, pipeline_fp_toFp, toFp_entries, toFp_entries]
    exact p1.map _
  refine ⟨hperm, ?_, ?_, ?_, ?_, ?_⟩
  · rw [pipeline_fp_toFp, reference_fold_fp_toFp, toFp_entries, toFp_entries]
    exact p2.map _
  · intro k
    constructor
    · rintro ⟨e, he, hk⟩
      exact ⟨e, hperm.mem_iff.1 he, hk⟩
    · rintro ⟨e, he, hk⟩
      exact ⟨e, hperm.mem_iff.2 he, hk⟩
  · rw [pipeline_fp_toFp]
    exact uniqueKeysFp_toFp _ (pipeline_unique rs W1)
  · rw [List.length_map, thread_func_fp_toFp, reference_fold_fp_toFp, p4]
  · rw [pipeline_fp_toFp, reference_fold_fp_toFp, toFp_entries, toFp_entries, p5]

/-- C2 (witness): three records reading 1, 2 and 3, with two and with three workers. -/
theorem partition_invariance_fp_witness :
    (∀ r ∈ [sample_record_fp (Dbl.num 1), sample_record_fp (Dbl.num 2),
        sample_record_fp (Dbl.num 3)], r.Numeric) ∧ 1 ≤ 2 ∧ 1 ≤ 3 ∧
      (pipeline_fp [sample_record_fp (Dbl.num 1), sample_record_fp (Dbl.num 2),
          sample_record_fp (Dbl.num 3)] 2).entries.Perm
        (pipeline_fp [sample_record_fp (Dbl.num 1), sample_record_fp (Dbl.num 2),
          sample_record_fp (Dbl.num 3)] 3).entries :=
  ⟨by decide, by decide, by decide,
    (partition_invariance_fp [sample_record_fp (Dbl.num 1), sample_record_fp (Dbl.num 2),
      sample_record_fp (Dbl.num 3)] 2 3 (by decide) (by decide) (by decide)).1⟩

/-- C2 (counterexample): three records of one device and month whose sensor 0 reads 1, NaN
and 0. With one worker the entry of sensor 0 ends with min 0: the NaN fails both
comparisons of `update_map` and then `0 < 1` holds. With two workers it ends with min 1:
the second worker inserts NaN as its min, `0 < NaN` is false, and in the merge `NaN < 1` is
false. Both maps have unique keys. -/
theorem partition_changes_min :
    (pipeline_fp nan_records 1).entries.head? =
        some { device := "A", ano := 2024, mes := 3, sensor_id := 0, min := Dbl.num 0,
               max := Dbl.num 1, soma := Dbl.nan, count := 3 } ∧
      (pipeline_fp nan_records 2).entries.head? =
        some { device := "A", ano := 2024, mes := 3, sensor_id := 0, min := Dbl.num 1,
               max := Dbl.num 1, soma := Dbl.nan, count := 3 } ∧
      UniqueKeysFp (pipeline_fp nan_records 1) ∧ UniqueKeysFp (pipeline_fp nan_records 2) := by
  decide!

/-- C3 (amended): merge commutativity and associativity when no value is NaN. On the code
with doubles that may be NaN, for maps `A`, `B`, `C` with unique keys whose min, max and
soma are numbers, and any order `X`, `Y`, `Z` of them, merging with the merge loop of `main`
left-grouped, right-grouped or folded into a fresh map gives the same entries as
`(A + B) + C` up to the order of entries: the same keys, each with the same min, max, soma
(exact arithmetic) and count; the result has unique keys. -/
theorem merge_comm_assoc_fp (A B C X Y Z : StatMapFp) (hA : UniqueKeysFp A)
    (hB : UniqueKeysFp B) (hC : UniqueKeysFp C) (nA : A.Numeric) (nB : B.Numeric)
    (nC : C.Numeric) (hp : [X, Y, Z].Perm [A, B, C]) :
    UniqueKeysFp (merge_map_fp (merge_map_fp A B) C) ∧
      (merge_map_fp (merge_map_fp X Y) Z).entries.Perm
        (merge_map_fp (merge_map_fp A B) C).entries ∧
      (merge_map_fp X (merge_map_fp Y Z)).entries.Perm
        (merge_map_fp (merge_map_fp A B) C).entries ∧
      ([X, Y, Z].foldl merge_map_fp init_map_fp).entries.Perm
        (merge_map_fp (merge_map_fp A B) C).entries := by
  have hn : ∀ l ∈ [A, B, C], l.Numeric := by
    intro l hl
    simp only [List.mem_cons, List.mem_singleton, List.not_mem_nil, or_false] at hl
    rcases hl with rfl | rfl | rfl
    · exact nA
    · exact nB
    · exact nC
  have nX : X.Numeric := hn X (hp.mem_iff.1 (by simp))
  have nY : Y.Numeric := hn Y (hp.mem_iff.1 (by simp))
  have nZ : Z.Numeric := hn Z (hp.mem_iff.1 (by simp))
  obtain ⟨A0, rfl⟩ : ∃ A0, A = StatMap.toFp A0 := ⟨_, (map_toExact_toFp A nA).symm⟩
  obtain ⟨B0, rfl⟩ : ∃ B0, B = StatMap.toFp B0 := ⟨_, (map_toExact_toFp B nB).symm⟩
  obtain ⟨C0, rfl⟩ : ∃ C0, C = StatMap.toFp C0 := ⟨_, (map_toExact_toFp C nC).symm⟩
  obtain ⟨X0, rfl⟩ : ∃ X0, X = StatMap.toFp X0 := ⟨_, (map_toExact_toFp X nX).symm⟩
  obtain ⟨Y0, rfl⟩ : ∃ Y0, Y = StatMap.toFp Y0 := ⟨_, (map_toExact_toFp Y nY).symm⟩
  obtain ⟨Z0, rfl⟩ : ∃ Z0, Z = StatMap.toFp Z0 := ⟨_, (map_toExact_toFp Z nZ).symm⟩
  have hp0 : [X0, Y0, Z0].Perm [A0, B0, C0] := by
    have h := hp.map StatMapFp.toExact
    simpa [map_toFp_toExact] using h
  obtain ⟨q1, q2, q3, q4⟩ := merge_comm_assoc A0 B0 C0 X0 Y0 Z0 (uniqueKeys_of_toFp A0 hA)
    (uniqueKeys_of_toFp B0 hB) (uniqueKeys_of_toFp C0 hC) hp0
  refine ⟨?_, ?_, ?_, ?_⟩
  · rw [merge_map_fp_toFp, merge_map_fp_toFp]
    exact uniqueKeysFp_toFp _ q1
  · rw [merge_map_fp_toFp, merge_map_fp_toFp, merge_map_fp_toFp, merge_map_fp_toFp,
      toFp_entries, toFp_entries]
    exact q2.map _
  · rw [merge_map_fp_toFp A0, merge_map_fp_toFp _ C0, merge_map_fp_toFp Y0,
      merge_map_fp_toFp X0, toFp_entries, toFp_entries]
    exact q3.map _
  · show (merge_map_fp (merge_map_fp (merge_map_fp init_map.toFp X0.toFp) Y0.toFp)
      Z0.toFp).entries.Perm _
    rw [merge_map_fp_toFp, merge_map_fp_toFp, merge_map_fp_toFp, merge_map_fp_toFp,
      merge_map_fp_toFp, toFp_entries, toFp_entries]
    exact q4.map _

/-- C3 (witness): three different maps with overlapping keys, taken in the order third,
first, second. -/
theorem merge_comm_assoc_fp_witness :
    UniqueKeysFp (single_map_fp 0 1) ∧ UniqueKeysFp pair_map_fp ∧
      UniqueKeysFp (single_map_fp 1 7) ∧
      (single_map_fp 0 1).Numeric ∧ pair_map_fp.Numeric ∧ (single_map_fp 1 7).Numeric ∧
      [single_map_fp 1 7, single_map_fp 0 1, pair_map_fp].Perm
        [single_map_fp 0 1, pair_map_fp, single_map_fp 1 7] ∧
      (merge_map_fp (merge_map_fp (single_map_fp 1 7) (single_map_fp 0 1)) pair_map_fp).entries.Perm
        (merge_map_fp (merge_map_fp (single_map_fp 0 1) pair_map_fp) (single_map_fp 1 7)).entries ∧
      (merge_map_fp (single_map_fp 1 7) (merge_map_fp (single_map_fp 0 1) pair_map_fp)).entries.Perm
        (merge_map_fp (merge_map_fp (single_map_fp 0 1) pair_map_fp) (single_map_fp 1 7)).entries :=
  ⟨by decide, by decide, by decide, by decide, by decide, by decide, by decide,
    (merge_comm_assoc_fp (single_map_fp 0 1) pair_map_fp (single_map_fp 1 7)
      (single_map_fp 1 7) (single_map_fp 0 1) pair_map_fp (by decide) (by decide) (by decide)
      (by decide) (by decide) (by decide) (by decide)).2.1,
    (merge_comm_assoc_fp (single_map_fp 0 1) pair_map_fp (single_map_fp 1 7)
      (single_map_fp 1 7) (single_map_fp 0 1) pair_map_fp (by decide) (by decide) (by decide)
      (by decide) (by decide) (by decide) (by decide)).2.2.1⟩

/-- C3 (counterexample): `nan_map` is the local map of a worker whose only record reads NaN
on sensor 0, `one_map` that of a worker whose record reads 1; both have unique keys. Merging
`one_map` into `nan_map` leaves min NaN for sensor 0, since `1 < NaN` is false; merging
`nan_map` into `one_map` leaves min 1, since `NaN < 1` is false. Folding the empty map in as
the third map changes neither. -/
theorem merge_order_changes_min :
    UniqueKeysFp nan_map ∧ UniqueKeysFp one_map ∧ UniqueKeysFp init_map_fp ∧
      (merge_map_fp (merge_map_fp nan_map one_map) init_map_fp).entries.head? =
        some { device := "A", ano := 2024, mes := 3, sensor_id := 0, min := Dbl.nan,
               max := Dbl.nan, soma := Dbl.nan, count := 2 } ∧
      (merge_map_fp (merge_map_fp one_map nan_map) init_map_fp).entries.head? =
        some { device := "A", ano := 2024, mes := 3, sensor_id := 0, min := Dbl.num 1,
               max := Dbl.num 1, soma := Dbl.nan, count := 2 } := by
  decide!

/-- C4 (amended): key uniqueness is an invariant. For a map with unique keys and a device
string of fewer than `MAX_DEVICE` characters, the map after `update_map` has unique keys;
the merge step of `main` applied to a receiver with unique keys and any entry leaves the
receiver with unique keys; hence every local map built by `thread_func` and the global
map built by `main` have unique keys. -/
theorem key_uniqueness (m : StatMap) (dev : String) (ano mes sid : Int) (val : ℚ)
    (e : StatEntry) (records : List Record) (start stop nthreads : Nat)
    (hm : UniqueKeys m) (hdev : dev.length < MAX_DEVICE) :
    UniqueKeys (update_map m dev ano mes sid val) ∧
      UniqueKeys (merge_entry m e) ∧
      UniqueKeys (thread_func records start stop) ∧
      UniqueKeys (pipeline records nthreads) :=
  ⟨update_map_unique m dev ano mes sid val hm hdev, merge_entry_unique m e hm,
    thread_func_unique records start stop, pipeline_unique records nthreads⟩

/-- C4 (witness): the invariant applied to the one-entry map `map63` and the 63-character
device `dev63`. -/
theorem key_uniqueness_witness :
    UniqueKeys map63 ∧ dev63.length < MAX_DEVICE ∧
      (UniqueKeys (update_map map63 dev63 2024 3 0 2) ∧
        UniqueKeys (merge_entry map63 (new_entry dev63 2024 3 1 5)) ∧
        UniqueKeys (thread_func [] 0 0) ∧
        UniqueKeys (pipeline [] 1)) :=
  ⟨by decide, by decide,
    key_uniqueness map63 dev63 2024 3 0 2 (new_entry dev63 2024 3 1 5) [] 0 0 1
      (by decide) (by decide)⟩

/-- C4 (counterexample): with a device string of 64 characters `update_map` breaks key
uniqueness: `map63` has unique keys, the 64-character device is not found by `find_entry`,
and the appended entry stores its first 63 characters, the key already present. -/
theorem update_map_long_device_duplicates :
    UniqueKeys map63 ∧ ¬ UniqueKeys (update_map map63 dev64 2024 3 0 2) := by
  decide

/-- C5: count conservation. For every record sequence, every worker count `nthreads ≥ 1`
and every entry of the final global map, the entry's count equals the number of records
whose device, year and month equal those of the entry's key. -/
theorem count_conservation (records : List Record) (nthreads : Nat) (hW : 1 ≤ nthreads)
    (e : StatEntry) (he : e ∈ (pipeline records nthreads).entries) :
    e.count =
      (records.filter fun r =>
        decide (r.device = e.device ∧ r.ano = e.ano ∧ r.mes = e.mes)).length := by
  have hinv := inv_pipeline records nthreads hW
  have hs := summ_of_mem_inv hinv he
  rcases sensor_id_cases e.sensor_id with ⟨s, hsid⟩ | hout
  · have hk : e.key = (e.device, e.ano, e.mes, Int.ofNat s.val) := by
      rw [← hsid]
      rfl
    rw [hk, values_of_readings] at hs
    rw [hs.1, sensor_values_length]
  · have hk : e.key = (e.device, e.ano, e.mes, e.sensor_id) := rfl
    rw [hk, values_of_readings_out_of_range records _ _ _ _ hout] at hs
    have := hs.2.2.1
    cases this

/-- C5 (witness): the entry of sensor 0 after one record and one worker. -/
theorem count_conservation_witness :
    1 ≤ 1 ∧
      { device := "A", ano := 2024, mes := 3, sensor_id := 0, min := 1, max := 1, soma := 1,
        count := 1 } ∈ (pipeline [sample_record 1] 1).entries ∧
      (1 : Nat) =
        ([sample_record 1].filter fun r =>
          decide (r.device = "A" ∧ r.ano = 2024 ∧ r.mes = 3)).length :=
  ⟨by decide, by decide,
    count_conservation [sample_record 1] 1 (by decide)
      { device := "A", ano := 2024, mes := 3, sensor_id := 0, min := 1, max := 1, soma := 1,
        count := 1 } (by decide)⟩

/-- C6: bound invariant. Every entry `e` of every map reachable from `init_map` by
`update_map` calls and merge steps has `count ≥ 1` and `min ≤ soma / count ≤ max`; the
invariant holds for the entry written by the insert branch and is preserved by the update
branch (`update_entry`) and by the pairwise combine (`combine_entry`). -/
theorem bound_invariant (m : StatMap) (hm : Reachable m) (e : StatEntry) (he : e ∈ m.entries)
    (x y : StatEntry) (hx : Bound x) (hy : Bound y) (dev : String) (ano mes sid : Int)
    (val : ℚ) :
    (1 ≤ e.count ∧ e.min ≤ e.soma / (e.count : ℚ) ∧ e.soma / (e.count : ℚ) ≤ e.max) ∧
      Bound (new_entry dev ano mes sid val) ∧
      Bound (update_entry val x) ∧
      Bound (combine_entry x y) :=
  ⟨reachable_bound m hm e he, bound_new_entry dev ano mes sid val,
    bound_update_entry val x hx, bound_combine_entry x y hx hy⟩

/-- C6 (witness): the map after one `update_map` on the empty map, and its entry. -/
theorem bound_invariant_witness :
    Reachable (update_map init_map dev63 2024 3 0 1) ∧
      new_entry dev63 2024 3 0 1 ∈ (update_map init_map dev63 2024 3 0 1).entries ∧
      Bound (new_entry dev63 2024 3 0 1) ∧
      ((1 ≤ (new_entry dev63 2024 3 0 1).count ∧
          (new_entry dev63 2024 3 0 1).min ≤
            (new_entry dev63 2024 3 0 1).soma / ((new_entry dev63 2024 3 0 1).count : ℚ) ∧
          (new_entry dev63 2024 3 0 1).soma / ((new_entry dev63 2024 3 0 1).count : ℚ) ≤
            (new_entry dev63 2024 3 0 1).max) ∧
        Bound (new_entry dev63 2024 3 0 7) ∧
        Bound (update_entry 7 (new_entry dev63 2024 3 0 1)) ∧
        Bound (combine_entry (new_entry dev63 2024 3 0 1) (new_entry dev63 2024 3 0 1))) :=
  ⟨Reachable.update _ _ _ _ _ _ Reachable.init, List.mem_singleton_self _,
    bound_new_entry _ _ _ _ _,
    bound_invariant (update_map init_map dev63 2024 3 0 1)
      (Reachable.update _ _ _ _ _ _ Reachable.init) (new_entry dev63 2024 3 0 1)
      (List.mem_singleton_self _) (new_entry dev63 2024 3 0 1) (new_entry dev63 2024 3 0 1)
      (bound_new_entry _ _ _ _ _) (bound_new_entry _ _ _ _ _) dev63 2024 3 0 7⟩

/-- C7 (amended): `update_map` is an upsert. If no entry has the key `(dev, ano, mes, sid)`,
the result is the map with one entry appended, with min = max = soma = val and count = 1,
the given ano, mes and sensor id, and as device the first `MAX_DEVICE - 1` characters of
`dev`, which is `dev` itself when `dev` has fewer than `MAX_DEVICE` characters. If an entry
has the key, the size is unchanged and the first such entry, at index `i`, is replaced by
the entry with min = min(old min, val), max = max(old max, val), soma = old soma + val and
count = old count + 1, every other entry keeping its value and position. -/
theorem update_map_upsert (m : StatMap) (dev : String) (ano mes sid : Int) (val : ℚ) :
    (¬ HasKey m (dev, ano, mes, sid) →
      (update_map m dev ano mes sid val).entries =
          m.entries ++ [{ device := strncpy dev (MAX_DEVICE - 1), ano := ano, mes := mes,
                          sensor_id := sid, min := val, max := val, soma := val,
                          count := 1 }] ∧
        (dev.length < MAX_DEVICE → strncpy dev (MAX_DEVICE - 1) = dev)) ∧
    (HasKey m (dev, ano, mes, sid) →
      ∃ i e, m.entries[i]? = some e ∧ e.key = (dev, ano, mes, sid) ∧
        (∀ j < i, ∀ x, m.entries[j]? = some x → x.key ≠ (dev, ano, mes, sid)) ∧
        (update_map m dev ano mes sid val).size = m.size ∧
        (update_map m dev ano mes sid val).entries =
          m.entries.set i
            { e with min := min e.min val, max := max e.max val, soma := e.soma + val,
                     count := e.count + 1 }) := by
  constructor
  · intro h
    refine ⟨?_, strncpy_of_lt dev⟩
    rw [update_map_entries, upsertL_of_not_mem]
    · rfl
    · intro e he hk
      exact h ⟨e, he, hk⟩
  · intro h
    obtain ⟨i, e, hi, hk, hfirst, hset⟩ :=
      upsertL_of_mem (dev, ano, mes, sid) (new_entry dev ano mes sid val) (update_entry val)
        m.entries h
    refine ⟨i, e, hi, hk, hfirst, ?_, ?_⟩
    · unfold StatMap.size
      rw [update_map_entries, hset, List.length_set]
    · rw [update_map_entries, hset, update_entry_eq]

/-- C7 (witness): both branches of the upsert at concrete maps, the insert branch on the
empty map and the update branch on `map63`. -/
theorem update_map_upsert_witness :
    ((update_map init_map dev63 2024 3 0 1).entries =
          init_map.entries ++ [{ device := strncpy dev63 (MAX_DEVICE - 1), ano := 2024,
                                 mes := 3, sensor_id := 0, min := 1, max := 1, soma := 1,
                                 count := 1 }] ∧
        (dev63.length < MAX_DEVICE → strncpy dev63 (MAX_DEVICE - 1) = dev63)) ∧
    (∃ i e, map63.entries[i]? = some e ∧ e.key = (dev63, 2024, 3, 0) ∧
        (∀ j < i, ∀ x, map63.entries[j]? = some x → x.key ≠ (dev63, 2024, 3, 0)) ∧
        (update_map map63 dev63 2024 3 0 2).size = map63.size ∧
        (update_map map63 dev63 2024 3 0 2).entries =
          map63.entries.set i
            { e with min := min e.min 2, max := max e.max 2, soma := e.soma + 2,
                     count := e.count + 1 }) :=
  ⟨(update_map_upsert init_map dev63 2024 3 0 1).1 (by decide),
    (update_map_upsert map63 dev63 2024 3 0 2).2 (by decide)⟩

/-- C7 (counterexample): for the 64-character device `dev64` no entry of the empty map has
the key `(dev64, 2024, 3, 0)`, yet after `update_map` with that key the single entry of the
result has the key `(dev63, 2024, 3, 0)`, not the given one. -/
theorem update_map_long_device_key :
    ¬ HasKey init_map (dev64, 2024, 3, 0) ∧
      (update_map init_map dev64 2024 3 0 1).entries.map StatEntry.key =
        [(dev63, 2024, 3, 0)] ∧
      ¬ HasKey (update_map init_map dev64 2024 3 0 1) (dev64, 2024, 3, 0) := by
  decide

/-- C8: the merge loop of `main` implements `merge_into`. For a receiver `g` and a map `l`,
both with unique keys, the merged map has unique keys and: every entry of `l` whose key is
absent from `g` is present as a copy; for a key present in both, the merged entry has the
min of the mins, the max of the maxes, the sum of the somas and the sum of the counts;
every entry of `g` whose key is absent from `l` is unchanged; and no other key appears. -/
theorem merge_map_spec (g l : StatMap) (hg : UniqueKeys g) (hl : UniqueKeys l) :
    UniqueKeys (merge_map g l) ∧
      (∀ e ∈ l.entries, ¬ HasKey g e.key → e ∈ (merge_map g l).entries) ∧
      (∀ e ∈ l.entries, ∀ x ∈ g.entries, x.key = e.key →
        { x with min := min x.min e.min, max := max x.max e.max, soma := x.soma + e.soma,
                 count := x.count + e.count } ∈ (merge_map g l).entries) ∧
      (∀ x ∈ g.entries, ¬ HasKey l x.key → x ∈ (merge_map g l).entries) ∧
      (∀ k, HasKey (merge_map g l) k ↔ HasKey g k ∨ HasKey l k) := by
  refine ⟨merge_map_unique g l hg, ?_, ?_, ?_, ?_⟩
  · intro e he hne
    apply lookup_some_mem (k := e.key)
    rw [lookup_merge_map g l hl, lookup_none_of_not_hasKey hne, lookup_of_mem hl he]
    rfl
  · intro e he x hx hk
    apply lookup_some_mem (k := e.key)
    rw [lookup_merge_map g l hl, lookup_of_mem hl he, ← hk, lookup_of_mem hg hx,
      ← combine_entry_eq]
    rfl
  · intro x hx hne
    apply lookup_some_mem (k := x.key)
    rw [lookup_merge_map g l hl, lookup_none_of_not_hasKey hne, lookup_of_mem hg hx]
    rfl
  · intro k
    rw [hasKey_iff_lookup, hasKey_iff_lookup, hasKey_iff_lookup, lookup_merge_map g l hl]
    cases lookup k g.entries <;> cases lookup k l.entries <;> simp [comb_opt]

/-- C8 (witness): merging `map63` into itself. -/
theorem merge_map_spec_witness :
    UniqueKeys map63 ∧
      (UniqueKeys (merge_map map63 map63) ∧
        (∀ e ∈ map63.entries, ¬ HasKey map63 e.key → e ∈ (merge_map map63 map63).entries) ∧
        (∀ e ∈ map63.entries, ∀ x ∈ map63.entries, x.key = e.key →
          { x with min := min x.min e.min, max := max x.max e.max, soma := x.soma + e.soma,
                   count := x.count + e.count } ∈ (merge_map map63 map63).entries) ∧
        (∀ x ∈ map63.entries, ¬ HasKey map63 x.key → x ∈ (merge_map map63 map63).entries) ∧
        (∀ k, HasKey (merge_map map63 map63) k ↔ HasKey map63 k ∨ HasKey map63 k)) :=
  ⟨by decide, merge_map_spec map63 map63 (by decide) (by decide)⟩

/-- C9: partition tiling. For `n` records (in particular `n ≥ 1`) and `nthreads ≥ 1`, with
`chunk = n / nthreads`, worker `i < nthreads - 1` gets `[i*chunk, (i+1)*chunk)` and the
last worker gets `[(nthreads-1)*chunk, n)`; every range is well-formed
(`start ≤ end ≤ n`), the first starts at 0, each next one starts where the previous one
ends, the last ends at `n`, two different workers share no index, and every index below
`n` lies in the range of exactly one worker. -/
theorem partition_tiling (n nthreads : Nat) (hW : 1 ≤ nthreads) :
    (∀ i, i < nthreads - 1 →
        worker_start n nthreads i = i * (n / nthreads) ∧
          worker_end n nthreads i = (i + 1) * (n / nthreads)) ∧
      (worker_start n nthreads (nthreads - 1) = (nthreads - 1) * (n / nthreads) ∧
        worker_end n nthreads (nthreads - 1) = n) ∧
      (∀ i, i < nthreads →
        worker_start n nthreads i ≤ worker_end n nthreads i ∧ worker_end n nthreads i ≤ n) ∧
      worker_start n nthreads 0 = 0 ∧
      (∀ i, i + 1 < nthreads → worker_start n nthreads (i + 1) = worker_end n nthreads i) ∧
      (∀ i j, i < nthreads → j < nthreads → i ≠ j → ∀ x,
        ¬ ((worker_start n nthreads i ≤ x ∧ x < worker_end n nthreads i) ∧
            (worker_start n nthreads j ≤ x ∧ x < worker_end n nthreads j))) ∧
      (∀ x, x < n →
        ∃! i, i < nthreads ∧ worker_start n nthreads i ≤ x ∧ x < worker_end n nthreads i) := by
  have hdisj : ∀ i j, i < nthreads → j < nthreads → i ≠ j → ∀ x,
      ¬ ((worker_start n nthreads i ≤ x ∧ x < worker_end n nthreads i) ∧
          (worker_start n nthreads j ≤ x ∧ x < worker_end n nthreads j)) := by
    intro i j hi hj hij x hx
    rcases Nat.lt_or_gt_of_ne hij with h | h
    · have := worker_end_le_start n nthreads i j h hj
      omega
    · have := worker_end_le_start n nthreads j i h hi
      omega
  refine ⟨?_, ⟨rfl, worker_end_last n nthreads⟩, ?_, ?_, ?_, hdisj, ?_⟩
  · intro i hi
    refine ⟨rfl, ?_⟩
    unfold worker_end
    rw [if_neg (by omega)]
    rfl
  · intro i hi
    exact ⟨worker_start_le_end n nthreads i hi, worker_end_le n nthreads i hi⟩
  · simp [worker_start]
  · intro i hi
    exact (worker_end_eq_start_succ n nthreads i hi).symm
  · intro x hx
    obtain ⟨i, hi, h1, h2⟩ := exists_worker n nthreads x hW hx
    refine ⟨i, ⟨hi, h1, h2⟩, ?_⟩
    rintro j ⟨hj, h3, h4⟩
    by_contra hne
    exact hdisj j i hj hi hne x ⟨⟨h3, h4⟩, ⟨h1, h2⟩⟩

/-- C9 (witness): ten records over four workers. -/
theorem partition_tiling_witness :
    1 ≤ 4 ∧
    ((∀ i, i < 4 - 1 →
        worker_start 10 4 i = i * (10 / 4) ∧ worker_end 10 4 i = (i + 1) * (10 / 4)) ∧
      (worker_start 10 4 (4 - 1) = (4 - 1) * (10 / 4) ∧ worker_end 10 4 (4 - 1) = 10) ∧
      (∀ i, i < 4 → worker_start 10 4 i ≤ worker_end 10 4 i ∧ worker_end 10 4 i ≤ 10) ∧
      worker_start 10 4 0 = 0 ∧
      (∀ i, i + 1 < 4 → worker_start 10 4 (i + 1) = worker_end 10 4 i) ∧
      (∀ i j, i < 4 → j < 4 → i ≠ j → ∀ x,
        ¬ ((worker_start 10 4 i ≤ x ∧ x < worker_end 10 4 i) ∧
            (worker_start 10 4 j ≤ x ∧ x < worker_end 10 4 j))) ∧
      (∀ x, x < 10 → ∃! i, i < 4 ∧ worker_start 10 4 i ≤ x ∧ x < worker_end 10 4 i)) :=
  ⟨by decide, partition_tiling 10 4 (by decide)⟩

/-- C10: idempotent re-merge. Merging an empty map (of any capacity, in particular a freshly
initialised one) into `g` with the merge loop of `main` leaves `g` unchanged; and merging a
map `g` with unique keys into a freshly initialised map gives the entries of `g`, in the
same order, hence the same size. -/
theorem remerge_idempotent (g : StatMap) (c : Nat) :
    merge_map g { entries := [], capacity := c } = g ∧
      merge_map g init_map = g ∧
      (UniqueKeys g →
        (merge_map init_map g).entries = g.entries ∧ (merge_map init_map g).size = g.size) := by
  refine ⟨rfl, rfl, ?_⟩
  intro hg
  have h : (merge_map init_map g).entries = g.entries := by
    unfold merge_map
    rw [foldl_merge_entry_append]
    · rfl
    · exact hg
  exact ⟨h, congrArg List.length h⟩

/-- C10 (witness): re-merging `map63`. -/
theorem remerge_idempotent_witness :
    UniqueKeys map63 ∧
      merge_map map63 { entries := [], capacity := 7 } = map63 ∧
      (merge_map init_map map63).entries = map63.entries ∧
      (merge_map init_map map63).size = map63.size :=
  ⟨by decide, (remerge_idempotent map63 7).1,
    ((remerge_idempotent map63 7).2.2 (by decide)).1,
    ((remerge_idempotent map63 7).2.2 (by decide)).2⟩

/-- C11: date cutoff. For every parsed `(ano, mes)` the cutoff test of the ingestion loop
lets the line through exactly when `ano > 2024` or `ano = 2024` and `mes ≥ 3`; so for a line
with its device, count, date and six sensor fields whose date parses to `(ano, mes)`, the
loop keeps the record (the record count grows by one) if and only if that condition holds,
and otherwise leaves the state as it was. A record dated 2024-03 is included; records dated
2024-02 and 2023-12 are excluded. -/
theorem date_cutoff (strptime : String → Option Tm) (atof : String → ℚ) (st : IngestState)
    (line t0 dev cnt date : String) (sens : List String) (tm : Tm)
    (htok : strtok_all line = t0 :: dev :: cnt :: date :: sens)
    (hdate : strptime (strncpy date 10) = some tm) (hs : N_SENSORS ≤ sens.length) :
    (∀ ano mes : Int, before_cutoff ano mes = false ↔ (ano > 2024 ∨ (ano = 2024 ∧ mes ≥ 3))) ∧
      ((∃ r, ingest_step strptime atof line = LineOutcome.kept r ∧
            r.ano = tm.tm_year + 1900 ∧ r.mes = tm.tm_mon + 1) ↔
        (tm.tm_year + 1900 > 2024 ∨ (tm.tm_year + 1900 = 2024 ∧ tm.tm_mon + 1 ≥ 3))) ∧
      ((ingest_line strptime atof st line).records.length = st.records.length + 1 ↔
        (tm.tm_year + 1900 > 2024 ∨ (tm.tm_year + 1900 = 2024 ∧ tm.tm_mon + 1 ≥ 3))) ∧
      (¬ (tm.tm_year + 1900 > 2024 ∨ (tm.tm_year + 1900 = 2024 ∧ tm.tm_mon + 1 ≥ 3)) →
        ingest_line strptime atof st line = st) ∧
      before_cutoff 2024 3 = false ∧ before_cutoff 2024 2 = true ∧
      before_cutoff 2023 12 = true := by
  refine ⟨before_cutoff_eq_false_iff, ?_, ?_, ?_, rfl, rfl, rfl⟩
  · by_cases hc : before_cutoff (tm.tm_year + 1900) (tm.tm_mon + 1) = false
    · obtain ⟨r, hr, _, ha, hm, _⟩ :=
        ingest_step_of_complete strptime atof line t0 dev cnt date sens tm htok hdate hc hs
      exact ⟨fun _ => (before_cutoff_eq_false_iff _ _).1 hc, fun _ => ⟨r, hr, ha, hm⟩⟩
    · have hc2 : before_cutoff (tm.tm_year + 1900) (tm.tm_mon + 1) = true := by
        simpa using hc
      constructor
      · rintro ⟨r, hr, _⟩
        rw [ingest_step_of_before_cutoff strptime atof line t0 dev cnt date sens tm htok hdate
          hc2] at hr
        cases hr
      · intro hcond
        exact absurd ((before_cutoff_eq_false_iff _ _).2 hcond) hc
  · by_cases hc : before_cutoff (tm.tm_year + 1900) (tm.tm_mon + 1) = false
    · obtain ⟨r, hr, _⟩ :=
        ingest_step_of_complete strptime atof line t0 dev cnt date sens tm htok hdate hc hs
      rw [ingest_line_of_kept strptime atof st line r hr]
      simp only [List.length_append, List.length_singleton, true_iff]
      exact (before_cutoff_eq_false_iff _ _).1 hc
    · have hc2 : before_cutoff (tm.tm_year + 1900) (tm.tm_mon + 1) = true := by
        simpa using hc
      rw [ingest_line_of_dropped strptime atof st line _ _
        (ingest_step_of_before_cutoff strptime atof line t0 dev cnt date sens tm htok hdate hc2)]
      constructor
      · intro h
        omega
      · intro hcond
        exact absurd ((before_cutoff_eq_false_iff _ _).2 hcond) hc
  · intro hn
    have hc2 : before_cutoff (tm.tm_year + 1900) (tm.tm_mon + 1) = true := by
      cases hb : before_cutoff (tm.tm_year + 1900) (tm.tm_mon + 1) with
      | true => rfl
      | false => exact absurd ((before_cutoff_eq_false_iff _ _).1 hb) hn
    exact ingest_line_of_dropped strptime atof st line _ _
      (ingest_step_of_before_cutoff strptime atof line t0 dev cnt date sens tm htok hdate hc2)

/-- C11 (witness): the complete line `line_ok`, dated 2024-03-01. -/
theorem date_cutoff_witness :
    strtok_all line_ok =
        "1" :: "dev" :: "7" :: "2024-03-01 00:00:00" :: ["1", "2", "3", "4", "5", "6"] ∧
      sample_strptime (strncpy "2024-03-01 00:00:00" 10) =
        some { tm_year := 124, tm_mon := 2 } ∧
      ((ingest_line sample_strptime sample_atof { records := [], stderr := [] }
            line_ok).records.length = 0 + 1 ↔
        ((124 : Int) + 1900 > 2024 ∨ ((124 : Int) + 1900 = 2024 ∧ (2 : Int) + 1 ≥ 3))) :=
  ⟨by decide, rfl,
    (date_cutoff sample_strptime sample_atof { records := [], stderr := [] } line_ok
      "1" "dev" "7" "2024-03-01 00:00:00" ["1", "2", "3", "4", "5", "6"]
      { tm_year := 124, tm_mon := 2 } (by decide) rfl (by decide)).2.2.1⟩

/-- C12: end-to-end example. For the three records of device `"A"`, March 2024, with
`sensor[0]` equal to 1, 2 and 3 and every other sensor 0, and for every worker count
`nthreads ≥ 1`, the global map holds for the key `("A", 2024, 3, 0)` exactly the entry with
max 3, soma 6, count 3 and min 1; the output stage renders that entry as the row
`A;2024-03;temperatura;3.00;2.00;1.00`, and a run of `main` whose ingestion yields these
records writes that row to the output file. -/
theorem end_to_end_example (nthreads : Nat) (hW : 1 ≤ nthreads) :
    sample_entry ∈ (pipeline [sample_record 1, sample_record 2, sample_record 3]
        nthreads).entries ∧
      (∀ e ∈ (pipeline [sample_record 1, sample_record 2, sample_record 3] nthreads).entries,
        e.key = ("A", 2024, 3, 0) → e = sample_entry) ∧
      render_row sample_entry = "A;2024-03;temperatura;3.00;2.00;1.00\n" ∧
      "A;2024-03;temperatura;3.00;2.00;1.00\n" ∈
        (pipeline [sample_record 1, sample_record 2, sample_record 3] nthreads).entries.map
          render_row ∧
      (∀ (strptime : String → Option Tm) (atof : String → ℚ) (input : Option (List String))
          (nprocs : Int),
        survivors strptime atof input = [sample_record 1, sample_record 2, sample_record 3] →
        ∃ rows, (main_run strptime atof input nprocs true).output_file = some rows ∧
          "A;2024-03;temperatura;3.00;2.00;1.00\n" ∈ rows) := by
  have hall : ∀ n, 1 ≤ n →
      (∀ e ∈ (pipeline [sample_record 1, sample_record 2, sample_record 3] n).entries,
        e.key = ("A", 2024, 3, 0) → e = sample_entry) ∧
      sample_entry ∈ (pipeline [sample_record 1, sample_record 2, sample_record 3] n).entries := by
    intro n hn
    have hinv := inv_pipeline [sample_record 1, sample_record 2, sample_record 3] n hn
    have huniq : ∀ e ∈ (pipeline [sample_record 1, sample_record 2, sample_record 3] n).entries,
        e.key = ("A", 2024, 3, 0) → e = sample_entry := by
      intro e he hk
      have hs := summ_of_mem_inv hinv he
      rw [hk] at hs
      have hv : values_of ("A", 2024, 3, 0)
          (readings [sample_record 1, sample_record 2, sample_record 3]) = [1, 2, 3] := by
        have h0 := values_of_readings [sample_record 1, sample_record 2, sample_record 3]
          "A" 2024 3 (0 : Fin N_SENSORS)
        have h1 : sensor_values [sample_record 1, sample_record 2, sample_record 3]
            "A" 2024 3 (0 : Fin N_SENSORS) = [1, 2, 3] := by decide
        rw [h1] at h0
        exact h0
      rw [hv] at hs
      obtain ⟨h1, h2, h3, h4, h5, h6⟩ := hs
      have hmin : e.min = 1 := by
        have hle := h4 1 (by simp)
        simp only [List.mem_cons, List.mem_singleton, List.not_mem_nil, or_false] at h3
        rcases h3 with h | h | h
        · exact h
        · rw [h] at hle; norm_num at hle
        · rw [h] at hle; norm_num at hle
      have hmax : e.max = 3 := by
        have hle := h6 3 (by simp)
        simp only [List.mem_cons, List.mem_singleton, List.not_mem_nil, or_false] at h5
        rcases h5 with h | h | h
        · rw [h] at hle; norm_num at hle
        · rw [h] at hle; norm_num at hle
        · exact h
      have hsoma : e.soma = 6 := by
        rw [h2]
        norm_num
      have hcount : e.count = 3 := h1
      cases e
      simp only [StatEntry.key, Prod.mk.injEq] at hk
      simp only at hmin hmax hsoma hcount
      obtain ⟨k1, k2, k3, k4⟩ := hk
      rw [k1, k2, k3, k4, hmin, hmax, hsoma, hcount]
      rfl
    refine ⟨huniq, ?_⟩
    have hhas : HasKey (pipeline [sample_record 1, sample_record 2, sample_record 3] n)
        ("A", 2024, 3, 0) := by
      rw [hasKey_iff_of_inv _ _ hinv]
      exact ⟨⟨sample_record 1, by simp, rfl, rfl, rfl⟩, by decide, by decide⟩
    obtain ⟨e, he, hk⟩ := hhas
    rw [← huniq e he hk]
    exact he
  have hrow : render_row sample_entry = "A;2024-03;temperatura;3.00;2.00;1.00\n" := by
    decide!
  refine ⟨(hall nthreads hW).2, (hall nthreads hW).1, hrow, ?_, ?_⟩
  · rw [← hrow]
    exact List.mem_map_of_mem render_row (hall nthreads hW).2
  · intro strptime atof input nprocs hsurv
    have hlen : 1 ≤ (survivors strptime atof input).length := by
      rw [hsurv]
      decide
    obtain ⟨_, _, hout⟩ := main_run_of_survivors strptime atof input nprocs true hlen
    refine ⟨_, (hout rfl).2, ?_⟩
    rw [hsurv, ← hrow]
    exact List.mem_cons_of_mem _
      (List.mem_map_of_mem render_row (hall _ (detect_nthreads_pos nprocs)).2)

/-- C12 (witness): the example with two workers. -/
theorem end_to_end_example_witness :
    1 ≤ 2 ∧
      sample_entry ∈ (pipeline [sample_record 1, sample_record 2, sample_record 3] 2).entries ∧
      render_row sample_entry = "A;2024-03;temperatura;3.00;2.00;1.00\n" ∧
      "A;2024-03;temperatura;3.00;2.00;1.00\n" ∈
        (pipeline [sample_record 1, sample_record 2, sample_record 3] 2).entries.map render_row :=
  ⟨by decide, (end_to_end_example 2 (by decide)).1, (end_to_end_example 2 (by decide)).2.2.1,
    (end_to_end_example 2 (by decide)).2.2.2.1⟩

/-- C13: zero-survivor case. When no line yields a record (`n = 0` after ingestion and
filter) the run ends with exit code 1, no range is handed to a worker and no thread is
created, the output file is never opened and nothing is written to stdout. When `n ≥ 1` that
branch is not taken: its message is not emitted, one thread per worker is created with its
range, and when the output file opens the run ends with exit code 0 and the rendered
table. -/
theorem zero_survivor (strptime : String → Option Tm) (atof : String → ℚ)
    (input : Option (List String)) (nprocs : Int) (out_ok : Bool) :
    (survivors strptime atof input = [] →
        (main_run strptime atof input nprocs out_ok).exit_code = 1 ∧
          (main_run strptime atof input nprocs out_ok).exit_code ≠ 0 ∧
          (main_run strptime atof input nprocs out_ok).ranges = [] ∧
          (main_run strptime atof input nprocs out_ok).output_file = none ∧
          (main_run strptime atof input nprocs out_ok).stdout = []) ∧
      (1 ≤ (survivors strptime atof input).length →
        Diagnostic.no_valid_record ∉ (main_run strptime atof input nprocs out_ok).stderr ∧
          (main_run strptime atof input nprocs out_ok).ranges.length = detect_nthreads nprocs ∧
          1 ≤ detect_nthreads nprocs ∧
          (out_ok = true →
            (main_run strptime atof input nprocs out_ok).exit_code = 0 ∧
              (main_run strptime atof input nprocs out_ok).output_file =
                some (header_row ::
                  (pipeline (survivors strptime atof input)
                    (detect_nthreads nprocs)).entries.map render_row))) := by
  constructor
  · intro h
    obtain ⟨h1, h2, h3, h4⟩ := main_run_of_no_survivor strptime atof input nprocs out_ok h
    refine ⟨h1, ?_, h2, h3, h4⟩
    rw [h1]
    decide
  · intro h
    obtain ⟨h1, h2, h3⟩ := main_run_of_survivors strptime atof input nprocs out_ok h
    refine ⟨h1, ?_, detect_nthreads_pos nprocs, h3⟩
    rw [h2, List.length_map, List.length_range]

/-- C13 (witness): an input whose only data line predates the cutoff, and an input with one
valid line. -/
theorem zero_survivor_witness :
    survivors sample_strptime sample_atof
        (some ["header", "1|dev|7|2023-12-31 00:00:00|1|2|3|4|5|6"]) = [] ∧
      (main_run sample_strptime sample_atof
          (some ["header", "1|dev|7|2023-12-31 00:00:00|1|2|3|4|5|6"]) 4 true).exit_code = 1 ∧
      (main_run sample_strptime sample_atof
          (some ["header", "1|dev|7|2023-12-31 00:00:00|1|2|3|4|5|6"]) 4 true).output_file =
        none ∧
      1 ≤ (survivors sample_strptime sample_atof (some ["header", line_ok])).length ∧
      Diagnostic.no_valid_record ∉
        (main_run sample_strptime sample_atof (some ["header", line_ok]) 4 true).stderr :=
  ⟨rfl,
    ((zero_survivor sample_strptime sample_atof
      (some ["header", "1|dev|7|2023-12-31 00:00:00|1|2|3|4|5|6"]) 4 true).1 rfl).1,
    ((zero_survivor sample_strptime sample_atof
      (some ["header", "1|dev|7|2023-12-31 00:00:00|1|2|3|4|5|6"]) 4 true).1 rfl).2.2.2.1,
    by decide,
    ((zero_survivor sample_strptime sample_atof (some ["header", line_ok]) 4 true).2
      (by decide)).1⟩

/-- C14 (the code at the failing inputs): the line `line_short` has a single field and the
line `line_bad_date` has ten fields and a date that does not parse; the ingestion loop adds
no record for either and writes nothing to stderr for either. The line `line_trailing` has
an empty sixth sensor field, yet `strtok` returns the newline as a sixth token and a record
is added, again with nothing on stderr. -/
theorem malformed_line_silent :
    (strtok_all line_short).length < 10 ∧
      (ingest_line sample_strptime sample_atof { records := [], stderr := [] }
        line_short).stderr = [] ∧
      (ingest_line sample_strptime sample_atof { records := [], stderr := [] }
        line_short).records.length = 0 ∧
      (strtok_all line_bad_date).length = 10 ∧
      sample_strptime (strncpy "31/12/2024" 10) = none ∧
      (ingest_line sample_strptime sample_atof { records := [], stderr := [] }
        line_bad_date).stderr = [] ∧
      (ingest_line sample_strptime sample_atof { records := [], stderr := [] }
        line_bad_date).records.length = 0 ∧
      strtok_all line_trailing =
        ["1", "dev", "7", "2024-03-01 00:00:00", "1", "2", "3", "4", "5", "\n"] ∧
      (ingest_line sample_strptime sample_atof { records := [], stderr := [] }
        line_trailing).stderr = [] ∧
      (ingest_line sample_strptime sample_atof { records := [], stderr := [] }
        line_trailing).records.length = 1 := by
  decide

/-- C15: a worker is a pure function of its slice. For two record arrays that agree on the
indices `[start, end)`, `thread_func` with that start and end produces the same local map
(the same entries in the same order, the same capacity); and as a transformer of its
`ThreadArg` it leaves the records and the bounds unchanged, and run on entry `i` of the
array `args` it leaves every other entry of `args` as it was. -/
theorem thread_func_pure (rs1 rs2 : List Record) (start stop : Nat)
    (h : ∀ i, start ≤ i → i < stop → rs1[i]? = rs2[i]?) (ta : ThreadArg)
    (args : List ThreadArg) (i : Nat) :
    thread_func rs1 start stop = thread_func rs2 start stop ∧
      ((run_thread ta).records = ta.records ∧ (run_thread ta).start = ta.start ∧
        (run_thread ta).stop = ta.stop ∧
        (run_thread ta).local_map = thread_func ta.records ta.start ta.stop) ∧
      (run_thread_at args i).length = args.length ∧
      (∀ j, j ≠ i → (run_thread_at args i)[j]? = args[j]?) ∧
      (run_thread_at args i).map ThreadArg.records = args.map ThreadArg.records := by
  refine ⟨?_, ⟨rfl, rfl, rfl, rfl⟩, ?_, ?_, ?_⟩
  · unfold thread_func
    rw [slice_congr rs1 rs2 start stop h]
  · unfold run_thread_at
    split
    · exact List.length_set _ _ _
    · rfl
  · intro j hj
    unfold run_thread_at
    split
    · exact List.getElem?_set_ne (Ne.symm hj)
    · rfl
  · unfold run_thread_at
    split
    · rename_i ta0 h0
      apply List.ext_getElem?
      intro n
      rw [List.getElem?_map, List.getElem?_map]
      by_cases hn : i = n
      · subst hn
        rw [List.getElem?_set_self (by
          rcases Nat.lt_or_ge i args.length with hlt | hge
          · exact hlt
          · rw [List.getElem?_eq_none hge] at h0
            cases h0), h0]
        rfl
      · rw [List.getElem?_set_ne hn]
    · rfl

/-- C15 (witness): two arrays that differ only outside `[1, 2)`. -/
theorem thread_func_pure_witness :
    (∀ i, 1 ≤ i → i < 2 →
        [sample_record 1, sample_record 2, sample_record 3][i]? =
          [sample_record 5, sample_record 2][i]?) ∧
      thread_func [sample_record 1, sample_record 2, sample_record 3] 1 2 =
        thread_func [sample_record 5, sample_record 2] 1 2 :=
  have h : ∀ i, 1 ≤ i → i < 2 →
      [sample_record 1, sample_record 2, sample_record 3][i]? =
        [sample_record 5, sample_record 2][i]? := by
    intro i h1 h2
    have hi : i = 1 := by omega
    subst hi
    rfl
  ⟨h, (thread_func_pure [sample_record 1, sample_record 2, sample_record 3]
    [sample_record 5, sample_record 2] 1 2 h
    { records := [], start := 0, stop := 0, local_map := init_map } [] 0).1⟩

/-- C16: the local map of a worker. For every slice, `thread_func` is the left fold of
`update_map` from the empty map over the pairs taken record by record and, within a record,
for `s = 0..5` with key `(device, ano, mes, s)` and value `sensor[s]`; its size is 6 times
the number of distinct (device, ano, mes) triples of the slice; each triple of the slice
appears with all six sensor ids; every entry belongs to a triple of the slice and a sensor
id in `0..5`; and the entries of one triple all have the same count. -/
theorem thread_func_fold (records : List Record) (start stop : Nat) :
    thread_func records start stop =
        (readings (slice records start stop)).foldl update_pair init_map ∧
      (∀ r : Record, record_readings r =
        [((r.device, r.ano, r.mes, 0), r.sensor 0), ((r.device, r.ano, r.mes, 1), r.sensor 1),
         ((r.device, r.ano, r.mes, 2), r.sensor 2), ((r.device, r.ano, r.mes, 3), r.sensor 3),
         ((r.device, r.ano, r.mes, 4), r.sensor 4),
         ((r.device, r.ano, r.mes, 5), r.sensor 5)]) ∧
      (∀ (m : StatMap) (p : Key × ℚ),
        update_pair m p = update_map m p.1.1 p.1.2.1 p.1.2.2.1 p.1.2.2.2 p.2) ∧
      (thread_func records start stop).size =
        6 * ((slice records start stop).map Record.triple).dedup.length ∧
      (∀ r ∈ slice records start stop, ∀ s : Fin N_SENSORS,
        HasKey (thread_func records start stop) (r.device, r.ano, r.mes, Int.ofNat s.val)) ∧
      (∀ e ∈ (thread_func records start stop).entries,
        (∃ r ∈ slice records start stop, r.device = e.device ∧ r.ano = e.ano ∧ r.mes = e.mes) ∧
          0 ≤ e.sensor_id ∧ e.sensor_id < 6) ∧
      (∀ e1 ∈ (thread_func records start stop).entries,
        ∀ e2 ∈ (thread_func records start stop).entries,
          e1.device = e2.device → e1.ano = e2.ano → e1.mes = e2.mes → e1.count = e2.count) := by
  have hinv := inv_thread_func records start stop
  refine ⟨foldl_process_record_eq _ _, fun r => rfl, fun m p => rfl,
    size_of_inv _ _ hinv, ?_, ?_, ?_⟩
  · intro r hr s
    rw [hasKey_iff_of_inv _ _ hinv]
    exact ⟨⟨r, hr, rfl, rfl, rfl⟩, sensor_id_in_range s⟩
  · intro e he
    exact (hasKey_iff_of_inv _ _ hinv e.device e.ano e.mes e.sensor_id).1 ⟨e, he, rfl⟩
  · intro e1 h1 e2 h2 hd ha hm
    rw [count_of_inv _ _ hinv e1 h1, count_of_inv _ _ hinv e2 h2, hd, ha, hm]

/-- C17: slice sizes. For `n` records (in particular `n ≥ 1`) and `nthreads ≥ 1`, every
worker except the last receives exactly `n / nthreads` records and the last receives
`n / nthreads + n mod nthreads`; the sizes sum to `n`; when `n < nthreads` every worker but
the last receives an empty slice and the last receives all `n` records; and the size of a
worker's range is the length of the slice of the record array it visits. -/
theorem slice_sizes (n nthreads : Nat) (hW : 1 ≤ nthreads) :
    (∀ i, i < nthreads - 1 → slice_size n nthreads i = n / nthreads) ∧
      slice_size n nthreads (nthreads - 1) = n / nthreads + n % nthreads ∧
      ((List.range nthreads).map (slice_size n nthreads)).sum = n ∧
      (n < nthreads →
        (∀ i, i < nthreads - 1 → slice_size n nthreads i = 0) ∧
          slice_size n nthreads (nthreads - 1) = n) ∧
      (∀ records : List Record, records.length = n → ∀ i, i < nthreads →
        (slice records (worker_start n nthreads i) (worker_end n nthreads i)).length =
          slice_size n nthreads i) := by
  refine ⟨fun i hi => slice_size_of_lt n nthreads i hi, slice_size_last n nthreads hW,
    sum_slice_size n nthreads hW, ?_, ?_⟩
  · intro hlt
    have hc : n / nthreads = 0 := Nat.div_eq_of_lt hlt
    refine ⟨fun i hi => ?_, ?_⟩
    · rw [slice_size_of_lt n nthreads i hi, hc]
    · rw [slice_size_last n nthreads hW, hc, Nat.mod_eq_of_lt hlt, Nat.zero_add]
  · intro records hlen i hi
    rw [slice_length]
    · rfl
    · rw [hlen]
      exact worker_end_le n nthreads i hi

/-- C17 (witness): ten records over four workers, and two records over four workers. -/
theorem slice_sizes_witness :
    1 ≤ 4 ∧
      ((∀ i, i < 4 - 1 → slice_size 10 4 i = 10 / 4) ∧
        slice_size 10 4 (4 - 1) = 10 / 4 + 10 % 4 ∧
        ((List.range 4).map (slice_size 10 4)).sum = 10 ∧
        (10 < 4 → (∀ i, i < 4 - 1 → slice_size 10 4 i = 0) ∧ slice_size 10 4 (4 - 1) = 10) ∧
        (∀ records : List Record, records.length = 10 → ∀ i, i < 4 →
          (slice records (worker_start 10 4 i) (worker_end 10 4 i)).length =
            slice_size 10 4 i)) ∧
      ((∀ i, i < 4 - 1 → slice_size 2 4 i = 0) ∧ slice_size 2 4 (4 - 1) = 2) :=
  ⟨by decide, slice_sizes 10 4 (by decide), (slice_sizes 2 4 (by decide)).2.2.2.1 (by decide)⟩

/-- C18: storage safety of the growable map. Every map reachable from `init_map` by
`update_map` calls and merge steps has `size ≤ capacity` with `capacity = 1024 * 2^k` for
some `k`; after `ensure_capacity` it has `size < capacity`, so the index `size` written by
the append branch of `update_map` and of the merge loop lies inside the backing storage;
and `find_entry` returns -1 or an index that is at least 0 and less than `size`. -/
theorem storage_safety (m : StatMap) (hm : Reachable m) (dev : String) (ano mes sid : Int) :
    m.size ≤ m.capacity ∧
      (∃ k : Nat, m.capacity = 1024 * 2 ^ k) ∧
      (ensure_capacity m).size < (ensure_capacity m).capacity ∧
      (ensure_capacity m).entries = m.entries ∧
      (find_entry m dev ano mes sid = -1 ∨
        (0 ≤ find_entry m dev ano mes sid ∧ find_entry m dev ano mes sid < (m.size : Int))) := by
  have h := reachable_storageOk m hm
  refine ⟨h.1, h.2, (ensure_capacity_ok m h).2, ensure_capacity_entries m, ?_⟩
  rcases find_entry_loop_range dev ano mes sid m.entries 0 with h1 | h1
  · left
    exact h1
  · right
    unfold find_entry StatMap.size
    constructor
    · exact h1.1
    · simpa using h1.2

/-- C18 (witness): the map after one `update_map` on the empty map. -/
theorem storage_safety_witness :
    Reachable (update_map init_map dev63 2024 3 0 1) ∧
      ((update_map init_map dev63 2024 3 0 1).size ≤
          (update_map init_map dev63 2024 3 0 1).capacity ∧
        (∃ k : Nat, (update_map init_map dev63 2024 3 0 1).capacity = 1024 * 2 ^ k) ∧
        (ensure_capacity (update_map init_map dev63 2024 3 0 1)).size <
          (ensure_capacity (update_map init_map dev63 2024 3 0 1)).capacity ∧
        (ensure_capacity (update_map init_map dev63 2024 3 0 1)).entries =
          (update_map init_map dev63 2024 3 0 1).entries ∧
        (find_entry (update_map init_map dev63 2024 3 0 1) dev63 2024 3 0 = -1 ∨
          (0 ≤ find_entry (update_map init_map dev63 2024 3 0 1) dev63 2024 3 0 ∧
            find_entry (update_map init_map dev63 2024 3 0 1) dev63 2024 3 0 <
              ((update_map init_map dev63 2024 3 0 1).size : Int)))) :=
  ⟨Reachable.update _ _ _ _ _ _ Reachable.init,
    storage_safety (update_map init_map dev63 2024 3 0 1)
      (Reachable.update _ _ _ _ _ _ Reachable.init) dev63 2024 3 0⟩

/-- C19: output order. For every record sequence and every worker count `nthreads ≥ 1`, the
keys of the merged global map appear in the order of first occurrence of the key in the
sequence of (record, sensor id 0..5) pairs, whatever the worker count; this is the key order
of the single-worker fold, and the global map has the very same list of entries as that
fold. -/
theorem output_order (records : List Record) (nthreads : Nat) (hW : 1 ≤ nthreads) :
    (pipeline records nthreads).keys = first_occurrences ((readings records).map Prod.fst) ∧
      (pipeline records nthreads).keys = (reference_fold records).keys ∧
      (pipeline records nthreads).entries = (reference_fold records).entries := by
  have hk : (pipeline records nthreads).keys = (reference_fold records).keys := by
    rw [keys_pipeline records nthreads hW, keys_reference_fold]
  refine ⟨keys_pipeline records nthreads hW, hk, ?_⟩
  have i1 := inv_pipeline records nthreads hW
  exact eq_of_keys_eq_of_lookup_eq _ _ hk i1.1
    (lookup_eq_of_inv i1 (inv_reference_fold records))

/-- C19 (witness): three records over two workers. -/
theorem output_order_witness :
    1 ≤ 2 ∧
      ((pipeline [sample_record 1, sample_record 2, sample_record 3] 2).keys =
          first_occurrences
            ((readings [sample_record 1, sample_record 2, sample_record 3]).map Prod.fst) ∧
        (pipeline [sample_record 1, sample_record 2, sample_record 3] 2).keys =
          (reference_fold [sample_record 1, sample_record 2, sample_record 3]).keys ∧
        (pipeline [sample_record 1, sample_record 2, sample_record 3] 2).entries =
          (reference_fold [sample_record 1, sample_record 2, sample_record 3]).entries) :=
  ⟨by decide, output_order [sample_record 1, sample_record 2, sample_record 3] 2 (by decide)⟩

/-- C20: lookup after upsert. For every map and every key whose device has fewer than
`MAX_DEVICE` characters, after `update_map` with that key `find_entry` for the same key
returns an index whose entry carries exactly that device, ano, mes and sensor id. Every
record built by the ingestion loop has as device the first `MAX_DEVICE - 1` characters of a
token, hence at most `MAX_DEVICE - 1` characters, so the precondition holds for every pair
that a worker hands to `update_map`. -/
theorem lookup_after_upsert (m : StatMap) (dev : String) (ano mes sid : Int) (val : ℚ)
    (h : dev.length < MAX_DEVICE) (strptime : String → Option Tm) (atof : String → ℚ)
    (lines : List String) (records : List Record) :
    (∃ i e, find_entry (update_map m dev ano mes sid val) dev ano mes sid = ((i : Nat) : Int) ∧
        (update_map m dev ano mes sid val).entries[i]? = some e ∧
        e.device = dev ∧ e.ano = ano ∧ e.mes = mes ∧ e.sensor_id = sid) ∧
      (∀ line r, ingest_step strptime atof line = LineOutcome.kept r →
        (∃ tok, r.device = strncpy (strncpy tok (MAX_DEVICE - 1)) (MAX_DEVICE - 1)) ∧
          r.device.length ≤ MAX_DEVICE - 1) ∧
      (∀ r ∈ (ingest strptime atof lines).records, r.device.length ≤ MAX_DEVICE - 1) ∧
      (∀ p ∈ readings records, p.1.1.length < MAX_DEVICE) := by
  refine ⟨?_, ?_, ?_, readings_device_lt records⟩
  · obtain ⟨j, e, hj, hget, hk⟩ :=
      find_entry_loop_of_mem dev ano mes sid (update_map m dev ano mes sid val).entries 0
        (hasKey_update_map m dev ano mes sid val h)
    refine ⟨j, e, ?_, hget, ?_⟩
    · unfold find_entry
      rw [hj, Nat.zero_add]
    · simp only [StatEntry.key, Prod.mk.injEq] at hk
      exact hk
  · intro line r hr
    refine ⟨?_, Nat.le_of_lt_succ r.device_lt⟩
    rcases Nat.lt_or_ge (strtok_all line).length 4 with h4 | h4
    · rw [ingest_step_of_short strptime atof line h4] at hr
      cases hr
    · obtain ⟨t0, tok, cnt, date, sens, htok⟩ := exists_four_of_length _ h4
      cases hdate : strptime (strncpy date 10) with
      | none =>
        rw [ingest_step_of_bad_date strptime atof line t0 tok cnt date sens htok hdate] at hr
        cases hr
      | some tm =>
        cases hc : before_cutoff (tm.tm_year + 1900) (tm.tm_mon + 1) with
        | true =>
          rw [ingest_step_of_before_cutoff strptime atof line t0 tok cnt date sens tm htok
            hdate hc] at hr
          cases hr
        | false =>
          rcases Nat.lt_or_ge sens.length N_SENSORS with hs | hs
          · rw [ingest_step_of_missing_sensor strptime atof line t0 tok cnt date sens tm htok
              hdate hc hs] at hr
            cases hr
          · obtain ⟨r2, hr2, hdev, _⟩ :=
              ingest_step_of_complete strptime atof line t0 tok cnt date sens tm htok hdate hc
                hs
            rw [hr2] at hr
            cases hr
            exact ⟨tok, hdev⟩
  · intro r _
    exact Nat.le_of_lt_succ r.device_lt

/-- C20 (witness): an upsert with the 63-character device `dev63` into `map63`. -/
theorem lookup_after_upsert_witness :
    dev63.length < MAX_DEVICE ∧
      ∃ i e, find_entry (update_map map63 dev63 2024 3 1 5) dev63 2024 3 1 = ((i : Nat) : Int) ∧
        (update_map map63 dev63 2024 3 1 5).entries[i]? = some e ∧
        e.device = dev63 ∧ e.ano = 2024 ∧ e.mes = 3 ∧ e.sensor_id = 1 :=
  ⟨by decide,
    (lookup_after_upsert map63 dev63 2024 3 1 5 (by decide) sample_strptime sample_atof []
      []).1⟩

end SensorStats
